import Mathlib

/-!
# Non-blocking inclusive scan (`src/mpi/coll/iscan.c`)

A shallow embedding of the schedule builders `MPIR_Iscan_rec_dbl`,
`MPIR_Iscan_SMP` and of the glue `MPIR_Iscan_impl`, together with an
executor for the recorded schedules.

Conventions of the embedding.

* A C `int` is kept as its 32-bit two's complement pattern, a `Nat` below
  `2 ^ 32`; comparisons read the pattern as a signed number (`toInt32`),
  `mask <<= 1` and `rank ^ mask` are taken modulo `2 ^ 32`.
* A buffer pointer is the name of the buffer (`Buf`).  The element count and
  the datatype are passed unchanged to every recorder in the source, so a
  step does not store them; `count` only decides the early exit.
* Every allocator, step recorder and delegated builder of the source is
  followed by the same test `if (mpi_errno) MPIU_ERR_POP(mpi_errno)`.  A
  builder is therefore written as the list of calls it makes, in source
  order (`Call`), and `runCalls` performs them one after the other against
  the environment, stopping at the first call that fails.  The calls of a
  loop are performed iteration by iteration (`runSome`, `runMaskLoop`), so a
  call that fails ends the builder whether or not the loop would end.
* `MPID_SCHED_BARRIER(s)` is a recorder like the others and may fail.
* The extent computations (`MPIR_Type_get_true_extent_impl`,
  `MPID_Datatype_get_extent_macro`, `MPID_Ensure_Aint_fits_in_pointer`) and
  the shift of a scratch pointer by `true_lb` record nothing and are left
  out: a scratch buffer is its name.
* The mask loop takes fuel; a builder returns `none` when no call fails and
  the loop does not end within it.
-/

set_option linter.constructorNameAsVariable false
set_option linter.unusedVariables false

namespace Iscan

/-! ## Machine integers -/

/-- The signed value of a 32-bit pattern. -/
def toInt32 (x : Nat) : Int :=
  if x % 2 ^ 32 < 2 ^ 31 then ((x % 2 ^ 32 : Nat) : Int)
  else ((x % 2 ^ 32 : Nat) : Int) - 2 ^ 32

/-- Signed comparison `a < b` of two `int`s. -/
def int_lt (a b : Nat) : Bool := decide (toInt32 a < toInt32 b)

/-- The statement `mask <<= 1` on an `int`. -/
def int_shl1 (m : Nat) : Nat := (m <<< 1) % 2 ^ 32

/-- The expression `rank ^ mask` on two `int`s. -/
def int_xor (a b : Nat) : Nat := (a ^^^ b) % 2 ^ 32

/-- The expression `a + b` on two `int`s. -/
def int_add (a b : Nat) : Nat := (a + b) % 2 ^ 32

/-- The expression `a - b` on two `int`s. -/
def int_sub (a b : Nat) : Nat := (a % 2 ^ 32 + (2 ^ 32 - b % 2 ^ 32)) % 2 ^ 32

/-! ## Buffers, steps, schedules -/

/-- The buffers the builders name: the caller's two buffers and the scratch
buffers of the flat builder (`partial_scan`, `tmp_buf`) and of the
hierarchical builder (`tempbuf`, `prefulldata`, `localfulldata`). -/
inductive Buf
  | sendbuf
  | recvbuf
  | partial_scan
  | tmp_buf
  | tempbuf
  | prefulldata
  | localfulldata
  deriving DecidableEq, Repr

/-- The `sendbuf` argument: `none` is `MPI_IN_PLACE`. -/
def MPI_IN_PLACE : Option Buf := none

/-- The communicators a step can name: the group of the request, its
same-node sub-group and its sub-group of node representatives. -/
inductive CommId
  | comm_ptr
  | node_comm
  | roots_comm
  deriving DecidableEq, Repr

/-- One entry of a schedule.  `reduce inbuf inoutbuf` is
`MPID_Sched_reduce(inbuf, inoutbuf, ...)`, that is
`inoutbuf := inbuf op inoutbuf`.  The last two constructors stand for the
steps of a delegated sub-group builder. -/
inductive Step
  | copy (src dst : Buf)
  | send (buf : Buf) (dest : Nat) (comm : CommId)
  | recv (buf : Buf) (src : Nat) (comm : CommId)
  | reduce (inbuf inoutbuf : Buf)
  | barrier
  | iscan (sendbuf : Option Buf) (recvbuf : Buf) (comm : CommId)
  | ibcast (buf : Buf) (root : Nat) (comm : CommId)
  deriving DecidableEq, Repr

/-- The schedule under construction (`MPID_Sched_t`): the steps recorded so
far, and the number of fallible calls made on it, which indexes the
environment's fault plan. -/
structure Sched where
  steps : List Step
  ncalls : Nat
  deriving DecidableEq, Repr

/-- `MPID_SCHED_NULL` turned into a fresh schedule by `MPID_Sched_create`. -/
def Sched.empty : Sched := ⟨[], 0⟩

/-- `MPI_SUCCESS`. -/
def MPI_SUCCESS : Nat := 0

/-- The environment of a construction: the error code returned by the
`k`-th fallible call (`0` for success).  For an allocation a non-zero code
means that the allocator returned `NULL`. -/
abbrev Faults := Nat → Nat

/-- The plan in which nothing fails. -/
def noFaults : Faults := fun _ => 0

/-- The operator handle; `MPIR_Op_is_commutative` reads the flag. -/
structure MPI_Op where
  is_commutative : Bool
  deriving DecidableEq, Repr

/-- A call made by a builder: a scratch allocation, a step recorder, a
delegated builder reached through a capability table, or an `MPIU_Assert`
with the value of its condition. -/
inductive Call
  | malloc (b : Buf)
  | record (st : Step)
  | delegate (f : Sched → Nat × Sched)
  | assert (cond : Bool)

/-- What an invocation of a builder leaves behind: the return code, the
schedule, the scratch buffers the invocation allocated, committed to the
schedule (`MPIR_SCHED_CHKPMEM_COMMIT`) and freed (`MPIR_SCHED_CHKPMEM_REAP`),
and the codes returned by the allocations, recorders and delegated builders
it called, in order. -/
structure Outcome where
  mpi_errno : Nat
  s : Sched
  allocated : List Buf
  committed : List Buf
  reaped : List Buf
  codes : List Nat
  deriving DecidableEq, Repr

/-- The end of an invocation: it returns, or an `MPIU_Assert` whose
condition is false stops the process. -/
inductive Result
  | returned (o : Outcome)
  | aborted
  deriving DecidableEq, Repr

/-- Modelled from the spec: the macros `MPIR_SCHED_CHKPMEM_MALLOC`,
`MPIR_SCHED_CHKPMEM_COMMIT`, `MPIR_SCHED_CHKPMEM_REAP`, `MPIU_ERR_POP` and
`MPIU_Assert` are not in the source tree.  Following the spec's
transactional arena (allocate-into-schedule, commit-on-success,
reap-all-on-failure), the calls are performed in order; the first one that
returns a non-zero code jumps to `fn_fail`, where every buffer allocated so
far is reaped; when all succeed every allocated buffer is committed.  An
assertion whose condition is false aborts.  `stack` holds the buffers
allocated so far and `codes` the codes returned so far. -/
def runCalls (env : Faults) : List Call → Sched → List Buf → List Nat → Result
  | [], s, stack, codes => Result.returned ⟨MPI_SUCCESS, s, stack, stack, [], codes⟩
  | Call.malloc b :: rest, s, stack, codes =>
    if env s.ncalls = 0 then
      runCalls env rest ⟨s.steps, s.ncalls + 1⟩ (stack ++ [b]) (codes ++ [0])
    else
      Result.returned ⟨env s.ncalls, ⟨s.steps, s.ncalls + 1⟩, stack, [], stack,
        codes ++ [env s.ncalls]⟩
  | Call.record st :: rest, s, stack, codes =>
    if env s.ncalls = 0 then
      runCalls env rest ⟨s.steps ++ [st], s.ncalls + 1⟩ stack (codes ++ [0])
    else
      Result.returned ⟨env s.ncalls, ⟨s.steps, s.ncalls + 1⟩, stack, [], stack,
        codes ++ [env s.ncalls]⟩
  | Call.delegate f :: rest, s, stack, codes =>
    if (f s).1 = 0 then runCalls env rest (f s).2 stack (codes ++ [0])
    else Result.returned ⟨(f s).1, (f s).2, stack, [], stack, codes ++ [(f s).1]⟩
  | Call.assert cond :: rest, s, stack, codes =>
    if cond then runCalls env rest s stack codes else Result.aborted

/-- Modelled from the spec (the same macros as `runCalls`, without the final
commit): the calls are performed in order until one fails.  `Except.ok`
holds the schedule, the buffers allocated so far and the codes returned so
far when every call succeeded, for the builder to go on from; `Except.error`
holds what the builder returns from `fn_fail`, where every buffer allocated
so far is reaped, when a call returned a non-zero code, or the abort of a
false assertion. -/
def runSome (env : Faults) : List Call → Sched → List Buf → List Nat →
    Except Result (Sched × List Buf × List Nat)
  | [], s, stack, codes => Except.ok (s, stack, codes)
  | Call.malloc b :: rest, s, stack, codes =>
    if env s.ncalls = 0 then
      runSome env rest ⟨s.steps, s.ncalls + 1⟩ (stack ++ [b]) (codes ++ [0])
    else
      Except.error (Result.returned ⟨env s.ncalls, ⟨s.steps, s.ncalls + 1⟩, stack, [], stack,
        codes ++ [env s.ncalls]⟩)
  | Call.record st :: rest, s, stack, codes =>
    if env s.ncalls = 0 then
      runSome env rest ⟨s.steps ++ [st], s.ncalls + 1⟩ stack (codes ++ [0])
    else
      Except.error (Result.returned ⟨env s.ncalls, ⟨s.steps, s.ncalls + 1⟩, stack, [], stack,
        codes ++ [env s.ncalls]⟩)
  | Call.delegate f :: rest, s, stack, codes =>
    if (f s).1 = 0 then runSome env rest (f s).2 stack (codes ++ [0])
    else
      Except.error (Result.returned ⟨(f s).1, (f s).2, stack, [], stack, codes ++ [(f s).1]⟩)
  | Call.assert cond :: rest, s, stack, codes =>
    if cond then runSome env rest s stack codes else Except.error Result.aborted

/-! ## Communicators -/

/-- The capability table `coll_fns` of a group: the scan builder
`Iscan(sendbuf, recvbuf, count, datatype, op, comm, s)` and the broadcast
builder `Ibcast(buf, count, datatype, root, comm, s)`; either pointer may be
null. -/
structure CollFns where
  Iscan : Option (Option Buf → Buf → Nat → MPI_Op → CommId → Sched → Nat × Sched)
  Ibcast : Option (Buf → Nat → Nat → CommId → Sched → Nat × Sched)

/-- A sub-group (`node_comm`, `node_roots_comm`) as the builder reads it. -/
structure SubComm where
  rank : Nat
  local_size : Nat
  coll_fns : Option CollFns

/-- The group of the request (`MPID_Comm`).  `is_node_consecutive` is the
result of `MPIR_Comm_is_node_consecutive(comm_ptr)` and `internode_rank`
that of `MPIU_Get_internode_rank(comm_ptr, rank)`; neither function is in
the source tree. -/
structure Comm where
  id : CommId
  rank : Nat
  local_size : Nat
  is_node_consecutive : Bool
  node_comm : Option SubComm
  node_roots_comm : Option SubComm
  internode_rank : Nat
  coll_fns : Option CollFns

/-! ## The flat builder -/

/-- The body of one iteration of `while (mask < comm_size)` in
`MPIR_Iscan_rec_dbl`, lines 123-157. -/
def roundCalls (is_commutative : Bool) (recvbuf : Buf) (id : CommId)
    (rank comm_size mask : Nat) : List Call :=
  let dst := int_xor rank mask
  if int_lt dst comm_size then
    [Call.record (Step.send Buf.partial_scan dst id),
     Call.record (Step.recv Buf.tmp_buf dst id),
     Call.record Step.barrier] ++
    (if int_lt dst rank then
      [Call.record (Step.reduce Buf.tmp_buf Buf.partial_scan),
       Call.record (Step.reduce Buf.tmp_buf recvbuf),
       Call.record Step.barrier]
    else if is_commutative then
      [Call.record (Step.reduce Buf.tmp_buf Buf.partial_scan),
       Call.record Step.barrier]
    else
      [Call.record (Step.reduce Buf.partial_scan Buf.tmp_buf),
       Call.record Step.barrier,
       Call.record (Step.copy Buf.tmp_buf Buf.partial_scan),
       Call.record Step.barrier])
  else []

/-- The calls made by the loop `while (mask < comm_size) { ...; mask <<= 1; }`,
lines 122-159, in a run in which no call fails.  `none` when the fuel does
not suffice to leave the loop. -/
def maskLoop (is_commutative : Bool) (recvbuf : Buf) (id : CommId)
    (rank comm_size : Nat) : Nat → Nat → Option (List Call)
  | 0, _ => none
  | fuel + 1, mask =>
    if int_lt mask comm_size then
      (maskLoop is_commutative recvbuf id rank comm_size fuel (int_shl1 mask)).map
        (fun rest => roundCalls is_commutative recvbuf id rank comm_size mask ++ rest)
    else some []

/-- The calls of `MPIR_Iscan_rec_dbl` before the loop, lines 86-119. -/
def recDblInit (sendbuf : Option Buf) (recvbuf : Buf) : List Call :=
  [Call.malloc Buf.partial_scan, Call.malloc Buf.tmp_buf] ++
  (match sendbuf with
    | some sb => [Call.record (Step.copy sb recvbuf)]
    | none => []) ++
  [match sendbuf with
    | some sb => Call.record (Step.copy sb Buf.partial_scan)
    | none => Call.record (Step.copy recvbuf Buf.partial_scan)]

/-- The loop `while (mask < comm_size) { ...; mask <<= 1; }`, lines 122-159,
run on the schedule `s` with the scratch buffers `stack` allocated and the
codes `codes` returned so far: every iteration performs the calls of its
body, the first call that fails ends the builder through `fn_fail`, and the
end of the loop leads to the commit of line 161 and the return of
`MPI_SUCCESS`.  `none` when the fuel does not suffice to leave the loop. -/
def runMaskLoop (env : Faults) (is_commutative : Bool) (recvbuf : Buf) (id : CommId)
    (rank comm_size : Nat) : Nat → Nat → Sched → List Buf → List Nat → Option Result
  | 0, _, _, _, _ => none
  | fuel + 1, mask, s, stack, codes =>
    if int_lt mask comm_size then
      match runSome env (roundCalls is_commutative recvbuf id rank comm_size mask)
          s stack codes with
      | Except.error r => some r
      | Except.ok (s1, stack1, codes1) =>
        runMaskLoop env is_commutative recvbuf id rank comm_size fuel (int_shl1 mask)
          s1 stack1 codes1
    else some (Result.returned ⟨MPI_SUCCESS, s, stack, stack, [], codes⟩)

/-- `MPIR_Iscan_rec_dbl`, lines 68-167: the test of `count`, the calls before
the loop, and the loop; a call that fails ends the builder at once.  `none`
when the mask loop does not end within the fuel. -/
def MPIR_Iscan_rec_dbl (fuel : Nat) (env : Faults) (sendbuf : Option Buf) (recvbuf : Buf)
    (count : Nat) (op : MPI_Op) (comm_ptr : Comm) (s : Sched) : Option Result :=
  if count = 0 then some (Result.returned ⟨MPI_SUCCESS, s, [], [], [], []⟩)
  else
    match runSome env (recDblInit sendbuf recvbuf) s [] [] with
    | Except.error r => some r
    | Except.ok (s1, stack1, codes1) =>
      runMaskLoop env op.is_commutative recvbuf comm_ptr.id comm_ptr.rank
        comm_ptr.local_size fuel 1 s1 stack1 codes1

/-! ## The hierarchical builder -/

/-- A call through the function pointer `coll_fns->Iscan` of a sub-group; a
null table or a null pointer stops the process. -/
def callIscan (c : SubComm) (id : CommId) (sendbuf : Option Buf) (recvbuf : Buf)
    (count : Nat) (op : MPI_Op) : Call :=
  match c.coll_fns.bind (fun t => t.Iscan) with
  | some f => Call.delegate (f sendbuf recvbuf count op id)
  | none => Call.assert false

/-- A call through the function pointer `coll_fns->Ibcast` of a sub-group. -/
def callIbcast (c : SubComm) (id : CommId) (buf : Buf) (count root : Nat) : Call :=
  match c.coll_fns.bind (fun t => t.Ibcast) with
  | some f => Call.delegate (f buf count root id)
  | none => Call.assert false

/-- The condition of the assertion on `node_comm`, line 198. -/
def nodeTableOk (c : SubComm) : Bool :=
  match c.coll_fns with
  | some t => t.Iscan.isSome && t.Ibcast.isSome
  | none => false

/-- The condition of the assertion on `roots_comm`, line 201. -/
def rootsTableOk (c : SubComm) : Bool :=
  match c.coll_fns with
  | some t => t.Iscan.isSome
  | none => false

/-- The calls of `MPIR_Iscan_SMP` on a node-consecutive group,
lines 195-303. -/
def smpCalls (sendbuf : Option Buf) (recvbuf : Buf) (count : Nat) (op : MPI_Op)
    (comm_ptr : Comm) : List Call :=
  let node_comm := comm_ptr.node_comm
  let roots_comm := comm_ptr.node_roots_comm
  -- lines 197-202
  (match node_comm with
    | some nc => [Call.assert (nodeTableOk nc)]
    | none => []) ++
  (match roots_comm with
    | some rc => [Call.assert (rootsTableOk rc)]
    | none => []) ++
  -- lines 209-224
  [Call.malloc Buf.tempbuf] ++
  (match roots_comm with
    | some _ =>
      [Call.malloc Buf.prefulldata] ++
      (match node_comm with
        | some _ => [Call.malloc Buf.localfulldata]
        | none => [])
    | none => []) ++
  -- lines 228-238
  (match node_comm with
    | some nc =>
      [callIscan nc CommId.node_comm sendbuf recvbuf count op, Call.record Step.barrier]
    | none =>
      match sendbuf with
      | some sb => [Call.record (Step.copy sb recvbuf), Call.record Step.barrier]
      | none => []) ++
  -- lines 244-257
  (match roots_comm, node_comm with
    | some _, some nc =>
      [Call.record (Step.recv Buf.localfulldata (int_sub nc.local_size 1) CommId.node_comm),
       Call.record Step.barrier]
    | none, some nc =>
      if nc.rank = int_sub nc.local_size 1 then
        [Call.record (Step.send recvbuf 0 CommId.node_comm), Call.record Step.barrier]
      else []
    | _, none => []) ++
  -- lines 263-282
  (match roots_comm with
    | some rc =>
      let localfulldata := match node_comm with
        | some _ => Buf.localfulldata
        | none => recvbuf
      let roots_rank := comm_ptr.internode_rank
      [Call.assert (decide (roots_rank = rc.rank)),
       callIscan rc CommId.roots_comm (some localfulldata) Buf.prefulldata count op,
       Call.record Step.barrier] ++
      (if roots_rank ≠ int_sub rc.local_size 1 then
        [Call.record (Step.send Buf.prefulldata (int_add roots_rank 1) CommId.roots_comm),
         Call.record Step.barrier]
      else []) ++
      (if roots_rank ≠ 0 then
        [Call.record (Step.recv Buf.tempbuf (int_sub roots_rank 1) CommId.roots_comm),
         Call.record Step.barrier]
      else [])
    | none => []) ++
  -- lines 290-303
  (if comm_ptr.internode_rank ≠ 0 then
    (match node_comm with
      | some nc =>
        [callIbcast nc CommId.node_comm Buf.tempbuf count 0, Call.record Step.barrier]
      | none => []) ++
    [Call.record (Step.reduce Buf.tempbuf recvbuf)]
  else [])

/-- `MPIR_Iscan_SMP`, lines 173-311. -/
def MPIR_Iscan_SMP (fuel : Nat) (env : Faults) (sendbuf : Option Buf) (recvbuf : Buf)
    (count : Nat) (op : MPI_Op) (comm_ptr : Comm) (s : Sched) : Option Result :=
  if !comm_ptr.is_node_consecutive then
    MPIR_Iscan_rec_dbl fuel env sendbuf recvbuf count op comm_ptr s
  else
    some (runCalls env (smpCalls sendbuf recvbuf count op comm_ptr) s [] [])

/-! ## Execution of schedules

Every rank executes its own schedule in recorded order.  A `recv` takes the
value of the matching `send`: the `j`-th `recv` of rank `r` from rank `p` on
a communicator takes what `p` sends in its `j`-th `send` to `r` on that
communicator, which is the content of the sent buffer when `p` has executed
the steps recorded before that `send`.  The value is therefore obtained by
running the sender up to the `send`; `fuel` bounds the depth of this chain
of dependencies, and a `recv` whose `send` cannot be reached within it (a
missing `send`, a cycle of `recv`s waiting for each other) yields `none`. -/

/-- The local memory of a rank: the content of each buffer. -/
abbrev Mem (α : Type) := Buf → α

/-- The store `m[b] := v`. -/
def Mem.set {α : Type} (m : Mem α) (b : Buf) (v : α) : Mem α :=
  fun x => if x = b then v else m x

/-- A set of ranks with their schedules.  `members r c` lists the global
ranks of the communicator `c` as rank `r` sees it, in the rank order of
`c`. -/
structure World (α : Type) where
  op : α → α → α
  sched : Nat → List Step
  init : Nat → Mem α
  members : Nat → CommId → List Nat

/-- The values that reach a rank from the others: `msg c p r j` is the
`j`-th message from global rank `p` to global rank `r` on `c`, `coll c p j`
the input of global rank `p` to its `j`-th collective on `c`. -/
structure Feed (α : Type) where
  msg : CommId → Nat → Nat → Nat → Option α
  coll : CommId → Nat → Nat → Option α

/-- Number of `recv` steps from `src` on `c` in a list of steps. -/
def countRecv (c : CommId) (src : Nat) (l : List Step) : Nat :=
  l.countP (fun st =>
    match st with
    | Step.recv _ src1 c1 => decide (src1 = src ∧ c1 = c)
    | _ => false)

/-- Number of collective steps on `c` in a list of steps. -/
def countColl (c : CommId) (l : List Step) : Nat :=
  l.countP (fun st =>
    match st with
    | Step.iscan _ _ c1 => decide (c1 = c)
    | Step.ibcast _ _ c1 => decide (c1 = c)
    | _ => false)

/-- Left-to-right combination of a non-empty sequence: `foldFrom op a [b, c]`
is `(a op b) op c`. -/
def foldFrom {α : Type} (op : α → α → α) (a : α) (l : List α) : α :=
  l.foldl op a

/-- Left-to-right combination of `vs` followed by `last`. -/
def combineThen {α : Type} (op : α → α → α) (vs : List α) (last : α) : α :=
  match vs with
  | [] => last
  | v :: rest => foldFrom op v (rest ++ [last])

/-- One step of rank `me`, after the steps `done`, in memory `m`. -/
def runStep {α : Type} (W : World α) (feed : Feed α) (me : Nat) (done : List Step)
    (st : Step) (m : Mem α) : Option (Mem α) :=
  match st with
  | Step.copy src dst => some (m.set dst (m src))
  | Step.send _ _ _ => some m
  | Step.barrier => some m
  | Step.reduce inbuf inoutbuf => some (m.set inoutbuf (W.op (m inbuf) (m inoutbuf)))
  | Step.recv buf src c =>
    match (W.members me c)[src]? with
    | none => none
    | some p => (feed.msg c p me (countRecv c src done)).map (fun v => m.set buf v)
  | Step.iscan sendbuf recvbuf c =>
    let own := match sendbuf with
      | some sb => m sb
      | none => m recvbuf
    let lower := (W.members me c).take ((W.members me c).indexOf me)
    (lower.mapM (fun p => feed.coll c p (countColl c done))).map
      (fun vs => m.set recvbuf (combineThen W.op vs own))
  | Step.ibcast buf root c =>
    match (W.members me c)[root]? with
    | none => none
    | some p =>
      if p = me then some m
      else (feed.coll c p (countColl c done)).map (fun v => m.set buf v)

/-- The steps `todo` of rank `me`, in order, after the steps `done`. -/
def runSteps {α : Type} (W : World α) (feed : Feed α) (me : Nat) :
    List Step → List Step → Mem α → Option (Mem α)
  | _, [], m => some m
  | done, st :: rest, m =>
    match runStep W feed me done st m with
    | none => none
    | some m1 => runSteps W feed me (done ++ [st]) rest m1

/-- The steps before the `j`-th `send` of rank `p` to global rank `r` on `c`,
and the buffer it sends. -/
def findSend {α : Type} (W : World α) (p : Nat) (c : CommId) (r : Nat) :
    Nat → List Step → List Step → Option (List Step × Buf)
  | _, _, [] => none
  | j, done, Step.send buf dest c1 :: rest =>
    if c1 = c ∧ (W.members p c)[dest]? = some r then
      match j with
      | 0 => some (done, buf)
      | j1 + 1 => findSend W p c r j1 (done ++ [Step.send buf dest c1]) rest
    else findSend W p c r j (done ++ [Step.send buf dest c1]) rest
  | j, done, st :: rest => findSend W p c r j (done ++ [st]) rest

/-- The steps before the `j`-th collective of a rank on `c`, and the buffer
that holds its input. -/
def findColl (c : CommId) : Nat → List Step → List Step → Option (List Step × Buf)
  | _, _, [] => none
  | j, done, Step.iscan sendbuf recvbuf c1 :: rest =>
    if c1 = c then
      match j with
      | 0 => some (done, sendbuf.getD recvbuf)
      | j1 + 1 => findColl c j1 (done ++ [Step.iscan sendbuf recvbuf c1]) rest
    else findColl c j (done ++ [Step.iscan sendbuf recvbuf c1]) rest
  | j, done, Step.ibcast buf root c1 :: rest =>
    if c1 = c then
      match j with
      | 0 => some (done, buf)
      | j1 + 1 => findColl c j1 (done ++ [Step.ibcast buf root c1]) rest
    else findColl c j (done ++ [Step.ibcast buf root c1]) rest
  | j, done, st :: rest => findColl c j (done ++ [st]) rest

/-- The values delivered when chains of at most `fuel` dependencies are
followed. -/
def feedN {α : Type} (W : World α) : Nat → Feed α
  | 0 => ⟨fun _ _ _ _ => none, fun _ _ _ => none⟩
  | fuel + 1 =>
    ⟨fun c p r j =>
      match findSend W p c r j [] (W.sched p) with
      | none => none
      | some (pre, buf) =>
        (runSteps W (feedN W fuel) p [] pre (W.init p)).map (fun m => m buf),
     fun c p j =>
      match findColl c j [] (W.sched p) with
      | none => none
      | some (pre, buf) =>
        (runSteps W (feedN W fuel) p [] pre (W.init p)).map (fun m => m buf)⟩

/-- The memory of rank `r` when it has executed its whole schedule. -/
def execute {α : Type} (W : World α) (fuel : Nat) (r : Nat) : Option (Mem α) :=
  runSteps W (feedN W fuel) r [] (W.sched r) (W.init r)

/-- The steps a builder appended to an empty schedule; `[]` when it did not
return. -/
def stepsOf (res : Option Result) : List Step :=
  match res with
  | some (Result.returned o) => o.s.steps
  | _ => []

/-- The communicator of rank `rank` in a flat group of `size` ranks. -/
def flatComm (size rank : Nat) : Comm :=
  ⟨CommId.comm_ptr, rank, size, false, none, none, 0, none⟩

/-- The world of a flat scan: every rank of a group of `size` ranks runs
`MPIR_Iscan_rec_dbl` on a fresh schedule with nothing failing, and starts
with the memory `init r`. -/
def flatWorld {α : Type} (fuel : Nat) (op : MPI_Op) (f : α → α → α) (size : Nat)
    (sendbuf : Nat → Option Buf) (count : Nat) (init : Nat → Mem α) : World α :=
  { op := f
    sched := fun r =>
      stepsOf (MPIR_Iscan_rec_dbl fuel noFaults (sendbuf r) Buf.recvbuf count op
        (flatComm size r) Sched.empty)
    init := init
    members := fun _ _ => List.range size }

/-- The contribution of a rank: the content of `sendbuf`, or of `recvbuf`
when the scan is in place. -/
def contribution {α : Type} (sendbuf : Option Buf) (m : Mem α) : α :=
  match sendbuf with
  | some sb => m sb
  | none => m Buf.recvbuf

/-- The strict left-to-right combination `x lo op x (lo+1) op ... op x (lo+n)`. -/
def scanRange {α : Type} (f : α → α → α) (x : Nat → α) (lo : Nat) : Nat → α
  | 0 => x lo
  | n + 1 => f (scanRange f x lo n) (x (lo + n + 1))

/-- The steps recorded by a list of calls when nothing fails. -/
def callSteps : List Call → List Step
  | [] => []
  | Call.record st :: rest => st :: callSteps rest
  | _ :: rest => callSteps rest

/-- The buffers allocated by a list of calls when nothing fails. -/
def callMallocs : List Call → List Buf
  | [] => []
  | Call.malloc b :: rest => b :: callMallocs rest
  | _ :: rest => callMallocs rest

/-- A call that is an allocation or a step recorder. -/
def Call.isPlain : Call → Bool
  | Call.malloc _ => true
  | Call.record _ => true
  | _ => false

/-- The calls of `n` consecutive iterations of the mask loop, the first with
`mask = 2 ^ k`. -/
def roundsFrom (is_commutative : Bool) (recvbuf : Buf) (id : CommId)
    (rank comm_size : Nat) : Nat → Nat → List Call
  | 0, _ => []
  | n + 1, k =>
    roundCalls is_commutative recvbuf id rank comm_size (2 ^ k) ++
      roundsFrom is_commutative recvbuf id rank comm_size n (k + 1)

/-- The steps of one iteration of the mask loop with `mask = 2 ^ k`, for a
rank whose partner `p` is in the group. -/
def exchangeSteps (is_commutative : Bool) (recvbuf : Buf) (id : CommId)
    (rank p : Nat) : List Step :=
  [Step.send Buf.partial_scan p id, Step.recv Buf.tmp_buf p id, Step.barrier] ++
  (if p < rank then
    [Step.reduce Buf.tmp_buf Buf.partial_scan, Step.reduce Buf.tmp_buf recvbuf, Step.barrier]
  else if is_commutative then
    [Step.reduce Buf.tmp_buf Buf.partial_scan, Step.barrier]
  else
    [Step.reduce Buf.partial_scan Buf.tmp_buf, Step.barrier,
     Step.copy Buf.tmp_buf Buf.partial_scan, Step.barrier])

/-- The steps of the flat schedule of a rank up to the iteration with
`mask = 2 ^ k`, excluded. -/
def flatPre (is_commutative : Bool) (sendbuf : Option Buf) (rank comm_size k : Nat) :
    List Step :=
  callSteps (recDblInit sendbuf Buf.recvbuf) ++
    callSteps (roundsFrom is_commutative Buf.recvbuf CommId.comm_ptr rank comm_size k 0)

/-- Four ranks that contribute the symbols `A`, `B`, `C`, `D` in `sendbuf`;
every other buffer is empty. -/
def abcdInit : Nat → Mem (List Char) := fun r b =>
  if b = Buf.sendbuf then [Char.ofNat (65 + r)] else []

/-! ## Node-consecutive groups -/

/-- A node-consecutive layout: `N` nodes, node `i` holds the global ranks
`base i`, ..., `base (i + 1) - 1`, and `nodeOf r` is the node of rank `r`. -/
structure Topo where
  N : Nat
  base : Nat → Nat
  nodeOf : Nat → Nat

/-- The number of ranks of the group. -/
def Topo.size (t : Topo) : Nat := t.base t.N

/-- The number of ranks on node `i`. -/
def Topo.sz (t : Topo) (i : Nat) : Nat := t.base (i + 1) - t.base i

/-- The rank of `r` inside its node. -/
def Topo.localRank (t : Topo) (r : Nat) : Nat := r - t.base (t.nodeOf r)

/-- Modelled from the spec: the scan builder of a sub-group is reached through
a function pointer and is not in the source tree.  A correct one records an
inclusive scan of the sub-group from `sendbuf` into `recvbuf` (section 6:
`scan(sendbuf, recvbuf, count, dtype, op, group, schedule)`), kept here as
one step, and succeeds. -/
def subIscan (sendbuf : Option Buf) (recvbuf : Buf) (count : Nat) (op : MPI_Op)
    (id : CommId) (s : Sched) : Nat × Sched :=
  (MPI_SUCCESS, ⟨s.steps ++ [Step.iscan sendbuf recvbuf id], s.ncalls + 1⟩)

/-- Modelled from the spec: the broadcast builder of a sub-group is reached
through a function pointer and is not in the source tree.  A correct one
records a broadcast of `buf` from `root` to the sub-group (section 6:
`broadcast(buf, count, dtype, root, group, schedule)`), kept here as one
step, and succeeds. -/
def subIbcast (buf : Buf) (count root : Nat) (id : CommId) (s : Sched) : Nat × Sched :=
  (MPI_SUCCESS, ⟨s.steps ++ [Step.ibcast buf root id], s.ncalls + 1⟩)

/-- The capability table of a sub-group whose builders are correct. -/
def subTable : CollFns := ⟨some subIscan, some subIbcast⟩

/-- The group as rank `r` of a layout sees it: `node_comm` is absent exactly
on a node of one rank, `node_roots_comm` is present exactly on local rank 0,
and the inter-node rank is the index of the node. -/
def smpComm (t : Topo) (r : Nat) : Comm :=
  { id := CommId.comm_ptr
    rank := r
    local_size := t.size
    is_node_consecutive := true
    node_comm :=
      if 1 < t.sz (t.nodeOf r) then some ⟨t.localRank r, t.sz (t.nodeOf r), some subTable⟩
      else none
    node_roots_comm :=
      if t.localRank r = 0 then some ⟨t.nodeOf r, t.N, some subTable⟩ else none
    internode_rank := t.nodeOf r
    coll_fns := none }

/-- The world of a hierarchical scan: every rank of the layout runs
`MPIR_Iscan_SMP` on a fresh schedule with nothing failing. -/
def smpWorld {α : Type} (fuel : Nat) (op : MPI_Op) (f : α → α → α) (t : Topo)
    (sendbuf : Nat → Option Buf) (count : Nat) (init : Nat → Mem α) : World α :=
  { op := f
    sched := fun r =>
      stepsOf (MPIR_Iscan_SMP fuel noFaults (sendbuf r) Buf.recvbuf count op
        (smpComm t r) Sched.empty)
    init := init
    members := fun r c =>
      match c with
      | CommId.comm_ptr => List.range t.size
      | CommId.node_comm =>
        (List.range (t.sz (t.nodeOf r))).map (fun l => t.base (t.nodeOf r) + l)
      | CommId.roots_comm => (List.range t.N).map t.base }

/-- The relay steps of the representative of node `i` among `N` nodes. -/
def relaySteps (i N : Nat) : List Step :=
  (if i ≠ N - 1 then
    [Step.send Buf.prefulldata (i + 1) CommId.roots_comm, Step.barrier]
  else []) ++
  (if i ≠ 0 then
    [Step.recv Buf.tempbuf (i - 1) CommId.roots_comm, Step.barrier]
  else [])

/-- The steps up to the scan among representatives, excluded, of the
representative of a node of `n` ranks. -/
def rootPre (sendbuf : Option Buf) (n : Nat) : List Step :=
  if 1 < n then
    [Step.iscan sendbuf Buf.recvbuf CommId.node_comm, Step.barrier,
     Step.recv Buf.localfulldata (n - 1) CommId.node_comm, Step.barrier]
  else
    match sendbuf with
    | some sb => [Step.copy sb Buf.recvbuf, Step.barrier]
    | none => []

/-- The buffer that holds the total of the node on its representative. -/
def rootTotalBuf (n : Nat) : Buf := if 1 < n then Buf.localfulldata else Buf.recvbuf

/-- The steps of the fix-up on a node of `n` ranks with index `i`. -/
def fixupSteps (i n : Nat) : List Step :=
  if i ≠ 0 then
    (if 1 < n then [Step.ibcast Buf.tempbuf 0 CommId.node_comm, Step.barrier] else []) ++
    [Step.reduce Buf.tempbuf Buf.recvbuf]
  else []

/-- The hierarchical schedule of a rank with local rank `l` on node `i` of
`n` ranks, among `N` nodes. -/
def smpSteps (sendbuf : Option Buf) (i l n N : Nat) : List Step :=
  if l = 0 then
    rootPre sendbuf n ++
    [Step.iscan (some (rootTotalBuf n)) Buf.prefulldata CommId.roots_comm, Step.barrier] ++
    relaySteps i N ++ fixupSteps i n
  else
    [Step.iscan sendbuf Buf.recvbuf CommId.node_comm, Step.barrier] ++
    (if l = n - 1 then [Step.send Buf.recvbuf 0 CommId.node_comm, Step.barrier] else []) ++
    fixupSteps i n

/-- A well-formed layout: node 0 starts at rank 0, every node has at least
one rank, every rank lies in the interval of its node, and the number of
ranks fits in an `int`. -/
def Topo.WF (t : Topo) : Prop :=
  t.base 0 = 0 ∧ t.size < 2 ^ 31 ∧
  (∀ i, i < t.N → t.base i < t.base (i + 1)) ∧
  (∀ r, r < t.size → t.nodeOf r < t.N ∧ t.base (t.nodeOf r) ≤ r ∧
    r < t.base (t.nodeOf r + 1))

/-- The world `W` runs the hierarchical schedules of the layout `t`. -/
def IsSmpWorld {α : Type} (W : World α) (t : Topo) (sendbuf : Nat → Option Buf) : Prop :=
  (∀ r, W.members r CommId.node_comm =
    (List.range (t.sz (t.nodeOf r))).map (fun l => t.base (t.nodeOf r) + l)) ∧
  (∀ r, W.members r CommId.roots_comm = (List.range t.N).map t.base) ∧
  (∀ r, r < t.size → W.sched r =
    smpSteps (sendbuf r) (t.nodeOf r) (t.localRank r) (t.sz (t.nodeOf r)) t.N)

/-- The combination of the contributions of node `i`. -/
def nodeTotal {α : Type} (f : α → α → α) (x : Nat → α) (t : Topo) (i : Nat) : α :=
  scanRange f x (t.base i) (t.sz i - 1)

/-- Two nodes of two ranks: ranks 0, 1 on node 0 and ranks 2, 3 on node 1. -/
def twoByTwo : Topo := ⟨2, fun i => 2 * i, fun r => r / 2⟩

/-- One node that holds all the `2 ^ 30 + 1` ranks of a group. -/
def oneBigNode : Topo := ⟨1, fun i => i * (2 ^ 30 + 1), fun _ => 0⟩

/-- Every rank contributes `1` in `sendbuf`; the other buffers hold `0`. -/
def onesInit : Nat → Mem Int := fun _ b => if b = Buf.sendbuf then 1 else 0

/-- A sub-group scan builder that, like the flat builder, records nothing
when `count` is zero. -/
def quietIscan (sendbuf : Option Buf) (recvbuf : Buf) (count : Nat) (op : MPI_Op)
    (id : CommId) (s : Sched) : Nat × Sched :=
  if count = 0 then (MPI_SUCCESS, s) else subIscan sendbuf recvbuf count op id s

/-- A sub-group broadcast builder that records nothing when `count` is zero. -/
def quietIbcast (buf : Buf) (count root : Nat) (id : CommId) (s : Sched) : Nat × Sched :=
  if count = 0 then (MPI_SUCCESS, s) else subIbcast buf count root id s

/-- The group as rank 3 of two nodes of two ranks sees it (last rank of node
1, not a representative), with sub-group builders that record nothing for a
count of zero. -/
def rank3Comm : Comm :=
  { id := CommId.comm_ptr
    rank := 3
    local_size := 4
    is_node_consecutive := true
    node_comm := some ⟨1, 2, some ⟨some quietIscan, some quietIbcast⟩⟩
    node_roots_comm := none
    internode_rank := 1
    coll_fns := none }

/-- A node-consecutive group whose same-node sub-group has no capability
table. -/
def noTableComm : Comm :=
  { id := CommId.comm_ptr
    rank := 1
    local_size := 4
    is_node_consecutive := true
    node_comm := some ⟨1, 2, none⟩
    node_roots_comm := none
    internode_rank := 0
    coll_fns := none }

/-- A node-consecutive group whose sub-group of representatives has a
capability table without a scan builder. -/
def noRootScanComm : Comm :=
  { id := CommId.comm_ptr
    rank := 2
    local_size := 4
    is_node_consecutive := true
    node_comm := some ⟨0, 2, some subTable⟩
    node_roots_comm := some ⟨1, 2, some ⟨none, some subIbcast⟩⟩
    internode_rank := 1
    coll_fns := none }

/-- The fault plan in which the call with index `k` fails with code 16. -/
def failAt (k : Nat) : Faults := fun i => if i = k then 16 else 0

/-! ## The request glue -/

/-- `MPI_REQUEST_NULL`. -/
def MPI_REQUEST_NULL : Nat := 0x2c000000

/-- The engine primitives `MPIR_Iscan_impl` calls, none of which is in the
source tree: `MPID_Sched_next_tag` returns a code and the tag,
`MPID_Sched_create` a code and the schedule, `MPID_Sched_start` a code and
the handle of the request it created, `none` when `reqp` stays `NULL`. -/
structure Engine where
  MPID_Sched_next_tag : Nat × Nat
  MPID_Sched_create : Nat × Sched
  MPID_Sched_start : Sched → Nat → Nat × Option Nat

/-- The calls `MPIR_Iscan_impl` makes. -/
inductive ImplCall
  | next_tag
  | create
  | Iscan
  | start
  deriving DecidableEq, Repr

/-- What `MPIR_Iscan_impl` leaves behind: the return code, the value of
`*request`, and the calls it made, in order. -/
structure ImplOutcome where
  mpi_errno : Nat
  request : Nat
  trace : List ImplCall
  deriving DecidableEq, Repr

/-- The end of `MPIR_Iscan_impl`: it returns, or an `MPIU_Assert` stops the
process. -/
inductive ImplResult
  | returned (o : ImplOutcome)
  | aborted
  deriving DecidableEq, Repr

/-- `MPIR_Iscan_impl`, lines 317-345. -/
def MPIR_Iscan_impl (E : Engine) (sendbuf : Option Buf) (recvbuf : Buf) (count : Nat)
    (op : MPI_Op) (comm_ptr : Comm) : ImplResult :=
  -- *request = MPI_REQUEST_NULL
  let request := MPI_REQUEST_NULL
  let r1 := E.MPID_Sched_next_tag
  if r1.1 ≠ 0 then ImplResult.returned ⟨r1.1, request, [ImplCall.next_tag]⟩
  else
    let tag := r1.2
    let r2 := E.MPID_Sched_create
    if r2.1 ≠ 0 then
      ImplResult.returned ⟨r2.1, request, [ImplCall.next_tag, ImplCall.create]⟩
    else
      let s := r2.2
      -- MPIU_Assert(comm_ptr->coll_fns != NULL); MPIU_Assert(...->Iscan != NULL)
      match comm_ptr.coll_fns.bind (fun t => t.Iscan) with
      | none => ImplResult.aborted
      | some Iscan =>
        let r3 := Iscan sendbuf recvbuf count op comm_ptr.id s
        if r3.1 ≠ 0 then
          ImplResult.returned
            ⟨r3.1, request, [ImplCall.next_tag, ImplCall.create, ImplCall.Iscan]⟩
        else
          let r4 := E.MPID_Sched_start r3.2 tag
          -- if (reqp) *request = reqp->handle
          let request1 := match r4.2 with
            | some handle => handle
            | none => request
          ImplResult.returned
            ⟨r4.1, request1,
              [ImplCall.next_tag, ImplCall.create, ImplCall.Iscan, ImplCall.start]⟩

/-- An engine whose `MPID_Sched_create` fails with code 16. -/
def failingCreate : Engine := ⟨(0, 7), (16, Sched.empty), fun _ _ => (0, some 1)⟩

/-- A group whose scan builder is the correct sub-group builder. -/
def tableComm : Comm :=
  ⟨CommId.comm_ptr, 0, 1, false, none, none, 0, some subTable⟩

/-! ## Observations on the flat schedule -/

/-- The values of `mask` at the successive iterations of
`while (mask < comm_size) { ...; mask <<= 1; }` started at `mask`, at most
`fuel` of them: the loop of `maskLoop` without its body. -/
def maskTrace (comm_size : Nat) : Nat → Nat → List Nat
  | 0, _ => []
  | fuel + 1, mask =>
    if int_lt mask comm_size then mask :: maskTrace comm_size fuel (int_shl1 mask)
    else []

/-- The number of exchanges of a schedule: a `send` to a partner followed, with
no barrier or other step between them, by a `recv` from the same partner on
the same communicator. -/
def countExchanges : List Step → Nat
  | [] => 0
  | Step.send _ p c :: rest =>
    (match rest with
      | Step.recv _ q c1 :: _ => if p = q ∧ c = c1 then 1 else 0
      | _ => 0) + countExchanges rest
  | _ :: rest => countExchanges rest

/-- The number of `reduce` steps at the head of a schedule, before its first
`send`. -/
def reduceRun : List Step → Nat
  | [] => 0
  | Step.send _ _ _ :: _ => 0
  | Step.reduce _ _ :: rest => 1 + reduceRun rest
  | _ :: rest => reduceRun rest

/-- For each `send` of a schedule, in order, the number of `reduce` steps
recorded after it and before the next `send`. -/
def reduceRuns : List Step → List Nat
  | [] => []
  | Step.send _ _ _ :: rest => reduceRun rest :: reduceRuns rest
  | _ :: rest => reduceRuns rest

/-- The buffer a step writes, if any. -/
def Step.writes : Step → Option Buf
  | Step.copy _ dst => some dst
  | Step.recv buf _ _ => some buf
  | Step.reduce _ inoutbuf => some inoutbuf
  | Step.iscan _ recvbuf _ => some recvbuf
  | Step.ibcast buf _ _ => some buf
  | Step.send _ _ _ => none
  | Step.barrier => none

/-- The buffers a step reads. -/
def Step.reads : Step → List Buf
  | Step.copy src _ => [src]
  | Step.send buf _ _ => [buf]
  | Step.reduce inbuf inoutbuf => [inbuf, inoutbuf]
  | Step.iscan sendbuf recvbuf _ => [sendbuf.getD recvbuf]
  | Step.ibcast buf _ _ => [buf]
  | Step.recv _ _ _ => []
  | Step.barrier => []

/-- The number of steps of a schedule that write `b`. -/
def countWrites (b : Buf) (l : List Step) : Nat :=
  l.countP (fun st => decide (st.writes = some b))

/-- The number of `reduce` steps of a schedule whose in-out buffer is `b`. -/
def countReduceInto (b : Buf) (l : List Step) : Nat :=
  l.countP (fun st =>
    match st with
    | Step.reduce _ inoutbuf => decide (inoutbuf = b)
    | _ => false)

/-- The number of bits set in an `int` that is not negative. -/
def popcount (n : Nat) : Nat := ((List.range 32).filter (fun k => n.testBit k)).length

/-- Number of `send` steps to `dest` on `c` in a list of steps. -/
def countSend (c : CommId) (dest : Nat) (l : List Step) : Nat :=
  l.countP (fun st =>
    match st with
    | Step.send _ dest1 c1 => decide (dest1 = dest ∧ c1 = c)
    | _ => false)

/-- The flat schedule of rank `rank` in a group of `size` ranks: what
`MPIR_Iscan_rec_dbl` records on a fresh schedule when nothing fails. -/
def flatSteps (fuel : Nat) (op : MPI_Op) (sendbuf : Option Buf) (count size rank : Nat) :
    List Step :=
  stepsOf (MPIR_Iscan_rec_dbl fuel noFaults sendbuf Buf.recvbuf count op
    (flatComm size rank) Sched.empty)

/-- Two steps are independent when neither writes a buffer that the other
reads or writes. -/
def Step.independent (a b : Step) : Bool :=
  (match a.writes with
    | some w => !(b.reads.contains w) && !(b.writes == some w)
    | none => true) &&
  (match b.writes with
    | some w => !(a.reads.contains w) && !(a.writes == some w)
    | none => true)

/-- Every two steps of a list are independent. -/
def pairwiseIndependent : List Step → Bool
  | [] => true
  | a :: rest => rest.all (fun b => a.independent b) && pairwiseIndependent rest

/-- The rounds of a schedule: the maximal runs of steps between barriers. -/
def splitRounds : List Step → List (List Step)
  | [] => [[]]
  | Step.barrier :: rest => [] :: splitRounds rest
  | st :: rest =>
    match splitRounds rest with
    | [] => [[st]]
    | r :: rs => (st :: r) :: rs

/-- Two ranks that run their flat schedules (not in place, flag clear), except
that rank 0 runs the steps of its first round in another order: the send of
`partial_scan` before the two initial copies. -/
def reorderedWorld : World (List Char) :=
  { op := fun a b => a ++ b
    sched := fun r =>
      if r = 0 then
        [Step.send Buf.partial_scan 1 CommId.comm_ptr,
         Step.copy Buf.sendbuf Buf.recvbuf,
         Step.copy Buf.sendbuf Buf.partial_scan,
         Step.recv Buf.tmp_buf 1 CommId.comm_ptr] ++
        (flatSteps 32 ⟨false⟩ (some Buf.sendbuf) 1 2 0).drop 4
      else flatSteps 32 ⟨false⟩ (some Buf.sendbuf) 1 2 r
    init := abcdInit
    members := fun _ _ => List.range 2 }

/-- The code returned by a call made on the schedule `s`: the environment
decides for an allocation and for a step recorder, a delegated builder
returns its own code, and an assertion returns nothing. -/
def Call.code (env : Faults) (s : Sched) : Call → Nat
  | Call.malloc _ => env s.ncalls
  | Call.record _ => env s.ncalls
  | Call.delegate f => (f s).1
  | Call.assert _ => MPI_SUCCESS

/-- The calls `MPIR_Iscan_rec_dbl` makes, in order, until the mask loop ends
or has run `fuel` iterations, as long as none of them fails: the calls before
the loop and the calls of the iterations. -/
def flatCalls (fuel : Nat) (sendbuf : Option Buf) (recvbuf : Buf) (op : MPI_Op)
    (comm_ptr : Comm) : List Call :=
  recDblInit sendbuf recvbuf ++
    (maskTrace comm_ptr.local_size fuel 1).flatMap
      (roundCalls op.is_commutative recvbuf comm_ptr.id comm_ptr.rank comm_ptr.local_size)

/-- A sub-group scan builder that fails with code 16 and records nothing. -/
def failingIscan (sendbuf : Option Buf) (recvbuf : Buf) (count : Nat) (op : MPI_Op)
    (id : CommId) (s : Sched) : Nat × Sched :=
  (16, s)

/-- The group as rank 3 of two nodes of two ranks sees it, with a same-node
sub-group whose scan builder fails. -/
def failingNodeComm : Comm :=
  { id := CommId.comm_ptr
    rank := 3
    local_size := 4
    is_node_consecutive := true
    node_comm := some ⟨1, 2, some ⟨some failingIscan, some subIbcast⟩⟩
    node_roots_comm := none
    internode_rank := 1
    coll_fns := none }

/-- The world in which every rank of a flat group of `size` ranks holds the
steps recorded by the calls before the loop and by the iterations of the loop
with the masks `1, 2, 4, ...` below `size`, which are its first
`ceil(log2(size))` iterations.  In a group of at most `2 ^ 30` ranks the
loop ends there and this is the schedule the builder returns. -/
def roundsWorld {α : Type} (op : MPI_Op) (f : α → α → α) (size : Nat)
    (sendbuf : Nat → Option Buf) (init : Nat → Mem α) : World α :=
  { op := f
    sched := fun r => flatPre op.is_commutative (sendbuf r) r size (Nat.clog 2 size)
    init := init
    members := fun _ _ => List.range size }

/-! ## Theorems -/

/-! ### Arithmetic of `int` in the range of ranks -/

theorem testBit_decomp (a b c k j : Nat) (hb : b < 2) (hc : c < 2 ^ k) :
    (2 ^ k * (2 ^ 1 * a + b) + c).testBit j =
      if j < k then c.testBit j else if j - k < 1 then b.testBit (j - k)
      else a.testBit (j - k - 1) := by
  rw [Nat.testBit_mul_pow_two_add _ hc]
  split
  · rfl
  · rw [Nat.testBit_mul_pow_two_add _ (by simpa using hb)]

theorem xor_two_pow_decomp (a b c k : Nat) (hb : b < 2) (hc : c < 2 ^ k) :
    (2 ^ k * (2 ^ 1 * a + b) + c) ^^^ 2 ^ k = 2 ^ k * (2 ^ 1 * a + (1 - b)) + c := by
  apply Nat.eq_of_testBit_eq
  intro j
  rw [Nat.testBit_xor, testBit_decomp a b c k j hb hc,
    testBit_decomp a (1 - b) c k j (by omega) hc, Nat.testBit_two_pow]
  by_cases h1 : j < k
  · have : k ≠ j := by omega
    simp [h1, this]
  · by_cases h2 : j = k
    · subst h2
      have hb' : b = 0 ∨ b = 1 := by omega
      rcases hb' with rfl | rfl <;> simp
    · have h3 : ¬ (j - k < 1) := by omega
      have : k ≠ j := fun h => h2 h.symm
      simp [h1, h3, this]

theorem xor_two_pow (r k : Nat) :
    r ^^^ 2 ^ k = if r / 2 ^ k % 2 = 0 then r + 2 ^ k else r - 2 ^ k := by
  have hpos : 0 < 2 ^ k := Nat.two_pow_pos k
  have hc : r % 2 ^ k < 2 ^ k := Nat.mod_lt _ hpos
  have hb : r / 2 ^ k % 2 < 2 := Nat.mod_lt _ (by norm_num)
  have hr : r = 2 ^ k * (2 ^ 1 * (r / 2 ^ k / 2) + r / 2 ^ k % 2) + r % 2 ^ k := by
    rw [pow_one, Nat.div_add_mod, Nat.div_add_mod]
  have key := xor_two_pow_decomp (r / 2 ^ k / 2) (r / 2 ^ k % 2) (r % 2 ^ k) k hb hc
  rw [← hr] at key
  rw [key]
  generalize r / 2 ^ k / 2 = a at hr ⊢
  generalize r % 2 ^ k = c at hr ⊢
  generalize r / 2 ^ k % 2 = b at hr hb ⊢
  generalize 2 ^ k = P at hr ⊢
  have hb' : b = 0 ∨ b = 1 := by omega
  rcases hb' with rfl | rfl
  · simp only [if_true]
    rw [hr]; ring
  · simp only [one_ne_zero, if_false]
    rw [hr]
    have : P * (2 ^ 1 * a + 1) + c = (P * (2 ^ 1 * a + (1 - 1)) + c) + P := by
      simp; ring
    rw [this]; omega

theorem toInt32_of_lt {x : Nat} (h : x < 2 ^ 31) : toInt32 x = (x : Int) := by
  have h1 : x % 2 ^ 32 = x := Nat.mod_eq_of_lt (by omega)
  unfold toInt32
  rw [h1, if_pos h]

theorem int_lt_of_lt {a b : Nat} (ha : a < 2 ^ 31) (hb : b < 2 ^ 31) :
    int_lt a b = decide (a < b) := by
  unfold int_lt
  rw [toInt32_of_lt ha, toInt32_of_lt hb]
  simp

theorem int_shl1_two_pow {k : Nat} (h : k ≤ 30) : int_shl1 (2 ^ k) = 2 ^ (k + 1) := by
  unfold int_shl1
  rw [Nat.shiftLeft_eq, pow_one, ← pow_succ]
  apply Nat.mod_eq_of_lt
  exact Nat.pow_lt_pow_right (by norm_num) (by omega)

theorem int_xor_of_lt {a b : Nat} (ha : a < 2 ^ 31) (hb : b < 2 ^ 31) :
    int_xor a b = a ^^^ b := by
  unfold int_xor
  apply Nat.mod_eq_of_lt
  have := @Nat.xor_lt_two_pow a b 31 ha hb
  omega

/-! ### Shape of the flat schedule -/

theorem maskLoop_eq (isc : Bool) (recvbuf : Buf) (id : CommId) (rank size : Nat) :
    ∀ (n k fuel : Nat), k + n ≤ 30 → size ≤ 2 ^ (k + n) →
      (∀ i, i < n → 2 ^ (k + i) < size) → n < fuel →
      maskLoop isc recvbuf id rank size fuel (2 ^ k) =
        some (roundsFrom isc recvbuf id rank size n k) := by
  intro n
  induction n with
  | zero =>
    intro k fuel hk hs _ hf
    obtain ⟨f, rfl⟩ : ∃ f, fuel = f + 1 := ⟨fuel - 1, by omega⟩
    have h1 : (2 : Nat) ^ k < 2 ^ 31 := Nat.pow_lt_pow_right (by norm_num) (by omega)
    have h2 : size < 2 ^ 31 := by simp at hs; omega
    simp only [maskLoop, roundsFrom, int_lt_of_lt h1 h2]
    simp at hs
    simp [Nat.not_lt.mpr hs]
  | succ n ih =>
    intro k fuel hk hs hlt hf
    obtain ⟨f, rfl⟩ : ∃ f, fuel = f + 1 := ⟨fuel - 1, by omega⟩
    have h1 : (2 : Nat) ^ k < 2 ^ 31 := Nat.pow_lt_pow_right (by norm_num) (by omega)
    have h3 : (2 : Nat) ^ (k + (n + 1)) ≤ 2 ^ 30 := Nat.pow_le_pow_right (by norm_num) hk
    have h2 : size < 2 ^ 31 := by omega
    have h4 : 2 ^ k < size := by simpa using hlt 0 (by omega)
    have ihk := ih (k + 1) f (by omega) (by rw [show k + 1 + n = k + (n + 1) by omega]; exact hs)
      (fun i hi => by rw [show k + 1 + i = k + (i + 1) by omega]; exact hlt (i + 1) (by omega))
      (by omega)
    simp only [maskLoop, roundsFrom, int_lt_of_lt h1 h2, h4, decide_True, if_true,
      int_shl1_two_pow (show k ≤ 30 by omega), ihk, Option.map_some']

theorem roundsFrom_add (isc : Bool) (recvbuf : Buf) (id : CommId) (rank size : Nat) :
    ∀ (a b k : Nat), roundsFrom isc recvbuf id rank size (a + b) k =
      roundsFrom isc recvbuf id rank size a k ++
        roundsFrom isc recvbuf id rank size b (k + a) := by
  intro a
  induction a with
  | zero => intro b k; simp [roundsFrom]
  | succ a ih =>
    intro b k
    rw [show a + 1 + b = (a + b) + 1 by omega]
    simp only [roundsFrom, ih, List.append_assoc]
    rw [show k + 1 + a = k + (a + 1) by omega]

theorem runCalls_plain (env : Faults) (henv : ∀ i, env i = 0) :
    ∀ (calls : List Call) (s : Sched) (stack : List Buf) (codes : List Nat),
      (∀ c ∈ calls, c.isPlain = true) →
      runCalls env calls s stack codes =
        Result.returned ⟨MPI_SUCCESS, ⟨s.steps ++ callSteps calls, s.ncalls + calls.length⟩,
          stack ++ callMallocs calls, stack ++ callMallocs calls, [],
          codes ++ List.replicate calls.length 0⟩ := by
  intro calls
  induction calls with
  | nil => intro s stack codes _; simp [runCalls, callSteps, callMallocs]
  | cons c rest ih =>
    intro s stack codes h
    have hrest : ∀ c ∈ rest, c.isPlain = true := fun c hc => h c (List.mem_cons_of_mem _ hc)
    have hc := h c (List.mem_cons_self _ _)
    cases c with
    | malloc b =>
      simp only [runCalls, henv, if_true, ih _ _ _ hrest, callSteps, callMallocs]
      simp [Nat.add_comm, Nat.add_left_comm, List.replicate_succ]
    | record st =>
      simp only [runCalls, henv, if_true, ih _ _ _ hrest, callSteps, callMallocs]
      simp [Nat.add_comm, Nat.add_left_comm, List.replicate_succ]
    | delegate f => simp [Call.isPlain] at hc
    | assert b => simp [Call.isPlain] at hc

theorem callSteps_append (a b : List Call) : callSteps (a ++ b) = callSteps a ++ callSteps b := by
  induction a with
  | nil => rfl
  | cons c rest ih => cases c <;> simp [callSteps, ih]

theorem callMallocs_append (a b : List Call) :
    callMallocs (a ++ b) = callMallocs a ++ callMallocs b := by
  induction a with
  | nil => rfl
  | cons c rest ih => cases c <;> simp [callMallocs, ih]

theorem roundCalls_plain (isc : Bool) (recvbuf : Buf) (id : CommId) (rank size mask : Nat) :
    ∀ c ∈ roundCalls isc recvbuf id rank size mask, c.isPlain = true := by
  intro c hc
  unfold roundCalls at hc
  simp only at hc
  split at hc
  · split at hc
    · simp at hc; rcases hc with h | h | h | h | h | h <;> subst h <;> rfl
    · split at hc
      · simp at hc; rcases hc with h | h | h | h | h <;> subst h <;> rfl
      · simp at hc; rcases hc with h | h | h | h | h | h | h <;> subst h <;> rfl
  · simp at hc

theorem roundsFrom_plain (isc : Bool) (recvbuf : Buf) (id : CommId) (rank size : Nat) :
    ∀ (n k : Nat), ∀ c ∈ roundsFrom isc recvbuf id rank size n k, c.isPlain = true := by
  intro n
  induction n with
  | zero => intro k c hc; simp [roundsFrom] at hc
  | succ n ih =>
    intro k c hc
    simp only [roundsFrom, List.mem_append] at hc
    rcases hc with h | h
    · exact roundCalls_plain _ _ _ _ _ _ c h
    · exact ih _ c h

theorem recDblInit_plain (sendbuf : Option Buf) (recvbuf : Buf) :
    ∀ c ∈ recDblInit sendbuf recvbuf, c.isPlain = true := by
  intro c hc
  unfold recDblInit at hc
  cases sendbuf with
  | none => simp at hc; rcases hc with h | h | h <;> subst h <;> rfl
  | some sb => simp at hc; rcases hc with h | h | h | h <;> subst h <;> rfl

/-! ### The builder that stops at the first failing call -/

theorem runCalls_append_runSome (env : Faults) :
    ∀ (a b : List Call) (s : Sched) (stack : List Buf) (codes : List Nat),
      runCalls env (a ++ b) s stack codes =
        match runSome env a s stack codes with
        | Except.error r => r
        | Except.ok (s1, stack1, codes1) => runCalls env b s1 stack1 codes1 := by
  intro a
  induction a with
  | nil => intro b s stack codes; rfl
  | cons c rest ih =>
    intro b s stack codes
    cases c with
    | malloc x =>
      simp only [List.cons_append, runCalls, runSome]
      split
      · exact ih _ _ _ _
      · rfl
    | record st =>
      simp only [List.cons_append, runCalls, runSome]
      split
      · exact ih _ _ _ _
      · rfl
    | delegate g =>
      simp only [List.cons_append, runCalls, runSome]
      split
      · exact ih _ _ _ _
      · rfl
    | assert cond =>
      simp only [List.cons_append, runCalls, runSome]
      split
      · exact ih _ _ _ _
      · rfl

theorem runMaskLoop_of_loop (env : Faults) (isc : Bool) (recvbuf : Buf) (id : CommId)
    (rank size : Nat) :
    ∀ (fuel mask : Nat) (loop : List Call) (s : Sched) (stack : List Buf) (codes : List Nat),
      maskLoop isc recvbuf id rank size fuel mask = some loop →
      runMaskLoop env isc recvbuf id rank size fuel mask s stack codes =
        some (runCalls env loop s stack codes) := by
  intro fuel
  induction fuel with
  | zero => intro mask loop s stack codes h; simp [maskLoop] at h
  | succ fuel ih =>
    intro mask loop s stack codes h
    simp only [maskLoop] at h
    simp only [runMaskLoop]
    by_cases hlt : int_lt mask size = true
    · rw [if_pos hlt] at h
      rw [if_pos hlt]
      cases hrest : maskLoop isc recvbuf id rank size fuel (int_shl1 mask) with
      | none => rw [hrest] at h; simp at h
      | some rest =>
        rw [hrest] at h
        simp only [Option.map_some', Option.some.injEq] at h
        subst h
        rw [runCalls_append_runSome]
        cases hrun : runSome env (roundCalls isc recvbuf id rank size mask) s stack codes with
        | error r => rfl
        | ok st =>
          obtain ⟨s1, stack1, codes1⟩ := st
          exact ih _ _ _ _ _ hrest
    · rw [if_neg hlt] at h
      rw [if_neg hlt]
      simp only [Option.some.injEq] at h
      subst h
      rfl

theorem rec_dbl_of_loop (fuel : Nat) (env : Faults) (sendbuf : Option Buf) (recvbuf : Buf)
    (count : Nat) (op : MPI_Op) (comm_ptr : Comm) (s : Sched) (loop : List Call)
    (hcount : count ≠ 0)
    (hloop : maskLoop op.is_commutative recvbuf comm_ptr.id comm_ptr.rank
      comm_ptr.local_size fuel 1 = some loop) :
    MPIR_Iscan_rec_dbl fuel env sendbuf recvbuf count op comm_ptr s =
      some (runCalls env (recDblInit sendbuf recvbuf ++ loop) s [] []) := by
  unfold MPIR_Iscan_rec_dbl
  rw [if_neg hcount, runCalls_append_runSome]
  cases hrun : runSome env (recDblInit sendbuf recvbuf) s [] [] with
  | error r => rfl
  | ok st =>
    obtain ⟨s1, stack1, codes1⟩ := st
    exact runMaskLoop_of_loop env _ _ _ _ _ _ _ _ _ _ _ hloop

theorem runSome_plain (env : Faults) (henv : ∀ i, env i = 0) :
    ∀ (calls : List Call) (s : Sched) (stack : List Buf) (codes : List Nat),
      (∀ c ∈ calls, c.isPlain = true) →
      runSome env calls s stack codes =
        Except.ok (⟨s.steps ++ callSteps calls, s.ncalls + calls.length⟩,
          stack ++ callMallocs calls, codes ++ List.replicate calls.length 0) := by
  intro calls
  induction calls with
  | nil => intro s stack codes _; simp [runSome, callSteps, callMallocs]
  | cons c rest ih =>
    intro s stack codes h
    have hrest : ∀ c ∈ rest, c.isPlain = true := fun c hc => h c (List.mem_cons_of_mem _ hc)
    have hc := h c (List.mem_cons_self _ _)
    cases c with
    | malloc b =>
      simp only [runSome, henv, if_true, ih _ _ _ hrest, callSteps, callMallocs]
      simp [Nat.add_comm, Nat.add_left_comm, List.replicate_succ]
    | record st =>
      simp only [runSome, henv, if_true, ih _ _ _ hrest, callSteps, callMallocs]
      simp [Nat.add_comm, Nat.add_left_comm, List.replicate_succ]
    | delegate f => simp [Call.isPlain] at hc
    | assert b => simp [Call.isPlain] at hc

theorem runMaskLoop_none (env : Faults) (henv : ∀ i, env i = 0) (isc : Bool) (recvbuf : Buf)
    (id : CommId) (rank size : Nat) :
    ∀ (fuel mask : Nat) (s : Sched) (stack : List Buf) (codes : List Nat),
      maskLoop isc recvbuf id rank size fuel mask = none →
      runMaskLoop env isc recvbuf id rank size fuel mask s stack codes = none := by
  intro fuel
  induction fuel with
  | zero => intro mask s stack codes _; rfl
  | succ fuel ih =>
    intro mask s stack codes h
    simp only [maskLoop] at h
    simp only [runMaskLoop]
    by_cases hlt : int_lt mask size = true
    · rw [if_pos hlt] at h
      rw [if_pos hlt, runSome_plain env henv _ _ _ _ (roundCalls_plain _ _ _ _ _ _)]
      cases hrest : maskLoop isc recvbuf id rank size fuel (int_shl1 mask) with
      | none => exact ih _ _ _ _ hrest
      | some rest => rw [hrest] at h; simp at h
    · rw [if_neg hlt] at h
      simp at h

theorem rec_dbl_none (fuel : Nat) (env : Faults) (henv : ∀ i, env i = 0)
    (sendbuf : Option Buf) (recvbuf : Buf) (count : Nat) (op : MPI_Op) (comm_ptr : Comm)
    (s : Sched) (hcount : count ≠ 0)
    (hloop : maskLoop op.is_commutative recvbuf comm_ptr.id comm_ptr.rank
      comm_ptr.local_size fuel 1 = none) :
    MPIR_Iscan_rec_dbl fuel env sendbuf recvbuf count op comm_ptr s = none := by
  unfold MPIR_Iscan_rec_dbl
  rw [if_neg hcount, runSome_plain env henv _ _ _ _ (recDblInit_plain _ _)]
  exact runMaskLoop_none env henv _ _ _ _ _ _ _ _ _ _ hloop

theorem roundCalls_steps_int (isc : Bool) (recvbuf : Buf) (id : CommId) (rank size k : Nat)
    (hr : rank < size) (hs : size < 2 ^ 31) (hk : k ≤ 30) :
    callSteps (roundCalls isc recvbuf id rank size (2 ^ k)) =
      if rank ^^^ 2 ^ k < size then exchangeSteps isc recvbuf id rank (rank ^^^ 2 ^ k)
      else [] := by
  have h1 : (2 : Nat) ^ k < 2 ^ 31 := Nat.pow_lt_pow_right (by norm_num) (by omega)
  have h2 : rank < 2 ^ 31 := by omega
  have h3 : rank ^^^ 2 ^ k < 2 ^ 31 := Nat.xor_lt_two_pow h2 h1
  unfold roundCalls exchangeSteps
  simp only [int_xor_of_lt h2 h1, int_lt_of_lt h3 (show size < 2 ^ 31 by omega),
    int_lt_of_lt h3 h2]
  by_cases hp : rank ^^^ 2 ^ k < size
  · by_cases hq : rank ^^^ 2 ^ k < rank
    · simp [hp, hq, callSteps]
    · cases isc <;> simp [hp, hq, callSteps]
  · simp [hp, callSteps]

theorem roundCalls_steps (isc : Bool) (recvbuf : Buf) (id : CommId) (rank size k : Nat)
    (hr : rank < size) (hs : size ≤ 2 ^ 30) (hk : k ≤ 30) :
    callSteps (roundCalls isc recvbuf id rank size (2 ^ k)) =
      if rank ^^^ 2 ^ k < size then exchangeSteps isc recvbuf id rank (rank ^^^ 2 ^ k)
      else [] :=
  roundCalls_steps_int isc recvbuf id rank size k hr (by omega) hk

/-! ### The executor on concatenated schedules -/

theorem runSteps_append {α : Type} (W : World α) (feed : Feed α) (me : Nat) :
    ∀ (a b done : List Step) (m : Mem α),
      runSteps W feed me done (a ++ b) m =
        (runSteps W feed me done a m).bind (fun m1 => runSteps W feed me (done ++ a) b m1) := by
  intro a
  induction a with
  | nil => intro b done m; simp [runSteps]
  | cons st rest ih =>
    intro b done m
    simp only [List.cons_append, runSteps]
    cases h : runStep W feed me done st m with
    | none => simp
    | some m1 => simp [ih, List.append_assoc]

theorem countRecv_append (c : CommId) (src : Nat) (a b : List Step) :
    countRecv c src (a ++ b) = countRecv c src a + countRecv c src b := by
  simp [countRecv, List.countP_append]

theorem countRecv_init (c : CommId) (src : Nat) (sendbuf : Option Buf) (recvbuf : Buf) :
    countRecv c src (callSteps (recDblInit sendbuf recvbuf)) = 0 := by
  cases sendbuf <;> simp [recDblInit, callSteps, countRecv]

theorem countRecv_exchange (c : CommId) (src : Nat) (isc : Bool) (recvbuf : Buf) (id : CommId)
    (rank p : Nat) (h : p ≠ src) :
    countRecv c src (exchangeSteps isc recvbuf id rank p) = 0 := by
  unfold exchangeSteps countRecv
  by_cases hq : p < rank
  · simp [hq, h]
  · cases isc <;> simp [hq, h]

theorem findSend_skip {α : Type} (W : World α) (p : Nat) (c : CommId) (r : Nat) :
    ∀ (a b done : List Step) (j : Nat),
      (∀ buf dest c1, Step.send buf dest c1 ∈ a → ¬ (c1 = c ∧ (W.members p c)[dest]? = some r)) →
      findSend W p c r j done (a ++ b) = findSend W p c r j (done ++ a) b := by
  intro a
  induction a with
  | nil => intro b done j _; simp
  | cons st rest ih =>
    intro b done j h
    have hrest : ∀ buf dest c1, Step.send buf dest c1 ∈ rest →
        ¬ (c1 = c ∧ (W.members p c)[dest]? = some r) :=
      fun buf dest c1 hm => h buf dest c1 (List.mem_cons_of_mem _ hm)
    cases st with
    | send buf dest c1 =>
      have h0 := h buf dest c1 (List.mem_cons_self _ _)
      simp only [List.cons_append, findSend, h0, if_false]
      have e := ih b (done ++ [Step.send buf dest c1]) j hrest
      simpa using e
    | copy x y =>
      simp only [List.cons_append, findSend]
      have e := ih b (done ++ [Step.copy x y]) j hrest
      simpa using e
    | recv x y z =>
      simp only [List.cons_append, findSend]
      have e := ih b (done ++ [Step.recv x y z]) j hrest
      simpa using e
    | reduce x y =>
      simp only [List.cons_append, findSend]
      have e := ih b (done ++ [Step.reduce x y]) j hrest
      simpa using e
    | barrier =>
      simp only [List.cons_append, findSend]
      have e := ih b (done ++ [Step.barrier]) j hrest
      simpa using e
    | iscan x y z =>
      simp only [List.cons_append, findSend]
      have e := ih b (done ++ [Step.iscan x y z]) j hrest
      simpa using e
    | ibcast x y z =>
      simp only [List.cons_append, findSend]
      have e := ih b (done ++ [Step.ibcast x y z]) j hrest
      simpa using e

theorem range_getElem_some (size d r : Nat) :
    (List.range size)[d]? = some r ↔ d = r ∧ r < size := by
  by_cases h : d < size
  · rw [List.getElem?_range h]
    constructor
    · intro e; cases e; exact ⟨rfl, h⟩
    · rintro ⟨rfl, _⟩; rfl
  · rw [List.getElem?_eq_none (by simpa using h)]
    constructor
    · intro e; cases e
    · rintro ⟨rfl, h2⟩; exact absurd h2 h

theorem xor_two_pow_ne (r j k : Nat) (h : j ≠ k) : r ^^^ 2 ^ j ≠ r ^^^ 2 ^ k := by
  intro e
  have := Nat.xor_right_inj.mp e
  exact h (Nat.pow_right_injective (le_refl 2) this)

theorem flatPre_succ (isc : Bool) (sendbuf : Option Buf) (rank size k : Nat) :
    flatPre isc sendbuf rank size (k + 1) =
      flatPre isc sendbuf rank size k ++
        callSteps (roundCalls isc Buf.recvbuf CommId.comm_ptr rank size (2 ^ k)) := by
  unfold flatPre
  rw [roundsFrom_add _ _ _ _ _ k 1 0]
  simp [roundsFrom, callSteps_append]

theorem flatPre_add (isc : Bool) (sendbuf : Option Buf) (rank size k d : Nat) :
    flatPre isc sendbuf rank size (k + d) =
      flatPre isc sendbuf rank size k ++
        callSteps (roundsFrom isc Buf.recvbuf CommId.comm_ptr rank size d k) := by
  unfold flatPre
  rw [roundsFrom_add _ _ _ _ _ k d 0]
  simp [callSteps_append]

theorem send_mem_exchange (isc : Bool) (recvbuf : Buf) (id : CommId) (rank p : Nat)
    (buf : Buf) (dest : Nat) (c1 : CommId)
    (h : Step.send buf dest c1 ∈ exchangeSteps isc recvbuf id rank p) : dest = p := by
  unfold exchangeSteps at h
  by_cases hq : p < rank
  · simp [hq] at h; exact h.2.1
  · cases isc <;> simp [hq] at h <;> exact h.2.1

theorem send_mem_flatPre_int (isc : Bool) (sendbuf : Option Buf) (rank size : Nat)
    (hr : rank < size) (hs : size < 2 ^ 31) :
    ∀ (k : Nat), k ≤ 31 → ∀ buf dest c1,
      Step.send buf dest c1 ∈ flatPre isc sendbuf rank size k →
      ∃ j, j < k ∧ dest = rank ^^^ 2 ^ j := by
  intro k
  induction k with
  | zero =>
    intro _ buf dest c1 h
    cases sendbuf <;> simp [flatPre, roundsFrom, recDblInit, callSteps] at h
  | succ k ih =>
    intro hk buf dest c1 h
    rw [flatPre_succ, List.mem_append] at h
    rcases h with h | h
    · obtain ⟨j, hj, e⟩ := ih (by omega) buf dest c1 h
      exact ⟨j, by omega, e⟩
    · rw [roundCalls_steps_int isc _ _ rank size k hr hs (by omega)] at h
      split at h
      · exact ⟨k, by omega, send_mem_exchange _ _ _ _ _ _ _ _ h⟩
      · simp at h

theorem send_mem_flatPre (isc : Bool) (sendbuf : Option Buf) (rank size : Nat)
    (hr : rank < size) (hs : size ≤ 2 ^ 30) :
    ∀ (k : Nat), k ≤ 31 → ∀ buf dest c1,
      Step.send buf dest c1 ∈ flatPre isc sendbuf rank size k →
      ∃ j, j < k ∧ dest = rank ^^^ 2 ^ j :=
  send_mem_flatPre_int isc sendbuf rank size hr (by omega)

theorem countRecv_flatPre_int (isc : Bool) (sendbuf : Option Buf) (rank size : Nat)
    (hr : rank < size) (hs : size < 2 ^ 31) (c : CommId) (src : Nat) :
    ∀ (k : Nat), k ≤ 31 → (∀ j, j < k → rank ^^^ 2 ^ j ≠ src) →
      countRecv c src (flatPre isc sendbuf rank size k) = 0 := by
  intro k
  induction k with
  | zero =>
    intro _ _
    unfold flatPre
    rw [countRecv_append, countRecv_init]
    simp [roundsFrom, callSteps, countRecv]
  | succ k ih =>
    intro hk h
    rw [flatPre_succ, countRecv_append, ih (by omega) (fun j hj => h j (by omega)),
      roundCalls_steps_int isc _ _ rank size k hr hs (by omega)]
    split
    · simp [countRecv_exchange _ _ _ _ _ _ _ (h k (by omega))]
    · simp [countRecv]

theorem countRecv_flatPre (isc : Bool) (sendbuf : Option Buf) (rank size : Nat)
    (hr : rank < size) (hs : size ≤ 2 ^ 30) (c : CommId) (src : Nat) :
    ∀ (k : Nat), k ≤ 31 → (∀ j, j < k → rank ^^^ 2 ^ j ≠ src) →
      countRecv c src (flatPre isc sendbuf rank size k) = 0 :=
  countRecv_flatPre_int isc sendbuf rank size hr (by omega) c src

theorem feed_msg_flat_int {α : Type} (isc : Bool) (size K : Nat) (hs : size < 2 ^ 31)
    (hK : K ≤ 31) (sendbuf : Nat → Option Buf) (W : World α)
    (hmem : ∀ r c, W.members r c = List.range size)
    (hsched : ∀ r, r < size → W.sched r = flatPre isc (sendbuf r) r size K)
    (n k p : Nat) (hk : k < K) (hp : p < size) (hpart : p ^^^ 2 ^ k < size) :
    (feedN W (n + 1)).msg CommId.comm_ptr p (p ^^^ 2 ^ k) 0 =
      (runSteps W (feedN W n) p [] (flatPre isc (sendbuf p) p size k) (W.init p)).map
        (fun m => m Buf.partial_scan) := by
  have hsplit : W.sched p = flatPre isc (sendbuf p) p size k ++
      (exchangeSteps isc Buf.recvbuf CommId.comm_ptr p (p ^^^ 2 ^ k) ++
        callSteps (roundsFrom isc Buf.recvbuf CommId.comm_ptr p size (K - (k + 1)) (k + 1))) := by
    rw [hsched p hp, show K = (k + 1) + (K - (k + 1)) by omega, flatPre_add, flatPre_succ,
      roundCalls_steps_int isc _ _ p size k hp hs (by omega), if_pos hpart]
    simp
  have hskip : ∀ buf dest c1, Step.send buf dest c1 ∈ flatPre isc (sendbuf p) p size k →
      ¬ (c1 = CommId.comm_ptr ∧ (W.members p CommId.comm_ptr)[dest]? = some (p ^^^ 2 ^ k)) := by
    intro buf dest c1 hm hneg
    obtain ⟨j, hj, e⟩ := send_mem_flatPre_int isc (sendbuf p) p size hp hs k (by omega) buf dest c1 hm
    rw [hmem, range_getElem_some] at hneg
    exact xor_two_pow_ne p j k (by omega) (e ▸ hneg.2.1)
  simp only [feedN]
  rw [hsplit, findSend_skip W p _ _ _ _ _ _ hskip]
  simp only [exchangeSteps, List.cons_append, List.nil_append, findSend, hmem,
    (range_getElem_some size _ _).mpr ⟨rfl, hpart⟩, and_self, if_true]

theorem feed_msg_flat {α : Type} (isc : Bool) (size K : Nat) (hs : size ≤ 2 ^ 30)
    (hK : K ≤ 30) (sendbuf : Nat → Option Buf) (W : World α)
    (hmem : ∀ r c, W.members r c = List.range size)
    (hsched : ∀ r, r < size → W.sched r = flatPre isc (sendbuf r) r size K)
    (n k p : Nat) (hk : k < K) (hp : p < size) (hpart : p ^^^ 2 ^ k < size) :
    (feedN W (n + 1)).msg CommId.comm_ptr p (p ^^^ 2 ^ k) 0 =
      (runSteps W (feedN W n) p [] (flatPre isc (sendbuf p) p size k) (W.init p)).map
        (fun m => m Buf.partial_scan) :=
  feed_msg_flat_int isc size K (by omega) (by omega) sendbuf W hmem hsched n k p hk hp hpart

/-! ### The window invariant of recursive doubling -/

theorem scanRange_concat {α : Type} (f : α → α → α)
    (hassoc : ∀ a b c, f (f a b) c = f a (f b c)) (x : Nat → α) (lo a : Nat) :
    ∀ b, f (scanRange f x lo a) (scanRange f x (lo + a + 1) b) =
      scanRange f x lo (a + b + 1) := by
  intro b
  induction b with
  | zero => simp [scanRange]
  | succ b ih =>
    rw [show a + (b + 1) + 1 = (a + b + 1) + 1 by omega]
    simp only [scanRange]
    rw [← hassoc, ih]
    congr 2
    omega

theorem bit_set_arith (r k : Nat) (hb : r / 2 ^ k % 2 = 1) :
    r % 2 ^ (k + 1) = r % 2 ^ k + 2 ^ k ∧ r % 2 ^ k + 2 ^ k ≤ r ∧
      (r - 2 ^ k) % 2 ^ k = r % 2 ^ k ∧ (r - 2 ^ k) / 2 ^ k % 2 = 0 := by
  have hpos : 0 < 2 ^ k := Nat.two_pow_pos k
  have h1 : r % 2 ^ (k + 1) = r % 2 ^ k + 2 ^ k := by
    rw [Nat.mod_pow_succ, hb, mul_one]
  have h2 : r % 2 ^ (k + 1) ≤ r := Nat.mod_le _ _
  have h3 : 2 ^ k ≤ r := by omega
  have h4 : (r - 2 ^ k) % 2 ^ k = r % 2 ^ k := by
    conv_rhs => rw [← Nat.sub_add_cancel h3]
    rw [Nat.add_mod_right]
  have h5 : (r - 2 ^ k) / 2 ^ k = r / 2 ^ k - 1 := by
    conv_rhs => rw [← Nat.sub_add_cancel h3]
    rw [Nat.add_div_right _ hpos]
    rfl
  refine ⟨h1, by omega, h4, ?_⟩
  rw [h5]; omega

theorem bit_clear_arith (r k : Nat) (hb : r / 2 ^ k % 2 = 0) :
    r % 2 ^ (k + 1) = r % 2 ^ k ∧ (r + 2 ^ k) % 2 ^ k = r % 2 ^ k ∧
      (r + 2 ^ k) / 2 ^ k % 2 = 1 := by
  have hpos : 0 < 2 ^ k := Nat.two_pow_pos k
  refine ⟨by rw [Nat.mod_pow_succ, hb, mul_zero, add_zero], Nat.add_mod_right _ _, ?_⟩
  rw [Nat.add_div_right _ hpos]
  omega

theorem run_exchange {α : Type} (W : World α) (feed : Feed α) (isc : Bool) (size me p : Nat)
    (done : List Step) (m : Mem α) (v : α)
    (hmem : ∀ r c, W.members r c = List.range size) (hp : p < size)
    (hcount : countRecv CommId.comm_ptr p done = 0)
    (hfeed : feed.msg CommId.comm_ptr p me 0 = some v) :
    ∃ m1, runSteps W feed me done (exchangeSteps isc Buf.recvbuf CommId.comm_ptr me p) m
        = some m1 ∧
      m1 Buf.recvbuf = (if p < me then W.op v (m Buf.recvbuf) else m Buf.recvbuf) ∧
      m1 Buf.partial_scan =
        (if p < me then W.op v (m Buf.partial_scan)
         else if isc then W.op v (m Buf.partial_scan) else W.op (m Buf.partial_scan) v) := by
  have hget : (List.range size)[p]? = some p := (range_getElem_some size p p).mpr ⟨rfl, hp⟩
  have hc1 : countRecv CommId.comm_ptr p
      (done ++ [Step.send Buf.partial_scan p CommId.comm_ptr]) = 0 := by
    rw [countRecv_append, hcount]; simp [countRecv]
  unfold exchangeSteps
  by_cases hq : p < me
  · simp [hq, runSteps, runStep, hmem, hget, hc1, hfeed, Mem.set]
  · cases isc <;> simp [hq, runSteps, runStep, hmem, hget, hc1, hfeed, Mem.set]

theorem flat_inv_int {α : Type} (f : α → α → α) (hassoc : ∀ a b c, f (f a b) c = f a (f b c))
    (isc : Bool) (hcomm : isc = true → ∀ a b, f a b = f b a) (size K : Nat)
    (hs : size < 2 ^ 31) (hK : K ≤ 31) (sendbuf : Nat → Option Buf) (W : World α)
    (hop : W.op = f) (hmem : ∀ r c, W.members r c = List.range size)
    (hsched : ∀ r, r < size → W.sched r = flatPre isc (sendbuf r) r size K) :
    ∀ k, k ≤ K → ∀ n, k ≤ n → ∀ r, r < size →
      ∃ m, runSteps W (feedN W n) r [] (flatPre isc (sendbuf r) r size k) (W.init r) = some m ∧
        m Buf.recvbuf = scanRange f (fun q => contribution (sendbuf q) (W.init q))
          (r - r % 2 ^ k) (r % 2 ^ k) ∧
        (r - r % 2 ^ k + 2 ^ k ≤ size →
          m Buf.partial_scan = scanRange f (fun q => contribution (sendbuf q) (W.init q))
            (r - r % 2 ^ k) (2 ^ k - 1)) := by
  intro k
  induction k with
  | zero =>
    intro _ n _ r hr
    cases hsb : sendbuf r with
    | none =>
      simp [flatPre, recDblInit, callSteps, roundsFrom, runSteps, runStep, Mem.set,
        contribution, scanRange, Nat.mod_one, hsb]
    | some sb =>
      simp only [flatPre, recDblInit, callSteps, roundsFrom, runSteps, runStep,
        contribution, scanRange, Nat.mod_one, hsb, pow_zero, List.append_nil,
        List.nil_append, List.cons_append, Nat.sub_zero]
      refine ⟨_, rfl, ?_, ?_⟩
      · simp [Mem.set]
      · intro _; by_cases h : sb = Buf.recvbuf <;> simp [Mem.set, h]
  | succ k ih =>
    intro hk n hn r hr
    obtain ⟨n1, rfl⟩ : ∃ n1, n = n1 + 1 := ⟨n - 1, by omega⟩
    obtain ⟨m, hm, hrecv, hpart⟩ := ih (by omega) (n1 + 1) (by omega) r hr
    have hP : 0 < 2 ^ k := Nat.two_pow_pos k
    have hP2 : 2 ^ (k + 1) = 2 * 2 ^ k := by rw [pow_succ]; omega
    have hc : r % 2 ^ k < 2 ^ k := Nat.mod_lt _ hP
    have hcr : r % 2 ^ k ≤ r := Nat.mod_le _ _
    rw [flatPre_succ, runSteps_append, hm, Option.some_bind, List.nil_append,
      roundCalls_steps_int isc _ _ r size k hr hs (by omega)]
    by_cases hp : r ^^^ 2 ^ k < size
    · rw [if_pos hp]
      obtain ⟨mp, hmp, _, hppart⟩ := ih (by omega) n1 (by omega) (r ^^^ 2 ^ k) hp
      have hback : (r ^^^ 2 ^ k) ^^^ 2 ^ k = r := Nat.xor_cancel_right _ _
      have hfeed := feed_msg_flat_int isc size K hs hK sendbuf W hmem hsched n1 k (r ^^^ 2 ^ k)
        (by omega) hp (by rw [hback]; exact hr)
      rw [hback, hmp, Option.map_some'] at hfeed
      obtain ⟨m1, hm1, h1r, h1p⟩ := run_exchange W (feedN W (n1 + 1)) isc size r (r ^^^ 2 ^ k)
        (flatPre isc (sendbuf r) r size k) m (mp Buf.partial_scan) hmem hp
        (countRecv_flatPre_int isc (sendbuf r) r size hr hs _ _ k (by omega)
          (fun j hj => xor_two_pow_ne r j k (by omega))) hfeed
      refine ⟨m1, hm1, ?_, ?_⟩
      · rw [h1r, hop]
        by_cases hb : r / 2 ^ k % 2 = 0
        · obtain ⟨e1, _, _⟩ := bit_clear_arith r k hb
          have hx : r ^^^ 2 ^ k = r + 2 ^ k := by rw [xor_two_pow, if_pos hb]
          rw [if_neg (by omega), e1, hrecv]
        · have hb1 : r / 2 ^ k % 2 = 1 := by omega
          obtain ⟨e1, e2, e3, e4⟩ := bit_set_arith r k hb1
          have hx : r ^^^ 2 ^ k = r - 2 ^ k := by rw [xor_two_pow, if_neg hb]
          have hpc := hppart (by rw [hx, e3]; omega)
          rw [if_pos (by omega), hrecv, hpc, hx, e3, e1]
          have key := scanRange_concat f hassoc (fun q => contribution (sendbuf q) (W.init q))
            (r - 2 ^ k - r % 2 ^ k) (2 ^ k - 1) (r % 2 ^ k)
          rw [show r - 2 ^ k - r % 2 ^ k + (2 ^ k - 1) + 1 = r - r % 2 ^ k by omega,
            show 2 ^ k - 1 + r % 2 ^ k + 1 = r % 2 ^ k + 2 ^ k by omega] at key
          rw [key, show r - (r % 2 ^ k + 2 ^ k) = r - 2 ^ k - r % 2 ^ k by omega]
      · intro hfull
        rw [h1p, hop]
        by_cases hb : r / 2 ^ k % 2 = 0
        · obtain ⟨e1, e2, _⟩ := bit_clear_arith r k hb
          have hx : r ^^^ 2 ^ k = r + 2 ^ k := by rw [xor_two_pow, if_pos hb]
          rw [e1] at hfull ⊢
          have hpc := hppart (by rw [hx, e2]; omega)
          have hmc := hpart (by omega)
          rw [hx, e2] at hpc
          have key := scanRange_concat f hassoc (fun q => contribution (sendbuf q) (W.init q))
            (r - r % 2 ^ k) (2 ^ k - 1) (2 ^ k - 1)
          rw [show r - r % 2 ^ k + (2 ^ k - 1) + 1 = r + 2 ^ k - r % 2 ^ k by omega,
            show 2 ^ k - 1 + (2 ^ k - 1) + 1 = 2 ^ (k + 1) - 1 by omega] at key
          rw [if_neg (by omega), hmc, hpc, ← key]
          cases isc with
          | false => simp
          | true => simp [hcomm rfl (scanRange f _ (r + 2 ^ k - r % 2 ^ k) (2 ^ k - 1))]
        · have hb1 : r / 2 ^ k % 2 = 1 := by omega
          obtain ⟨e1, e2, e3, e4⟩ := bit_set_arith r k hb1
          have hx : r ^^^ 2 ^ k = r - 2 ^ k := by rw [xor_two_pow, if_neg hb]
          rw [e1] at hfull ⊢
          have hpc := hppart (by rw [hx, e3]; omega)
          have hmc := hpart (by omega)
          rw [hx, e3] at hpc
          have key := scanRange_concat f hassoc (fun q => contribution (sendbuf q) (W.init q))
            (r - 2 ^ k - r % 2 ^ k) (2 ^ k - 1) (2 ^ k - 1)
          rw [show r - 2 ^ k - r % 2 ^ k + (2 ^ k - 1) + 1 = r - r % 2 ^ k by omega,
            show 2 ^ k - 1 + (2 ^ k - 1) + 1 = 2 ^ (k + 1) - 1 by omega] at key
          rw [if_pos (by omega), hmc, hpc, key,
            show r - (r % 2 ^ k + 2 ^ k) = r - 2 ^ k - r % 2 ^ k by omega]
    · rw [if_neg hp]
      have hb : r / 2 ^ k % 2 = 0 := by
        by_contra hne
        have hx : r ^^^ 2 ^ k = r - 2 ^ k := by rw [xor_two_pow, if_neg hne]
        omega
      obtain ⟨e1, _, _⟩ := bit_clear_arith r k hb
      have hx : r ^^^ 2 ^ k = r + 2 ^ k := by rw [xor_two_pow, if_pos hb]
      refine ⟨m, by simp [runSteps], ?_, ?_⟩
      · rw [e1, hrecv]
      · intro hfull
        rw [e1] at hfull
        omega

theorem flat_inv {α : Type} (f : α → α → α) (hassoc : ∀ a b c, f (f a b) c = f a (f b c))
    (isc : Bool) (hcomm : isc = true → ∀ a b, f a b = f b a) (size K : Nat)
    (hs : size ≤ 2 ^ 30) (hK : K ≤ 30) (sendbuf : Nat → Option Buf) (W : World α)
    (hop : W.op = f) (hmem : ∀ r c, W.members r c = List.range size)
    (hsched : ∀ r, r < size → W.sched r = flatPre isc (sendbuf r) r size K) :
    ∀ k, k ≤ K → ∀ n, k ≤ n → ∀ r, r < size →
      ∃ m, runSteps W (feedN W n) r [] (flatPre isc (sendbuf r) r size k) (W.init r) = some m ∧
        m Buf.recvbuf = scanRange f (fun q => contribution (sendbuf q) (W.init q))
          (r - r % 2 ^ k) (r % 2 ^ k) ∧
        (r - r % 2 ^ k + 2 ^ k ≤ size →
          m Buf.partial_scan = scanRange f (fun q => contribution (sendbuf q) (W.init q))
            (r - r % 2 ^ k) (2 ^ k - 1)) :=
  flat_inv_int f hassoc isc hcomm size K (by omega) (by omega) sendbuf W hop hmem hsched

/-! ### The flat builder on a group of at most `2 ^ 30` ranks -/

theorem clog_facts (size : Nat) (hs : size ≤ 2 ^ 30) :
    Nat.clog 2 size ≤ 30 ∧ size ≤ 2 ^ Nat.clog 2 size ∧
      ∀ i, i < Nat.clog 2 size → 2 ^ i < size := by
  refine ⟨(Nat.le_pow_iff_clog_le (by norm_num)).mp hs, Nat.le_pow_clog (by norm_num) _, ?_⟩
  intro i hi
  by_contra hne
  have := (Nat.le_pow_iff_clog_le (b := 2) (by norm_num)).mp (Nat.not_lt.mp hne)
  omega

theorem flat_loop (isc : Bool) (recvbuf : Buf) (id : CommId) (rank size fuel : Nat)
    (hs : size ≤ 2 ^ 30) (hfuel : 32 ≤ fuel) :
    maskLoop isc recvbuf id rank size fuel 1 =
      some (roundsFrom isc recvbuf id rank size (Nat.clog 2 size) 0) := by
  obtain ⟨h1, h2, h3⟩ := clog_facts size hs
  have := maskLoop_eq isc recvbuf id rank size (Nat.clog 2 size) 0 fuel (by omega)
    (by simpa using h2) (fun i hi => by simpa using h3 i hi) (by omega)
  simpa using this

theorem flat_result (env : Faults) (henv : ∀ i, env i = 0) (sendbuf : Option Buf)
    (count : Nat) (op : MPI_Op) (size rank fuel : Nat) (hs : size ≤ 2 ^ 30)
    (hfuel : 32 ≤ fuel) (hcount : count ≠ 0) (s : Sched) :
    MPIR_Iscan_rec_dbl fuel env sendbuf Buf.recvbuf count op (flatComm size rank) s =
      some (Result.returned ⟨MPI_SUCCESS,
        ⟨s.steps ++ flatPre op.is_commutative sendbuf rank size (Nat.clog 2 size),
          s.ncalls + (recDblInit sendbuf Buf.recvbuf ++ roundsFrom op.is_commutative
            Buf.recvbuf CommId.comm_ptr rank size (Nat.clog 2 size) 0).length⟩,
        [Buf.partial_scan, Buf.tmp_buf], [Buf.partial_scan, Buf.tmp_buf], [],
        List.replicate (recDblInit sendbuf Buf.recvbuf ++ roundsFrom op.is_commutative
            Buf.recvbuf CommId.comm_ptr rank size (Nat.clog 2 size) 0).length 0⟩) := by
  have hplain : ∀ c ∈ recDblInit sendbuf Buf.recvbuf ++
      roundsFrom op.is_commutative Buf.recvbuf CommId.comm_ptr rank size (Nat.clog 2 size) 0,
      c.isPlain = true := by
    intro c hc
    rcases List.mem_append.mp hc with h | h
    · exact recDblInit_plain _ _ c h
    · exact roundsFrom_plain _ _ _ _ _ _ _ c h
  have hm : callMallocs (recDblInit sendbuf Buf.recvbuf ++
      roundsFrom op.is_commutative Buf.recvbuf CommId.comm_ptr rank size (Nat.clog 2 size) 0)
      = [Buf.partial_scan, Buf.tmp_buf] := by
    have h0 : ∀ n k, callMallocs
        (roundsFrom op.is_commutative Buf.recvbuf CommId.comm_ptr rank size n k) = [] := by
      intro n
      induction n with
      | zero => intro k; rfl
      | succ n ih =>
        intro k
        simp only [roundsFrom, callMallocs_append, ih, List.append_nil]
        unfold roundCalls
        simp only
        split
        · split
          · rfl
          · split <;> rfl
        · rfl
    rw [callMallocs_append, h0]
    cases sendbuf <;> rfl
  rw [rec_dbl_of_loop fuel env sendbuf Buf.recvbuf count op (flatComm size rank) s
    (roundsFrom op.is_commutative Buf.recvbuf CommId.comm_ptr rank size (Nat.clog 2 size) 0)
    hcount (flat_loop _ _ _ _ _ _ hs hfuel)]
  simp only [runCalls_plain env henv _ _ _ _ hplain, hm, List.nil_append, callSteps_append,
    flatPre]

theorem flat_sched {α : Type} (fuel : Nat) (op : MPI_Op) (f : α → α → α) (size : Nat)
    (sendbuf : Nat → Option Buf) (count : Nat) (init : Nat → Mem α)
    (hs : size ≤ 2 ^ 30) (hfuel : 32 ≤ fuel) (hcount : count ≠ 0) (r : Nat) :
    (flatWorld fuel op f size sendbuf count init).sched r =
      flatPre op.is_commutative (sendbuf r) r size (Nat.clog 2 size) := by
  have hn := flat_result noFaults (fun _ => rfl) (sendbuf r) count op size r fuel hs
    hfuel hcount Sched.empty
  simp only [flatWorld]
  rw [hn]
  simp [stepsOf, Sched.empty]

/-! ### Groups of more than `2 ^ 30` ranks -/

theorem maskLoop_zero_none (isc : Bool) (recvbuf : Buf) (id : CommId) (rank size : Nat)
    (h : int_lt 0 size = true) : ∀ fuel, maskLoop isc recvbuf id rank size fuel 0 = none := by
  intro fuel
  induction fuel with
  | zero => rfl
  | succ fuel ih =>
    have e : int_shl1 0 = 0 := by decide
    simp only [maskLoop, h, if_true, e, ih, Option.map_none']

theorem maskLoop_step_none (isc : Bool) (recvbuf : Buf) (id : CommId) (rank size mask : Nat)
    (h : int_lt mask size = true)
    (hnext : ∀ fuel, maskLoop isc recvbuf id rank size fuel (int_shl1 mask) = none) :
    ∀ fuel, maskLoop isc recvbuf id rank size fuel mask = none := by
  intro fuel
  cases fuel with
  | zero => rfl
  | succ fuel => simp only [maskLoop, h, if_true, hnext, Option.map_none']

theorem maskLoop_overflow (isc : Bool) (recvbuf : Buf) (id : CommId) (rank size : Nat)
    (h1 : 2 ^ 30 < size) (h2 : size < 2 ^ 31) :
    ∀ d k, k + d = 31 → ∀ fuel, maskLoop isc recvbuf id rank size fuel (2 ^ k) = none := by
  have hs : toInt32 size = (size : Int) := toInt32_of_lt h2
  intro d
  induction d with
  | zero =>
    intro k hk
    obtain rfl : k = 31 := by omega
    apply maskLoop_step_none
    · have e : toInt32 (2 ^ 31) = -2147483648 := by decide
      unfold int_lt
      rw [hs, e]
      simp
      omega
    · have e : int_shl1 (2 ^ 31) = 0 := by decide
      rw [e]
      apply maskLoop_zero_none
      have e0 : toInt32 0 = 0 := by decide
      unfold int_lt
      rw [hs, e0]
      simp
      omega
  | succ d ih =>
    intro k hk
    apply maskLoop_step_none
    · have hk2 : (2 : Nat) ^ k ≤ 2 ^ 30 := Nat.pow_le_pow_right (by norm_num) (by omega)
      rw [int_lt_of_lt (by omega) h2]
      simp
      omega
    · rw [int_shl1_two_pow (by omega)]
      exact ih (k + 1) (by omega)

theorem rec_dbl_no_return (env : Faults) (henv : ∀ i, env i = 0) (sendbuf : Option Buf)
    (recvbuf : Buf) (count : Nat) (op : MPI_Op) (comm_ptr : Comm) (s : Sched)
    (hcount : count ≠ 0)
    (h1 : 2 ^ 30 < comm_ptr.local_size) (h2 : comm_ptr.local_size < 2 ^ 31) :
    ∀ fuel, MPIR_Iscan_rec_dbl fuel env sendbuf recvbuf count op comm_ptr s = none := by
  intro fuel
  have := maskLoop_overflow op.is_commutative recvbuf comm_ptr.id comm_ptr.rank
    comm_ptr.local_size h1 h2 31 0 (by omega) fuel
  simp only [pow_zero] at this
  exact rec_dbl_none fuel env henv sendbuf recvbuf count op comm_ptr s hcount this

theorem flat_exec {α : Type} (f : α → α → α)
    (hassoc : ∀ a b c, f (f a b) c = f a (f b c)) (op : MPI_Op)
    (hcomm : op.is_commutative = true → ∀ a b, f a b = f b a)
    (size count : Nat) (hs : size ≤ 2 ^ 30) (hcount : count ≠ 0)
    (sendbuf : Nat → Option Buf) (init : Nat → Mem α) (fuel : Nat) (hfuel : 32 ≤ fuel)
    (r : Nat) (hr : r < size) :
    ∃ m, execute (flatWorld fuel op f size sendbuf count init) fuel r = some m ∧
      m Buf.recvbuf = scanRange f (fun q => contribution (sendbuf q) (init q)) 0 r := by
  obtain ⟨hK, hle, _⟩ := clog_facts size hs
  have hsched := fun q (_ : q < size) =>
    flat_sched fuel op f size sendbuf count init hs hfuel hcount q
  obtain ⟨m, hm, hrecv, _⟩ := flat_inv f hassoc op.is_commutative hcomm size
    (Nat.clog 2 size) hs hK sendbuf (flatWorld fuel op f size sendbuf count init) rfl
    (fun _ _ => rfl) hsched (Nat.clog 2 size) (le_refl _) fuel (by omega) r hr
  have hmod : r % 2 ^ Nat.clog 2 size = r := Nat.mod_eq_of_lt (by omega)
  refine ⟨m, ?_, ?_⟩
  · unfold execute
    rw [hsched r hr]
    exact hm
  · rw [hrecv, hmod, Nat.sub_self]
    rfl

/-! ### C1 -/

/-- C1 (amended): in a group of `1 ≤ size ≤ 2 ^ 30` ranks, for every count
other than zero, every associative operator whose commutative flag is set
only if it commutes, and every rank `r < size`, the flat builder returns
success at `r`, and when every rank executes its schedule in recorded order,
each `recv` taking the value of the matching `send`, the final `recvbuf` of
`r` is `contribution 0 op contribution 1 op ... op contribution r`, combined
strictly from left to right. -/
theorem C1_flat_builder_inclusive_scan {α : Type} (f : α → α → α)
    (hassoc : ∀ a b c, f (f a b) c = f a (f b c)) (op : MPI_Op)
    (hcomm : op.is_commutative = true → ∀ a b, f a b = f b a)
    (size count : Nat) (hsize : 1 ≤ size) (hs : size ≤ 2 ^ 30) (hcount : count ≠ 0)
    (sendbuf : Nat → Option Buf) (init : Nat → Mem α) (fuel : Nat) (hfuel : 32 ≤ fuel)
    (r : Nat) (hr : r < size) :
    (∃ o, MPIR_Iscan_rec_dbl fuel noFaults (sendbuf r) Buf.recvbuf count op
        (flatComm size r) Sched.empty = some (Result.returned o) ∧
        o.mpi_errno = MPI_SUCCESS) ∧
    ∃ m, execute (flatWorld fuel op f size sendbuf count init) fuel r = some m ∧
      m Buf.recvbuf = scanRange f (fun q => contribution (sendbuf q) (init q)) 0 r := by
  constructor
  · exact ⟨_, flat_result noFaults (fun _ => rfl) (sendbuf r) count op size r fuel hs hfuel
      hcount Sched.empty, rfl⟩
  · exact flat_exec f hassoc op hcomm size count hs hcount sendbuf init fuel hfuel r hr

/-- Witness of C1: four ranks that contribute `A`, `B`, `C`, `D` under
concatenation end with `A`, `AB`, `ABC`, `ABCD` in `recvbuf`. -/
theorem C1_flat_builder_inclusive_scan_witness :
    (∃ m, execute (flatWorld 32 ⟨false⟩ (fun a b => a ++ b) 4 (fun _ => some Buf.sendbuf) 1
        abcdInit) 32 0 = some m ∧ m Buf.recvbuf = ['A']) ∧
    (∃ m, execute (flatWorld 32 ⟨false⟩ (fun a b => a ++ b) 4 (fun _ => some Buf.sendbuf) 1
        abcdInit) 32 1 = some m ∧ m Buf.recvbuf = ['A', 'B']) ∧
    (∃ m, execute (flatWorld 32 ⟨false⟩ (fun a b => a ++ b) 4 (fun _ => some Buf.sendbuf) 1
        abcdInit) 32 2 = some m ∧ m Buf.recvbuf = ['A', 'B', 'C']) ∧
    (∃ m, execute (flatWorld 32 ⟨false⟩ (fun a b => a ++ b) 4 (fun _ => some Buf.sendbuf) 1
        abcdInit) 32 3 = some m ∧ m Buf.recvbuf = ['A', 'B', 'C', 'D']) := by
  have h := fun r (hr : r < 4) =>
    (C1_flat_builder_inclusive_scan (fun a b : List Char => a ++ b)
      (fun a b c => List.append_assoc a b c) ⟨false⟩ (fun h => by cases h) 4 1 (by decide)
      (by decide) (by decide) (fun _ => some Buf.sendbuf) abcdInit 32 (le_refl _) r hr).2
  refine ⟨?_, ?_, ?_, ?_⟩
  · obtain ⟨m, h1, h2⟩ := h 0 (by decide)
    exact ⟨m, h1, by rw [h2]; decide⟩
  · obtain ⟨m, h1, h2⟩ := h 1 (by decide)
    exact ⟨m, h1, by rw [h2]; decide⟩
  · obtain ⟨m, h1, h2⟩ := h 2 (by decide)
    exact ⟨m, h1, by rw [h2]; decide⟩
  · obtain ⟨m, h1, h2⟩ := h 3 (by decide)
    exact ⟨m, h1, by rw [h2]; decide⟩

/-- Counterexample to C1 as stated: in a group of `2 ^ 30 + 1` ranks the mask
reaches `2 ^ 30`, the shift makes it negative and then zero, and the loop of
the flat builder never ends: for no amount of fuel does the builder return
at rank 0, so no schedule is produced and `recvbuf` of rank 1, executed on
what was recorded, keeps its initial content instead of the scan. -/
theorem C1_counterexample_size_above_two_pow_30 :
    (∀ fuel, MPIR_Iscan_rec_dbl fuel noFaults (some Buf.sendbuf) Buf.recvbuf 1 ⟨false⟩
      (flatComm (2 ^ 30 + 1) 0) Sched.empty = none) ∧
    (∀ fuel, (execute (flatWorld fuel ⟨false⟩ (fun a b => a ++ b) (2 ^ 30 + 1)
        (fun _ => some Buf.sendbuf) 1 abcdInit) fuel 1).map (fun m => m Buf.recvbuf) ≠
      some (scanRange (fun a b => a ++ b)
        (fun q => contribution (some Buf.sendbuf) (abcdInit q)) 0 1)) := by
  have hno : ∀ fuel rank, MPIR_Iscan_rec_dbl fuel noFaults (some Buf.sendbuf) Buf.recvbuf 1
      ⟨false⟩ (flatComm (2 ^ 30 + 1) rank) Sched.empty = none := fun fuel rank =>
    rec_dbl_no_return noFaults (fun _ => rfl) _ _ 1 _ (flatComm (2 ^ 30 + 1) rank) _ (by decide)
      (by simp [flatComm]) (by simp [flatComm]) fuel
  refine ⟨fun fuel => hno fuel 0, ?_⟩
  intro fuel
  simp only [execute, flatWorld, hno fuel 1, stepsOf, runSteps, Option.map_some']
  decide

/-! ### C4 -/

/-- C4: on a group that is not node-consecutive `MPIR_Iscan_SMP` returns
exactly what `MPIR_Iscan_rec_dbl` returns for the same arguments (return
code, schedule, scratch allocations, or no return at all), whatever the
sub-groups `node_comm` and `node_roots_comm` of the group are. -/
theorem C4_smp_falls_back_to_flat (fuel : Nat) (env : Faults) (sendbuf : Option Buf)
    (recvbuf : Buf) (count : Nat) (op : MPI_Op) (comm_ptr : Comm) (s : Sched)
    (h : comm_ptr.is_node_consecutive = false) :
    MPIR_Iscan_SMP fuel env sendbuf recvbuf count op comm_ptr s =
      MPIR_Iscan_rec_dbl fuel env sendbuf recvbuf count op comm_ptr s ∧
    ∀ (nc rc : Option SubComm),
      MPIR_Iscan_SMP fuel env sendbuf recvbuf count op
        { comm_ptr with node_comm := nc, node_roots_comm := rc } s =
      MPIR_Iscan_rec_dbl fuel env sendbuf recvbuf count op comm_ptr s := by
  constructor
  · simp [MPIR_Iscan_SMP, h]
  · intro nc rc
    simp [MPIR_Iscan_SMP, h, MPIR_Iscan_rec_dbl]

/-- Witness of C4: rank 1 of three ranks that are not node-consecutive, with
sub-groups whose capability tables are missing. -/
theorem C4_smp_falls_back_to_flat_witness :
    MPIR_Iscan_SMP 32 noFaults (some Buf.sendbuf) Buf.recvbuf 1 ⟨false⟩
        ⟨CommId.comm_ptr, 1, 3, false, some ⟨0, 2, none⟩, some ⟨0, 2, none⟩, 0, none⟩
        Sched.empty =
      MPIR_Iscan_rec_dbl 32 noFaults (some Buf.sendbuf) Buf.recvbuf 1 ⟨false⟩
        ⟨CommId.comm_ptr, 1, 3, false, some ⟨0, 2, none⟩, some ⟨0, 2, none⟩, 0, none⟩
        Sched.empty :=
  (C4_smp_falls_back_to_flat 32 noFaults (some Buf.sendbuf) Buf.recvbuf 1 ⟨false⟩
    ⟨CommId.comm_ptr, 1, 3, false, some ⟨0, 2, none⟩, some ⟨0, 2, none⟩, 0, none⟩
    Sched.empty rfl).1

/-! ### C5 -/

/-- C5: with `count == 0` the flat builder returns `MPI_SUCCESS`, leaves the
schedule as it was (no step recorded, no call made on it) and allocates,
commits and reaps no scratch buffer, for every group, rank, operator, send
buffer (in place or not), fault plan and fuel. -/
theorem C5_flat_count_zero_is_noop (fuel : Nat) (env : Faults) (sendbuf : Option Buf)
    (recvbuf : Buf) (op : MPI_Op) (comm_ptr : Comm) (s : Sched) :
    MPIR_Iscan_rec_dbl fuel env sendbuf recvbuf 0 op comm_ptr s =
      some (Result.returned
        { mpi_errno := MPI_SUCCESS, s := s, allocated := [], committed := [], reaped := [],
          codes := [] }) := by
  simp [MPIR_Iscan_rec_dbl]

/-! ### C7 -/

/-- C7: in a group of one rank, for a count other than zero, the flat builder
returns success and appends to the schedule only the copy of the
contribution into `recvbuf` (omitted when in place) followed by the copy of
the contribution into `partial_scan`: no send, recv, reduce or barrier.
Executed, the schedule leaves the contribution in `recvbuf`. -/
theorem C7_single_rank_schedule {α : Type} (f : α → α → α) (fuel : Nat) (hfuel : 1 ≤ fuel)
    (sendbuf : Option Buf) (recvbuf : Buf) (count : Nat) (hcount : count ≠ 0) (op : MPI_Op)
    (comm_ptr : Comm) (hsize : comm_ptr.local_size = 1) (s : Sched)
    (init : Nat → Mem α) (n : Nat) :
    (∃ o, MPIR_Iscan_rec_dbl fuel noFaults sendbuf recvbuf count op comm_ptr s =
        some (Result.returned o) ∧ o.mpi_errno = MPI_SUCCESS ∧
        o.s.steps = s.steps ++
          (match sendbuf with
            | some sb => [Step.copy sb recvbuf, Step.copy sb Buf.partial_scan]
            | none => [Step.copy recvbuf Buf.partial_scan])) ∧
    ∃ m, execute (flatWorld fuel op f 1 (fun _ => sendbuf) count init) n 0 = some m ∧
      m Buf.recvbuf = contribution sendbuf (init 0) := by
  obtain ⟨fuel1, rfl⟩ : ∃ fuel1, fuel = fuel1 + 1 := ⟨fuel - 1, by omega⟩
  have h11 : int_lt 1 1 = false := by decide
  have hloop : ∀ rb id rank, maskLoop op.is_commutative rb id rank 1 (fuel1 + 1) 1 = some [] := by
    intro rb id rank
    simp [maskLoop, h11]
  have hres : ∀ (sb : Option Buf) (rb : Buf) (c : Comm) (s0 : Sched), c.local_size = 1 →
      MPIR_Iscan_rec_dbl (fuel1 + 1) noFaults sb rb count op c s0 =
        some (runCalls noFaults (recDblInit sb rb ++ []) s0 [] []) := by
    intro sb rb c s0 hc
    exact rec_dbl_of_loop _ _ _ _ _ _ _ _ _ hcount (by rw [hc]; exact hloop _ _ _)
  constructor
  · cases sendbuf with
    | none =>
      simp [hres _ _ _ _ hsize, recDblInit, runCalls, noFaults, MPI_SUCCESS]
    | some sb =>
      simp [hres _ _ _ _ hsize, recDblInit, runCalls, noFaults, MPI_SUCCESS]
  · have hflat : (flatComm 1 0).local_size = 1 := rfl
    cases sendbuf with
    | none =>
      simp [execute, flatWorld, hres _ _ _ _ hflat,
        recDblInit, runCalls, noFaults, stepsOf, Sched.empty, runSteps, runStep, Mem.set,
        contribution]
    | some sb =>
      simp only [execute, flatWorld, hres _ _ _ _ hflat,
        recDblInit, runCalls, noFaults, stepsOf, Sched.empty, runSteps, runStep,
        contribution, if_false, Option.map_some', List.cons_append, List.nil_append,
        if_true, List.append_nil]
      refine ⟨_, rfl, ?_⟩
      by_cases h : sb = Buf.recvbuf <;> simp [Mem.set, h]

/-- Witness of C7: the single rank of a group of one, contributing `A` from
`sendbuf`. -/
theorem C7_single_rank_schedule_witness :
    (∃ o, MPIR_Iscan_rec_dbl 1 noFaults (some Buf.sendbuf) Buf.recvbuf 1 ⟨false⟩
        (flatComm 1 0) Sched.empty = some (Result.returned o) ∧ o.mpi_errno = MPI_SUCCESS ∧
        o.s.steps = Sched.empty.steps ++
          [Step.copy Buf.sendbuf Buf.recvbuf, Step.copy Buf.sendbuf Buf.partial_scan]) ∧
    ∃ m, execute (flatWorld 1 ⟨false⟩ (fun a b => a ++ b) 1 (fun _ => some Buf.sendbuf) 1
        abcdInit) 0 0 = some m ∧ m Buf.recvbuf = contribution (some Buf.sendbuf) (abcdInit 0) :=
  C7_single_rank_schedule (fun a b => a ++ b) 1 (le_refl _) (some Buf.sendbuf) Buf.recvbuf 1
    (by decide) ⟨false⟩ (flatComm 1 0) rfl Sched.empty abcdInit 0

/-! ### Shape of the hierarchical schedule -/

theorem int_sub_one {n : Nat} (h1 : 1 ≤ n) (h2 : n < 2 ^ 31) : int_sub n 1 = n - 1 := by
  unfold int_sub
  rw [Nat.mod_eq_of_lt (show n < 2 ^ 32 by omega), Nat.mod_eq_of_lt (show 1 < 2 ^ 32 by norm_num)]
  omega

theorem int_add_one {n : Nat} (h2 : n < 2 ^ 31) : int_add n 1 = n + 1 := by
  unfold int_add
  exact Nat.mod_eq_of_lt (by omega)

theorem smp_steps_eq (env : Faults) (henv : ∀ i, env i = 0) (sendbuf : Option Buf)
    (count : Nat) (op : MPI_Op) (t : Topo) (r fuel : Nat) (s : Sched)
    (hN : t.N < 2 ^ 31) (hi : t.nodeOf r < t.N) (hn : t.sz (t.nodeOf r) < 2 ^ 31)
    (hl : t.localRank r < t.sz (t.nodeOf r)) :
    ∃ o, MPIR_Iscan_SMP fuel env sendbuf Buf.recvbuf count op (smpComm t r) s =
        some (Result.returned o) ∧ o.mpi_errno = MPI_SUCCESS ∧
      o.s.steps =
        s.steps ++ smpSteps sendbuf (t.nodeOf r) (t.localRank r) (t.sz (t.nodeOf r)) t.N := by
  have e1 : int_sub t.N 1 = t.N - 1 := int_sub_one (by omega) hN
  have e2 : int_add (t.nodeOf r) 1 = t.nodeOf r + 1 := int_add_one (by omega)
  have e3 : int_sub (t.sz (t.nodeOf r)) 1 = t.sz (t.nodeOf r) - 1 := int_sub_one (by omega) hn
  have e4 : t.nodeOf r ≠ 0 → int_sub (t.nodeOf r) 1 = t.nodeOf r - 1 :=
    fun h => int_sub_one (by omega) (by omega)
  unfold MPIR_Iscan_SMP smpComm smpCalls
  simp only [Bool.not_true, if_false, Bool.false_eq_true]
  generalize t.nodeOf r = i at *
  generalize t.sz i = n at *
  generalize t.localRank r = l at *
  obtain ⟨M, eM⟩ : ∃ M, t.N - 1 = M := ⟨_, rfl⟩
  rw [eM] at e1
  by_cases hn1 : 1 < n
  · by_cases hl0 : l = 0
    · by_cases hi0 : i = 0
      · subst hi0
        by_cases hiN : 0 = M
        · subst hiN
          simp [e1, eM, hn1, hl0, e3, runCalls, henv, callIscan, callIbcast,
            subTable, subIscan, subIbcast, nodeTableOk, rootsTableOk, MPI_SUCCESS, smpSteps,
            rootPre, rootTotalBuf, relaySteps, fixupSteps]
        · simp [e1, eM, hn1, hl0, hiN, e3, runCalls, henv, callIscan, callIbcast,
            subTable, subIscan, subIbcast, nodeTableOk, rootsTableOk, MPI_SUCCESS, smpSteps,
            rootPre, rootTotalBuf, relaySteps, fixupSteps, int_add_one]
      · have e5 := e4 hi0
        by_cases hiN : i = M
        · subst hiN
          simp [e1, eM, hn1, hl0, hi0, e2, e3, e5, runCalls, henv, callIscan,
            callIbcast, subTable, subIscan, subIbcast, nodeTableOk, rootsTableOk, MPI_SUCCESS,
            smpSteps, rootPre, rootTotalBuf, relaySteps, fixupSteps]
        · simp [e1, eM, hn1, hl0, hi0, hiN, e2, e3, e5, runCalls, henv, callIscan,
            callIbcast, subTable, subIscan, subIbcast, nodeTableOk, rootsTableOk, MPI_SUCCESS,
            smpSteps, rootPre, rootTotalBuf, relaySteps, fixupSteps]
    · generalize hL : n - 1 = L at *
      by_cases hi0 : i = 0 <;> by_cases hlast : l = L
      · subst hi0; subst hlast
        simp [e1, eM, hn1, hl0, e3, runCalls, henv, callIscan,
          callIbcast, subTable, subIscan, subIbcast, nodeTableOk, rootsTableOk, MPI_SUCCESS,
          smpSteps, fixupSteps, hL]
      · subst hi0
        simp [e1, eM, hn1, hl0, hlast, e3, runCalls, henv, callIscan,
          callIbcast, subTable, subIscan, subIbcast, nodeTableOk, rootsTableOk, MPI_SUCCESS,
          smpSteps, fixupSteps, hL]
      · subst hlast
        simp [e1, eM, hn1, hl0, hi0, e3, runCalls, henv, callIscan,
          callIbcast, subTable, subIscan, subIbcast, nodeTableOk, rootsTableOk, MPI_SUCCESS,
          smpSteps, fixupSteps, hL]
      · simp [e1, eM, hn1, hl0, hi0, hlast, e3, runCalls, henv, callIscan,
          callIbcast, subTable, subIscan, subIbcast, nodeTableOk, rootsTableOk, MPI_SUCCESS,
          smpSteps, fixupSteps, hL]
  · have hl0 : l = 0 := by omega
    subst hl0
    by_cases hi0 : i = 0
    · subst hi0
      by_cases hiN : 0 = M
      · subst hiN
        cases sendbuf <;>
        simp [e1, eM, hn1, runCalls, henv, callIscan, callIbcast,
          subTable, subIscan, subIbcast, nodeTableOk, rootsTableOk, MPI_SUCCESS, smpSteps,
          rootPre, rootTotalBuf, relaySteps, fixupSteps]
      · cases sendbuf <;>
        simp [e1, eM, hn1, hiN, runCalls, henv, callIscan, callIbcast,
          subTable, subIscan, subIbcast, nodeTableOk, rootsTableOk, MPI_SUCCESS, smpSteps,
          rootPre, rootTotalBuf, relaySteps, fixupSteps, int_add_one]
    · have e5 := e4 hi0
      by_cases hiN : i = M
      · subst hiN
        cases sendbuf <;>
        simp [e1, eM, hn1, hi0, e2, e5, runCalls, henv, callIscan,
          callIbcast, subTable, subIscan, subIbcast, nodeTableOk, rootsTableOk, MPI_SUCCESS,
          smpSteps, rootPre, rootTotalBuf, relaySteps, fixupSteps]
      · cases sendbuf <;>
        simp [e1, eM, hn1, hi0, hiN, e2, e5, runCalls, henv, callIscan,
          callIbcast, subTable, subIscan, subIbcast, nodeTableOk, rootsTableOk, MPI_SUCCESS,
          smpSteps, rootPre, rootTotalBuf, relaySteps, fixupSteps]

/-! ### Lists of members and combinations -/

theorem mapM_some {α β : Type} (g : α → Option β) (h : α → β) (l : List α)
    (hh : ∀ p ∈ l, g p = some (h p)) : l.mapM g = some (l.map h) := by
  induction l with
  | nil => rw [List.mapM_nil]; rfl
  | cons a l ih =>
    rw [List.mapM_cons, hh a (List.mem_cons_self _ _),
      ih (fun p hp => hh p (List.mem_cons_of_mem _ hp))]
    rfl

theorem indexOf_map_range (g : Nat → Nat) (n l : Nat) (hl : l < n)
    (hinj : ∀ a, a < n → ∀ b, b < n → g a = g b → a = b) :
    ((List.range n).map g).indexOf (g l) = l := by
  have hnd : ((List.range n).map g).Nodup :=
    List.Nodup.map_on (fun a ha b hb e => hinj a (List.mem_range.mp ha) b (List.mem_range.mp hb) e)
      (List.nodup_range n)
  have hlen : l < ((List.range n).map g).length := by simpa using hl
  have := List.indexOf_getElem hnd l hlen
  simpa using this

theorem take_map_range (g : Nat → Nat) (n l : Nat) (hl : l ≤ n) :
    ((List.range n).map g).take l = (List.range l).map g := by
  rw [← List.map_take, List.take_range, Nat.min_eq_left hl]

theorem getElem_map_range (g : Nat → Nat) (n l : Nat) (hl : l < n) :
    ((List.range n).map g)[l]? = some (g l) := by
  simp [List.getElem?_map, List.getElem?_range hl]

theorem combineThen_snoc {α : Type} (f : α → α → α) (vs : List α) (a b : α) :
    combineThen f (vs ++ [a]) b = f (combineThen f vs a) b := by
  cases vs with
  | nil => simp [combineThen, foldFrom]
  | cons v rest => simp [combineThen, foldFrom, List.foldl_append]

theorem combineThen_range {α : Type} (f : α → α → α) (x : Nat → α) (lo : Nat) :
    ∀ k, combineThen f ((List.range k).map (fun j => x (lo + j))) (x (lo + k)) =
      scanRange f x lo k := by
  intro k
  induction k with
  | zero => simp [combineThen, scanRange]
  | succ k ih =>
    rw [List.range_succ, List.map_append, List.map_singleton, combineThen_snoc, ih]
    rfl

theorem combineThen_totals {α : Type} (f : α → α → α)
    (hassoc : ∀ a b c, f (f a b) c = f a (f b c)) (x : Nat → α) (t : Topo)
    (h0 : t.base 0 = 0) (hmono : ∀ i, i < t.N → t.base i < t.base (i + 1)) :
    ∀ i, i < t.N → combineThen f ((List.range i).map (nodeTotal f x t)) (nodeTotal f x t i) =
      scanRange f x 0 (t.base (i + 1) - 1) := by
  intro i
  induction i with
  | zero =>
    intro _
    simp [combineThen, nodeTotal, Topo.sz, h0]
  | succ i ih =>
    intro hi
    rw [List.range_succ, List.map_append, List.map_singleton, combineThen_snoc, ih (by omega)]
    have h1 := hmono i (by omega)
    have h2 := hmono (i + 1) hi
    have key := scanRange_concat f hassoc x 0 (t.base (i + 1) - 1) (t.sz (i + 1) - 1)
    rw [show 0 + (t.base (i + 1) - 1) + 1 = t.base (i + 1) by omega] at key
    unfold nodeTotal
    rw [key]
    congr 1
    unfold Topo.sz
    omega

/-! ### Facts about a well-formed layout -/

theorem Topo.base_mono (t : Topo) (hmono : ∀ i, i < t.N → t.base i < t.base (i + 1)) :
    ∀ d a, a + d ≤ t.N → t.base a ≤ t.base (a + d) := by
  intro d
  induction d with
  | zero => intro a _; exact le_refl _
  | succ d ih =>
    intro a h
    have h1 := ih a (by omega)
    have h2 := hmono (a + d) (by omega)
    rw [show a + (d + 1) = a + d + 1 by omega]
    omega

theorem Topo.base_le (t : Topo) (hmono : ∀ i, i < t.N → t.base i < t.base (i + 1))
    (a b : Nat) (hab : a ≤ b) (hb : b ≤ t.N) : t.base a ≤ t.base b := by
  have := t.base_mono hmono (b - a) a (by omega)
  rwa [show a + (b - a) = b by omega] at this

theorem Topo.node_unique (t : Topo) (hwf : t.WF) (i q : Nat) (hi : i < t.N)
    (h1 : t.base i ≤ q) (h2 : q < t.base (i + 1)) : q < t.size ∧ t.nodeOf q = i := by
  obtain ⟨_, _, hmono, hnode⟩ := hwf
  have hq : q < t.size := by
    have := t.base_le hmono (i + 1) t.N (by omega) (le_refl _)
    unfold Topo.size
    omega
  obtain ⟨hj, hj1, hj2⟩ := hnode q hq
  refine ⟨hq, ?_⟩
  by_contra hne
  rcases Nat.lt_or_gt_of_ne hne with h | h
  · have := t.base_le hmono (t.nodeOf q + 1) i (by omega) (by omega)
    omega
  · have := t.base_le hmono (i + 1) (t.nodeOf q) (by omega) (by omega)
    omega

theorem Topo.rank_facts (t : Topo) (hwf : t.WF) (r : Nat) (hr : r < t.size) :
    t.nodeOf r < t.N ∧ r = t.base (t.nodeOf r) + t.localRank r ∧
      t.localRank r < t.sz (t.nodeOf r) ∧ t.sz (t.nodeOf r) < 2 ^ 31 ∧ t.N < 2 ^ 31 ∧
      t.base (t.nodeOf r + 1) ≤ t.size := by
  obtain ⟨h0, hsz, hmono, hnode⟩ := hwf
  obtain ⟨hj, hj1, hj2⟩ := hnode r hr
  have hle := t.base_le hmono (t.nodeOf r + 1) t.N (by omega) (le_refl _)
  have hN : t.N ≤ t.base t.N := by
    have : ∀ a, a ≤ t.N → a ≤ t.base a := by
      intro a
      induction a with
      | zero => intro _; omega
      | succ a ih => intro h; have := ih (by omega); have := hmono a (by omega); omega
    exact this t.N (le_refl _)
  unfold Topo.localRank Topo.sz
  unfold Topo.size at hsz hle hr
  refine ⟨hj, by omega, by omega, by omega, by omega, ?_⟩
  unfold Topo.size
  exact hle

theorem Topo.base_inj (t : Topo) (hmono : ∀ i, i < t.N → t.base i < t.base (i + 1))
    (a : Nat) (ha : a < t.N) (b : Nat) (hb : b < t.N) (h : t.base a = t.base b) : a = b := by
  by_contra hne
  rcases Nat.lt_or_gt_of_ne hne with h1 | h1
  · have := t.base_le hmono (a + 1) b (by omega) (by omega)
    have := hmono a ha
    omega
  · have := t.base_le hmono (b + 1) a (by omega) (by omega)
    have := hmono b hb
    omega

/-! ### Execution of the hierarchical schedules -/

theorem feedN_msg {α : Type} (W : World α) (n : Nat) (c : CommId) (p r j : Nat) :
    (feedN W (n + 1)).msg c p r j =
      match findSend W p c r j [] (W.sched p) with
      | none => none
      | some (pre, buf) =>
        (runSteps W (feedN W n) p [] pre (W.init p)).map (fun m => m buf) := rfl

theorem feedN_coll {α : Type} (W : World α) (n : Nat) (c : CommId) (p j : Nat) :
    (feedN W (n + 1)).coll c p j =
      match findColl c j [] (W.sched p) with
      | none => none
      | some (pre, buf) =>
        (runSteps W (feedN W n) p [] pre (W.init p)).map (fun m => m buf) := rfl

theorem smp_node_input {α : Type} (W : World α) (t : Topo) (sendbuf : Nat → Option Buf)
    (hW : IsSmpWorld W t sendbuf) (p : Nat) (hp : p < t.size)
    (hn : 1 < t.sz (t.nodeOf p)) (n : Nat) (hfuel : 1 ≤ n) :
    (feedN W n).coll CommId.node_comm p 0 =
      some (contribution (sendbuf p) (W.init p)) := by
  obtain ⟨k, rfl⟩ : ∃ k, n = k + 1 := ⟨n - 1, by omega⟩
  rw [feedN_coll, hW.2.2 p hp]
  unfold smpSteps rootPre
  by_cases hl : t.localRank p = 0
  · cases hsb : sendbuf p <;> simp [hl, hn, findColl, runSteps, contribution]
  · cases hsb : sendbuf p <;> simp [hl, findColl, runSteps, contribution]

theorem smp_node_scan {α : Type} (f : α → α → α) (W : World α) (t : Topo)
    (sendbuf : Nat → Option Buf) (hop : W.op = f) (hW : IsSmpWorld W t sendbuf)
    (hwf : t.WF) (r : Nat) (hr : r < t.size) (hn : 1 < t.sz (t.nodeOf r))
    (n : Nat) (hfuel : 1 ≤ n)
    (done : List Step) (hdone : countColl CommId.node_comm done = 0) (m : Mem α)
    (hm : contribution (sendbuf r) m = contribution (sendbuf r) (W.init r)) :
    runStep W (feedN W n) r done
        (Step.iscan (sendbuf r) Buf.recvbuf CommId.node_comm) m =
      some (m.set Buf.recvbuf
        (scanRange f (fun q => contribution (sendbuf q) (W.init q))
          (t.base (t.nodeOf r)) (t.localRank r))) := by
  obtain ⟨hi, hrl, hl, _, _, hle⟩ := t.rank_facts hwf r hr
  have hidx : ((List.range (t.sz (t.nodeOf r))).map (fun l => t.base (t.nodeOf r) + l)).indexOf r
      = t.localRank r := by
    have := indexOf_map_range (fun l => t.base (t.nodeOf r) + l) _ _ hl
      (fun a _ b _ e => by simpa using e)
    simp only at this
    rw [← hrl] at this
    exact this
  have hfeed : ∀ p ∈ (List.range (t.localRank r)).map (fun l => t.base (t.nodeOf r) + l),
      (feedN W n).coll CommId.node_comm p 0 =
        some ((fun q => contribution (sendbuf q) (W.init q)) p) := by
    intro p hp
    obtain ⟨j, hj, rfl⟩ := List.mem_map.mp hp
    have hj1 := List.mem_range.mp hj
    have := t.node_unique hwf (t.nodeOf r) (t.base (t.nodeOf r) + j) hi (by omega)
      (by unfold Topo.sz at hl; omega)
    exact smp_node_input W t sendbuf hW _ this.1 (by rw [this.2]; exact hn) n hfuel
  have hown : (match sendbuf r with
      | some sb => m sb
      | none => m Buf.recvbuf) = contribution (sendbuf r) (W.init r) := by
    rw [← hm]; rfl
  simp only [runStep, hW.1 r, hidx, take_map_range _ _ _ (le_of_lt hl), hdone,
    mapM_some _ _ _ hfeed, Option.map_some', hop, hown, List.map_map]
  have := combineThen_range f (fun q => contribution (sendbuf q) (W.init q))
    (t.base (t.nodeOf r)) (t.localRank r)
  rw [← hrl] at this
  rw [← this]
  rfl

theorem smp_total_msg {α : Type} (f : α → α → α) (W : World α) (t : Topo)
    (sendbuf : Nat → Option Buf) (hop : W.op = f) (hW : IsSmpWorld W t sendbuf)
    (hwf : t.WF) (i : Nat) (hi : i < t.N) (hn : 1 < t.sz i) (n : Nat) (hfuel : 2 ≤ n) :
    (feedN W n).msg CommId.node_comm (t.base i + (t.sz i - 1)) (t.base i) 0 =
      some (nodeTotal f (fun q => contribution (sendbuf q) (W.init q)) t i) := by
  obtain ⟨k, rfl⟩ : ∃ k, n = k + 1 := ⟨n - 1, by omega⟩
  have hu := t.node_unique hwf i (t.base i + (t.sz i - 1)) hi (by omega)
    (by unfold Topo.sz at hn ⊢; omega)
  have eq1 := hu.2
  have eq2 : t.localRank (t.base i + (t.sz i - 1)) = t.sz i - 1 := by
    unfold Topo.localRank; rw [eq1]; omega
  have hscan := smp_node_scan f W t sendbuf hop hW hwf _ hu.1 (by rw [eq1]; exact hn) k
    (by omega) [] rfl (W.init _) rfl
  rw [eq1, eq2] at hscan
  have hget : (W.members (t.base i + (t.sz i - 1)) CommId.node_comm)[0]? = some (t.base i) := by
    rw [hW.1, eq1]
    have := getElem_map_range (fun l => t.base i + l) (t.sz i) 0 (by omega)
    simpa using this
  have hl0 : t.sz i - 1 ≠ 0 := by omega
  rw [feedN_msg, hW.2.2 _ hu.1, eq1, eq2]
  simp only [smpSteps, hl0, if_false, if_true, List.cons_append, List.nil_append, findSend,
    hget, true_and, and_self, runSteps, hscan, Option.map_some']
  simp [runStep, Mem.set, nodeTotal]

theorem smp_root_pre {α : Type} (f : α → α → α) (W : World α) (t : Topo)
    (sendbuf : Nat → Option Buf) (hop : W.op = f) (hW : IsSmpWorld W t sendbuf)
    (hwf : t.WF) (r : Nat) (hr : r < t.size) (hl0 : t.localRank r = 0)
    (n : Nat) (hfuel : 2 ≤ n) :
    ∃ m, runSteps W (feedN W n) r []
        (rootPre (sendbuf r) (t.sz (t.nodeOf r))) (W.init r) = some m ∧
      m (rootTotalBuf (t.sz (t.nodeOf r))) =
        nodeTotal f (fun q => contribution (sendbuf q) (W.init q)) t (t.nodeOf r) ∧
      m Buf.recvbuf = contribution (sendbuf r) (W.init r) := by
  obtain ⟨hi, hrl, hl, _, _, hle⟩ := t.rank_facts hwf r hr
  have hrb : r = t.base (t.nodeOf r) := by omega
  by_cases hn : 1 < t.sz (t.nodeOf r)
  · have hscan := smp_node_scan f W t sendbuf hop hW hwf r hr hn n (by omega) [] rfl
      (W.init r) rfl
    have hmsg := Eq.trans
      (congrArg (fun d => (feedN W n).msg CommId.node_comm
        (t.base (t.nodeOf r) + (t.sz (t.nodeOf r) - 1)) d 0) hrb)
      (smp_total_msg f W t sendbuf hop hW hwf (t.nodeOf r) hi hn n hfuel)
    simp only at hmsg
    have hget : (W.members r CommId.node_comm)[t.sz (t.nodeOf r) - 1]? =
        some (t.base (t.nodeOf r) + (t.sz (t.nodeOf r) - 1)) := by
      rw [hW.1]
      exact getElem_map_range (fun l => t.base (t.nodeOf r) + l) _ _ (by omega)
    simp only [rootPre, rootTotalBuf, hn, if_true, runSteps, hscan]
    have hcnt : countRecv CommId.node_comm (t.sz (t.nodeOf r) - 1)
        [Step.iscan (sendbuf r) Buf.recvbuf CommId.node_comm, Step.barrier] = 0 := by
      simp [countRecv]
    simp only [runStep, hget, List.nil_append, List.cons_append, hcnt, hmsg, Option.map_some']
    refine ⟨_, rfl, ?_, ?_⟩
    · simp [Mem.set]
    · simp [Mem.set, hl0, scanRange]
      rw [← hrb]
  · have hn1 : t.sz (t.nodeOf r) = 1 := by omega
    have htot : nodeTotal f (fun q => contribution (sendbuf q) (W.init q)) t (t.nodeOf r) =
        contribution (sendbuf r) (W.init r) := by
      unfold nodeTotal
      rw [hn1, ← hrb]
      rfl
    rw [htot]
    cases hsb : sendbuf r with
    | none =>
      simp [rootPre, rootTotalBuf, hn, runSteps, contribution]
    | some sb =>
      simp [rootPre, rootTotalBuf, hn, runSteps, runStep, contribution, Mem.set]

theorem findColl_skip (c : CommId) :
    ∀ (a b done : List Step) (j : Nat), countColl c a = 0 →
      findColl c j done (a ++ b) = findColl c j (done ++ a) b := by
  intro a
  induction a with
  | nil => intro b done j _; simp
  | cons st rest ih =>
    intro b done j h
    have hsplit : countColl c (st :: rest) = countColl c rest + countColl c [st] := by
      simp [countColl, List.countP_cons]
    have hrest : countColl c rest = 0 := by omega
    have hst : countColl c [st] = 0 := by omega
    have e := ih b (done ++ [st]) j hrest
    cases st with
    | iscan x y c1 =>
      have hc : c1 ≠ c := by
        intro hc; subst hc; simp [countColl] at hst
      simp only [List.cons_append, findColl, hc, if_false]
      simpa using e
    | ibcast x y c1 =>
      have hc : c1 ≠ c := by
        intro hc; subst hc; simp [countColl] at hst
      simp only [List.cons_append, findColl, hc, if_false]
      simpa using e
    | copy x y => simp only [List.cons_append, findColl]; simpa using e
    | send x y z => simp only [List.cons_append, findColl]; simpa using e
    | recv x y z => simp only [List.cons_append, findColl]; simpa using e
    | reduce x y => simp only [List.cons_append, findColl]; simpa using e
    | barrier => simp only [List.cons_append, findColl]; simpa using e

theorem countColl_rootPre (sendbuf : Option Buf) (n : Nat) :
    countColl CommId.roots_comm (rootPre sendbuf n) = 0 := by
  unfold rootPre
  by_cases hn : 1 < n
  · simp [hn, countColl]
  · cases sendbuf <;> simp [hn, countColl]

theorem Topo.root_facts (t : Topo) (hwf : t.WF) (j : Nat) (hj : j < t.N) :
    t.base j < t.size ∧ t.nodeOf (t.base j) = j ∧ t.localRank (t.base j) = 0 := by
  have := t.node_unique hwf j (t.base j) hj (le_refl _) (hwf.2.2.1 j hj)
  refine ⟨this.1, this.2, ?_⟩
  unfold Topo.localRank
  rw [this.2]
  omega

theorem smp_roots_input {α : Type} (f : α → α → α) (W : World α) (t : Topo)
    (sendbuf : Nat → Option Buf) (hop : W.op = f) (hW : IsSmpWorld W t sendbuf)
    (hwf : t.WF) (j : Nat) (hj : j < t.N) (n : Nat) (hfuel : 3 ≤ n) :
    (feedN W n).coll CommId.roots_comm (t.base j) 0 =
      some (nodeTotal f (fun q => contribution (sendbuf q) (W.init q)) t j) := by
  obtain ⟨k, rfl⟩ : ∃ k, n = k + 1 := ⟨n - 1, by omega⟩
  obtain ⟨hp, e1, e2⟩ := t.root_facts hwf j hj
  obtain ⟨m, hm, hmt, _⟩ := smp_root_pre f W t sendbuf hop hW hwf (t.base j) hp e2 k (by omega)
  rw [e1] at hm hmt
  rw [feedN_coll, hW.2.2 _ hp, e1, e2]
  simp only [smpSteps, if_true, List.append_assoc]
  rw [findColl_skip _ _ _ _ _ (countColl_rootPre _ _)]
  simp only [List.cons_append, List.nil_append, findColl, if_true, Option.getD_some, hm,
    Option.map_some', hmt]

theorem smp_root_scan {α : Type} (f : α → α → α)
    (hassoc : ∀ a b c, f (f a b) c = f a (f b c)) (W : World α) (t : Topo)
    (sendbuf : Nat → Option Buf) (hop : W.op = f) (hW : IsSmpWorld W t sendbuf)
    (hwf : t.WF) (r : Nat) (hr : r < t.size) (hl0 : t.localRank r = 0)
    (n : Nat) (hfuel : 3 ≤ n) :
    ∃ m, runSteps W (feedN W n) r []
        (rootPre (sendbuf r) (t.sz (t.nodeOf r)) ++
          [Step.iscan (some (rootTotalBuf (t.sz (t.nodeOf r)))) Buf.prefulldata
            CommId.roots_comm, Step.barrier]) (W.init r) = some m ∧
      m Buf.prefulldata = scanRange f (fun q => contribution (sendbuf q) (W.init q)) 0
        (t.base (t.nodeOf r + 1) - 1) ∧
      m Buf.recvbuf = contribution (sendbuf r) (W.init r) := by
  obtain ⟨hi, hrl, hl, _, _, hle⟩ := t.rank_facts hwf r hr
  have hrb : r = t.base (t.nodeOf r) := by omega
  obtain ⟨m0, hm0, hmt, hmr⟩ := smp_root_pre f W t sendbuf hop hW hwf r hr hl0 n (by omega)
  have hidx : ((List.range t.N).map t.base).indexOf r = t.nodeOf r := by
    have := indexOf_map_range t.base t.N (t.nodeOf r) hi (t.base_inj hwf.2.2.1)
    rw [← hrb] at this
    exact this
  have hfeed : ∀ p ∈ (List.range (t.nodeOf r)).map t.base,
      (feedN W n).coll CommId.roots_comm p 0 =
        some ((fun p => nodeTotal f (fun q => contribution (sendbuf q) (W.init q)) t
          (t.nodeOf p)) p) := by
    intro p hp
    obtain ⟨j, hj, rfl⟩ := List.mem_map.mp hp
    have hj1 := List.mem_range.mp hj
    rw [smp_roots_input f W t sendbuf hop hW hwf j (by omega) n hfuel]
    simp only [(t.root_facts hwf j (by omega)).2.1]
  have hmap : List.map (fun p => nodeTotal f (fun q => contribution (sendbuf q) (W.init q)) t
      (t.nodeOf p)) ((List.range (t.nodeOf r)).map t.base) =
      (List.range (t.nodeOf r)).map
        (nodeTotal f (fun q => contribution (sendbuf q) (W.init q)) t) := by
    rw [List.map_map]
    apply List.map_congr_left
    intro j hj
    have hj1 := List.mem_range.mp hj
    simp [(t.root_facts hwf j (by omega)).2.1]
  rw [runSteps_append, hm0, Option.some_bind, List.nil_append]
  simp only [runSteps, runStep, hW.2.1 r, hidx, take_map_range _ _ _ (le_of_lt hi),
    countColl_rootPre, mapM_some _ _ _ hfeed, Option.map_some', hop, hmap, hmt,
    combineThen_totals f hassoc _ t hwf.1 hwf.2.2.1 _ hi]
  exact ⟨_, rfl, by simp [Mem.set], by simp [Mem.set, hmr]⟩

theorem no_send_rootPre (sendbuf : Option Buf) (n : Nat) (tb : Buf) (buf : Buf) (dest : Nat)
    (c1 : CommId) :
    Step.send buf dest c1 ∉ rootPre sendbuf n ++
      [Step.iscan (some tb) Buf.prefulldata CommId.roots_comm, Step.barrier] := by
  unfold rootPre
  by_cases hn : 1 < n
  · simp [hn]
  · cases sendbuf <;> simp [hn]

theorem countRecv_rootPre (sendbuf : Option Buf) (n : Nat) (tb : Buf) (src : Nat) :
    countRecv CommId.roots_comm src (rootPre sendbuf n ++
      [Step.iscan (some tb) Buf.prefulldata CommId.roots_comm, Step.barrier]) = 0 := by
  unfold rootPre
  by_cases hn : 1 < n
  · simp [hn, countRecv]
  · cases sendbuf <;> simp [hn, countRecv]

theorem smp_relay_msg {α : Type} (f : α → α → α)
    (hassoc : ∀ a b c, f (f a b) c = f a (f b c)) (W : World α) (t : Topo)
    (sendbuf : Nat → Option Buf) (hop : W.op = f) (hW : IsSmpWorld W t sendbuf)
    (hwf : t.WF) (i : Nat) (hi : i + 1 < t.N) (n : Nat) (hfuel : 4 ≤ n) :
    (feedN W n).msg CommId.roots_comm (t.base i) (t.base (i + 1)) 0 =
      some (scanRange f (fun q => contribution (sendbuf q) (W.init q)) 0
        (t.base (i + 1) - 1)) := by
  obtain ⟨k, rfl⟩ : ∃ k, n = k + 1 := ⟨n - 1, by omega⟩
  obtain ⟨hp, e1, e2⟩ := t.root_facts hwf i (by omega)
  obtain ⟨m, hm, hmp, _⟩ := smp_root_scan f hassoc W t sendbuf hop hW hwf (t.base i) hp e2 k
    (by omega)
  rw [e1] at hm hmp
  have hget : (W.members (t.base i) CommId.roots_comm)[i + 1]? = some (t.base (i + 1)) := by
    rw [hW.2.1]
    exact getElem_map_range t.base t.N (i + 1) hi
  have hne : i ≠ t.N - 1 := by omega
  rw [feedN_msg, hW.2.2 _ hp, e1, e2]
  simp only [smpSteps, if_true, List.append_assoc]
  rw [← List.append_assoc, findSend_skip W _ _ _ _ _ _ _
    (fun buf dest c1 hmem _ => no_send_rootPre _ _ _ buf dest c1 hmem)]
  simp only [relaySteps, hne, ne_eq, not_false_eq_true, if_true, List.cons_append,
    List.nil_append, findSend, hget, and_self, hm, Option.map_some', hmp]

theorem smp_root_relay {α : Type} (f : α → α → α)
    (hassoc : ∀ a b c, f (f a b) c = f a (f b c)) (W : World α) (t : Topo)
    (sendbuf : Nat → Option Buf) (hop : W.op = f) (hW : IsSmpWorld W t sendbuf)
    (hwf : t.WF) (r : Nat) (hr : r < t.size) (hl0 : t.localRank r = 0)
    (n : Nat) (hfuel : 4 ≤ n) :
    ∃ m, runSteps W (feedN W n) r []
        (rootPre (sendbuf r) (t.sz (t.nodeOf r)) ++
          [Step.iscan (some (rootTotalBuf (t.sz (t.nodeOf r)))) Buf.prefulldata
            CommId.roots_comm, Step.barrier] ++
          relaySteps (t.nodeOf r) t.N) (W.init r) = some m ∧
      m Buf.recvbuf = contribution (sendbuf r) (W.init r) ∧
      (t.nodeOf r ≠ 0 → m Buf.tempbuf =
        scanRange f (fun q => contribution (sendbuf q) (W.init q)) 0
          (t.base (t.nodeOf r) - 1)) := by
  obtain ⟨hi, hrl, hl, _, _, hle⟩ := t.rank_facts hwf r hr
  have hrb : r = t.base (t.nodeOf r) := by omega
  obtain ⟨m1, hm1, _, hmr⟩ := smp_root_scan f hassoc W t sendbuf hop hW hwf r hr hl0 n
    (by omega)
  rw [runSteps_append, hm1, Option.some_bind, List.nil_append]
  unfold relaySteps
  by_cases hi0 : t.nodeOf r = 0
  · rw [if_neg (not_not.mpr hi0), List.append_nil]
    by_cases hN : t.nodeOf r = t.N - 1
    · rw [if_neg (not_not.mpr hN)]
      exact ⟨_, rfl, hmr, fun h => absurd hi0 h⟩
    · rw [if_pos hN]
      simp only [runSteps, runStep]
      exact ⟨_, rfl, hmr, fun h => absurd hi0 h⟩
  · have hget : (W.members r CommId.roots_comm)[t.nodeOf r - 1]? =
        some (t.base (t.nodeOf r - 1)) := by
      rw [hW.2.1]
      exact getElem_map_range t.base t.N _ (by omega)
    have hmsg : (feedN W n).msg CommId.roots_comm (t.base (t.nodeOf r - 1)) r 0 =
        some (scanRange f (fun q => contribution (sendbuf q) (W.init q)) 0
          (t.base (t.nodeOf r) - 1)) := by
      have h := smp_relay_msg f hassoc W t sendbuf hop hW hwf (t.nodeOf r - 1) (by omega) n
        hfuel
      rw [show t.nodeOf r - 1 + 1 = t.nodeOf r by omega] at h
      exact (congrArg (fun d => (feedN W n).msg CommId.roots_comm
        (t.base (t.nodeOf r - 1)) d 0) hrb).trans h
    have hcnt := countRecv_rootPre (sendbuf r) (t.sz (t.nodeOf r))
      (rootTotalBuf (t.sz (t.nodeOf r))) (t.nodeOf r - 1)
    rw [if_pos hi0]
    by_cases hN : t.nodeOf r = t.N - 1
    · rw [if_neg (not_not.mpr hN), List.nil_append]
      simp only [runSteps, runStep, hget, hcnt, hmsg, Option.map_some']
      exact ⟨_, rfl, by simp [Mem.set, hmr], fun _ => by simp [Mem.set]⟩
    · rw [if_pos hN]
      have hc2 : countRecv CommId.roots_comm (t.nodeOf r - 1)
          [Step.send Buf.prefulldata (t.nodeOf r + 1) CommId.roots_comm] = 0 := by
        simp [countRecv]
      have hc3 : countRecv CommId.roots_comm (t.nodeOf r - 1) [Step.barrier] = 0 := by
        simp [countRecv]
      simp only [List.cons_append, List.nil_append, runSteps, runStep, hget,
        countRecv_append, hcnt, hc2, hc3, hmsg, Option.map_some']
      exact ⟨_, rfl, by simp [Mem.set, hmr], fun _ => by simp [Mem.set]⟩

theorem findColl_at_ibcast (c : CommId) (buf : Buf) (root : Nat) :
    ∀ (a done : List Step) (j : Nat) (b : List Step), countColl c a = j →
      findColl c j done (a ++ Step.ibcast buf root c :: b) = some (done ++ a, buf) := by
  intro a
  induction a with
  | nil =>
    intro done j b h
    have hj : j = 0 := by simpa [countColl] using h.symm
    subst hj
    simp [findColl]
  | cons st rest ih =>
    intro done j b h
    have hsplit : countColl c (st :: rest) = countColl c rest + countColl c [st] := by
      simp [countColl, List.countP_cons]
    rw [hsplit] at h
    cases st with
    | iscan x y c1 =>
      by_cases hc : c1 = c
      · subst hc
        have h1 : countColl c1 [Step.iscan x y c1] = 1 := by simp [countColl]
        obtain ⟨j1, rfl⟩ : ∃ j1, j = j1 + 1 := ⟨j - 1, by omega⟩
        simp only [List.cons_append, findColl, if_true]
        have e := ih (done ++ [Step.iscan x y c1]) j1 b (by omega)
        simpa using e
      · have h1 : countColl c [Step.iscan x y c1] = 0 := by simp [countColl, hc]
        simp only [List.cons_append, findColl, hc, if_false]
        have e := ih (done ++ [Step.iscan x y c1]) j b (by omega)
        simpa using e
    | ibcast x y c1 =>
      by_cases hc : c1 = c
      · subst hc
        have h1 : countColl c1 [Step.ibcast x y c1] = 1 := by simp [countColl]
        obtain ⟨j1, rfl⟩ : ∃ j1, j = j1 + 1 := ⟨j - 1, by omega⟩
        simp only [List.cons_append, findColl, if_true]
        have e := ih (done ++ [Step.ibcast x y c1]) j1 b (by omega)
        simpa using e
      · have h1 : countColl c [Step.ibcast x y c1] = 0 := by simp [countColl, hc]
        simp only [List.cons_append, findColl, hc, if_false]
        have e := ih (done ++ [Step.ibcast x y c1]) j b (by omega)
        simpa using e
    | copy x y =>
      have h1 : countColl c [Step.copy x y] = 0 := by simp [countColl]
      simp only [List.cons_append, findColl]
      have e := ih (done ++ [Step.copy x y]) j b (by omega)
      simpa using e
    | send x y z =>
      have h1 : countColl c [Step.send x y z] = 0 := by simp [countColl]
      simp only [List.cons_append, findColl]
      have e := ih (done ++ [Step.send x y z]) j b (by omega)
      simpa using e
    | recv x y z =>
      have h1 : countColl c [Step.recv x y z] = 0 := by simp [countColl]
      simp only [List.cons_append, findColl]
      have e := ih (done ++ [Step.recv x y z]) j b (by omega)
      simpa using e
    | reduce x y =>
      have h1 : countColl c [Step.reduce x y] = 0 := by simp [countColl]
      simp only [List.cons_append, findColl]
      have e := ih (done ++ [Step.reduce x y]) j b (by omega)
      simpa using e
    | barrier =>
      have h1 : countColl c [Step.barrier] = 0 := by simp [countColl]
      simp only [List.cons_append, findColl]
      have e := ih (done ++ [Step.barrier]) j b (by omega)
      simpa using e

theorem countColl_append (c : CommId) (a b : List Step) :
    countColl c (a ++ b) = countColl c a + countColl c b := by
  simp [countColl, List.countP_append]

theorem countColl_relay (c : CommId) (i N : Nat) : countColl c (relaySteps i N) = 0 := by
  unfold relaySteps
  rw [countColl_append]
  have h1 : countColl c (if i ≠ N - 1 then
      [Step.send Buf.prefulldata (i + 1) CommId.roots_comm, Step.barrier] else []) = 0 := by
    split <;> simp [countColl]
  have h2 : countColl c (if i ≠ 0 then
      [Step.recv Buf.tempbuf (i - 1) CommId.roots_comm, Step.barrier] else []) = 0 := by
    split <;> simp [countColl]
  rw [h1, h2]

theorem countColl_rootHead (sendbuf : Option Buf) (i n N : Nat) (tb : Buf) (hn : 1 < n) :
    countColl CommId.node_comm (rootPre sendbuf n ++
      [Step.iscan (some tb) Buf.prefulldata CommId.roots_comm, Step.barrier] ++
      relaySteps i N) = 1 := by
  rw [countColl_append, countColl_append, countColl_relay]
  simp [rootPre, hn, countColl]

theorem smp_bcast_input {α : Type} (f : α → α → α)
    (hassoc : ∀ a b c, f (f a b) c = f a (f b c)) (W : World α) (t : Topo)
    (sendbuf : Nat → Option Buf) (hop : W.op = f) (hW : IsSmpWorld W t sendbuf)
    (hwf : t.WF) (i : Nat) (hi : i < t.N) (hi0 : i ≠ 0) (hn : 1 < t.sz i)
    (n : Nat) (hfuel : 5 ≤ n) :
    (feedN W n).coll CommId.node_comm (t.base i) 1 =
      some (scanRange f (fun q => contribution (sendbuf q) (W.init q)) 0 (t.base i - 1)) := by
  obtain ⟨k, rfl⟩ : ∃ k, n = k + 1 := ⟨n - 1, by omega⟩
  obtain ⟨hp, e1, e2⟩ := t.root_facts hwf i hi
  obtain ⟨m, hm, _, hmt⟩ := smp_root_relay f hassoc W t sendbuf hop hW hwf (t.base i) hp e2 k
    (by omega)
  rw [e1] at hm hmt
  rw [feedN_coll, hW.2.2 _ hp, e1, e2]
  simp only [smpSteps, if_true, fixupSteps, hi0, ne_eq, not_false_eq_true, hn,
    List.cons_append, List.nil_append]
  rw [findColl_at_ibcast _ _ _ _ _ _ _ (countColl_rootHead _ _ _ _ _ hn)]
  simp only [List.nil_append, hm, Option.map_some', hmt hi0]

theorem smp_final {α : Type} (f : α → α → α)
    (hassoc : ∀ a b c, f (f a b) c = f a (f b c)) (W : World α) (t : Topo)
    (sendbuf : Nat → Option Buf) (hop : W.op = f) (hW : IsSmpWorld W t sendbuf)
    (hwf : t.WF) (r : Nat) (hr : r < t.size) (n : Nat) (hfuel : 5 ≤ n) :
    ∃ m, execute W n r = some m ∧
      m Buf.recvbuf = scanRange f (fun q => contribution (sendbuf q) (W.init q)) 0 r := by
  obtain ⟨hi, hrl, hl, _, _, hle⟩ := t.rank_facts hwf r hr
  have hbase : t.nodeOf r ≠ 0 → 1 ≤ t.base (t.nodeOf r) := by
    intro h
    have h1 := t.base_le hwf.2.2.1 1 (t.nodeOf r) (by omega) (by omega)
    have h2 : t.base 0 < t.base 1 := hwf.2.2.1 0 (by omega)
    omega
  have hcat : t.nodeOf r ≠ 0 → ∀ b,
      f (scanRange f (fun q => contribution (sendbuf q) (W.init q)) 0 (t.base (t.nodeOf r) - 1))
        (scanRange f (fun q => contribution (sendbuf q) (W.init q)) (t.base (t.nodeOf r)) b) =
      scanRange f (fun q => contribution (sendbuf q) (W.init q)) 0 (t.base (t.nodeOf r) + b) := by
    intro h b
    have h1 := hbase h
    have key := scanRange_concat f hassoc (fun q => contribution (sendbuf q) (W.init q)) 0
      (t.base (t.nodeOf r) - 1) b
    rw [show 0 + (t.base (t.nodeOf r) - 1) + 1 = t.base (t.nodeOf r) by omega,
      show t.base (t.nodeOf r) - 1 + b + 1 = t.base (t.nodeOf r) + b by omega] at key
    exact key
  have hget0 : (W.members r CommId.node_comm)[0]? = some (t.base (t.nodeOf r)) := by
    rw [hW.1]
    have := getElem_map_range (fun l => t.base (t.nodeOf r) + l) (t.sz (t.nodeOf r)) 0
      (by omega)
    simpa using this
  unfold execute
  rw [hW.2.2 r hr]
  unfold smpSteps
  by_cases hl0 : t.localRank r = 0
  · have hrb : r = t.base (t.nodeOf r) := by omega
    obtain ⟨m, hm, hmr, hmt⟩ := smp_root_relay f hassoc W t sendbuf hop hW hwf r hr hl0 n
      (by omega)
    rw [if_pos hl0, runSteps_append, hm, Option.some_bind, List.nil_append]
    unfold fixupSteps
    by_cases hi0 : t.nodeOf r = 0
    · rw [if_neg (not_not.mpr hi0)]
      refine ⟨m, rfl, ?_⟩
      rw [hmr, hrb, hi0, hwf.1]
      rfl
    · rw [if_pos hi0]
      have hfin : f (m Buf.tempbuf) (m Buf.recvbuf) =
          scanRange f (fun q => contribution (sendbuf q) (W.init q)) 0 r := by
        rw [hmt hi0, hmr]
        have e := hcat hi0 0
        calc f (scanRange f (fun q => contribution (sendbuf q) (W.init q)) 0
                (t.base (t.nodeOf r) - 1)) (contribution (sendbuf r) (W.init r))
            = f (scanRange f (fun q => contribution (sendbuf q) (W.init q)) 0
                (t.base (t.nodeOf r) - 1))
                (scanRange f (fun q => contribution (sendbuf q) (W.init q))
                  (t.base (t.nodeOf r)) 0) := by rw [← hrb]; rfl
          _ = scanRange f (fun q => contribution (sendbuf q) (W.init q)) 0
                (t.base (t.nodeOf r) + 0) := e
          _ = scanRange f (fun q => contribution (sendbuf q) (W.init q)) 0 r := by
                rw [Nat.add_zero, ← hrb]
      by_cases hn : 1 < t.sz (t.nodeOf r)
      · simp only [hn, if_true, List.cons_append, List.nil_append, runSteps, runStep, hget0,
          ← hrb, hop]
        exact ⟨_, rfl, by simp [Mem.set, hfin]⟩
      · simp only [hn, if_false, List.nil_append, runSteps, runStep, hop]
        exact ⟨_, rfl, by simp [Mem.set, hfin]⟩
  · have hn : 1 < t.sz (t.nodeOf r) := by omega
    have hscan := smp_node_scan f W t sendbuf hop hW hwf r hr hn n (by omega) [] rfl
      (W.init r) rfl
    rw [if_neg hl0]
    unfold fixupSteps
    by_cases hi0 : t.nodeOf r = 0
    · rw [if_neg (not_not.mpr hi0), List.append_nil]
      have hfin : scanRange f (fun q => contribution (sendbuf q) (W.init q))
          (t.base (t.nodeOf r)) (t.localRank r) =
          scanRange f (fun q => contribution (sendbuf q) (W.init q)) 0 r := by
        have e : t.base (t.nodeOf r) = 0 := by rw [hi0]; exact hwf.1
        have e2 : t.localRank r = r := by omega
        rw [e, e2]
      by_cases hlast : t.localRank r = t.sz (t.nodeOf r) - 1
      · rw [if_pos hlast]
        simp only [List.cons_append, List.nil_append, runSteps, hscan]
        simp only [runStep]
        exact ⟨_, rfl, by simp [Mem.set, hfin]⟩
      · rw [if_neg hlast]
        simp only [List.cons_append, List.nil_append, List.append_nil, runSteps, hscan]
        simp only [runStep]
        exact ⟨_, rfl, by simp [Mem.set, hfin]⟩
    · rw [if_pos hi0, if_pos hn]
      have hne : t.base (t.nodeOf r) ≠ r := by omega
      have hbc := smp_bcast_input f hassoc W t sendbuf hop hW hwf (t.nodeOf r) hi hi0 hn n hfuel
      have hfin := hcat hi0 (t.localRank r)
      rw [← hrl] at hfin
      by_cases hlast : t.localRank r = t.sz (t.nodeOf r) - 1
      · rw [if_pos hlast]
        have hc : countColl CommId.node_comm
            [Step.iscan (sendbuf r) Buf.recvbuf CommId.node_comm, Step.barrier,
             Step.send Buf.recvbuf 0 CommId.node_comm, Step.barrier] = 1 := by
          simp [countColl]
        simp only [List.cons_append, List.nil_append, runSteps, hscan]
        simp only [runStep, hget0, hne, if_false, hc, hbc, Option.map_some', hop]
        exact ⟨_, rfl, by simp [Mem.set, hfin]⟩
      · rw [if_neg hlast]
        have hc : countColl CommId.node_comm
            [Step.iscan (sendbuf r) Buf.recvbuf CommId.node_comm, Step.barrier] = 1 := by
          simp [countColl]
        simp only [List.cons_append, List.nil_append, List.append_nil, runSteps, hscan]
        simp only [runStep, hget0, hne, if_false, hc, hbc, Option.map_some', hop]
        exact ⟨_, rfl, by simp [Mem.set, hfin]⟩

theorem smpWorld_spec {α : Type} (fuel : Nat) (op : MPI_Op) (f : α → α → α) (t : Topo)
    (hwf : t.WF) (sendbuf : Nat → Option Buf) (count : Nat) (init : Nat → Mem α) :
    IsSmpWorld (smpWorld fuel op f t sendbuf count init) t sendbuf := by
  refine ⟨fun _ => rfl, fun _ => rfl, ?_⟩
  intro r hr
  obtain ⟨hi, _, hl, hn, hN, _⟩ := t.rank_facts hwf r hr
  obtain ⟨o, ho, _, hs⟩ := smp_steps_eq noFaults (fun _ => rfl) (sendbuf r) count op t r fuel
    Sched.empty hN hi hn hl
  simp only [smpWorld]
  rw [ho]
  simpa [stepsOf, Sched.empty] using hs

/-! ### C2 -/

/-- C2: on a node-consecutive group with a well-formed layout (`node_comm`
absent exactly on nodes of one rank, `node_roots_comm` present exactly on
local rank 0, inter-node rank equal to the index of the node), for every
count, every associative operator and every rank `r`, with sub-group scan
and broadcast builders that are correct, the hierarchical builder returns
success at `r`, and when every rank executes its schedule in recorded order
the final `recvbuf` of `r` is the left-to-right combination of the
contributions of ranks `0..r`. -/
theorem C2_hierarchical_builder_inclusive_scan {α : Type} (f : α → α → α)
    (hassoc : ∀ a b c, f (f a b) c = f a (f b c)) (op : MPI_Op) (t : Topo) (hwf : t.WF)
    (count : Nat) (sendbuf : Nat → Option Buf) (init : Nat → Mem α) (fuel n : Nat)
    (hn : 5 ≤ n) (r : Nat) (hr : r < t.size) :
    (∃ o, MPIR_Iscan_SMP fuel noFaults (sendbuf r) Buf.recvbuf count op (smpComm t r)
        Sched.empty = some (Result.returned o) ∧ o.mpi_errno = MPI_SUCCESS) ∧
    ∃ m, execute (smpWorld fuel op f t sendbuf count init) n r = some m ∧
      m Buf.recvbuf = scanRange f (fun q => contribution (sendbuf q) (init q)) 0 r := by
  constructor
  · obtain ⟨hi, _, hl, hsz, hN, _⟩ := t.rank_facts hwf r hr
    obtain ⟨o, ho, he, _⟩ := smp_steps_eq noFaults (fun _ => rfl) (sendbuf r) count op t r fuel
      Sched.empty hN hi hsz hl
    exact ⟨o, ho, he⟩
  · exact smp_final f hassoc (smpWorld fuel op f t sendbuf count init) t sendbuf rfl
      (smpWorld_spec fuel op f t hwf sendbuf count init) hwf r hr n hn

theorem twoByTwo_wf : twoByTwo.WF := by
  refine ⟨rfl, by decide, ?_, ?_⟩
  · intro i _; simp [twoByTwo]
  · intro r hr
    have hr4 : r < 4 := hr
    simp only [twoByTwo]
    omega

/-- Witness of C2: two nodes of two ranks (ranks 0, 1 and 2, 3) with integer
sum and contributions `[1, 1, 1, 1]` end with `[1, 2, 3, 4]`. -/
theorem C2_hierarchical_builder_inclusive_scan_witness :
    (∃ m, execute (smpWorld 0 ⟨true⟩ (fun a b : Int => a + b) twoByTwo
        (fun _ => some Buf.sendbuf) 1 onesInit) 5 0 = some m ∧ m Buf.recvbuf = 1) ∧
    (∃ m, execute (smpWorld 0 ⟨true⟩ (fun a b : Int => a + b) twoByTwo
        (fun _ => some Buf.sendbuf) 1 onesInit) 5 1 = some m ∧ m Buf.recvbuf = 2) ∧
    (∃ m, execute (smpWorld 0 ⟨true⟩ (fun a b : Int => a + b) twoByTwo
        (fun _ => some Buf.sendbuf) 1 onesInit) 5 2 = some m ∧ m Buf.recvbuf = 3) ∧
    (∃ m, execute (smpWorld 0 ⟨true⟩ (fun a b : Int => a + b) twoByTwo
        (fun _ => some Buf.sendbuf) 1 onesInit) 5 3 = some m ∧ m Buf.recvbuf = 4) := by
  have h := fun r (hr : r < 4) =>
    (C2_hierarchical_builder_inclusive_scan (fun a b : Int => a + b)
      (fun a b c => Int.add_assoc a b c) ⟨true⟩ twoByTwo twoByTwo_wf 1
      (fun _ => some Buf.sendbuf) onesInit 0 5 (le_refl _) r hr).2
  refine ⟨?_, ?_, ?_, ?_⟩
  · obtain ⟨m, h1, h2⟩ := h 0 (by decide)
    exact ⟨m, h1, by rw [h2]; decide⟩
  · obtain ⟨m, h1, h2⟩ := h 1 (by decide)
    exact ⟨m, h1, by rw [h2]; decide⟩
  · obtain ⟨m, h1, h2⟩ := h 2 (by decide)
    exact ⟨m, h1, by rw [h2]; decide⟩
  · obtain ⟨m, h1, h2⟩ := h 3 (by decide)
    exact ⟨m, h1, by rw [h2]; decide⟩

/-! ### C3 -/

/-- C3 (amended): on a node-consecutive group with a well-formed layout of at
most `2 ^ 30` ranks, for every count other than zero, every rank and every
associative operator (commutative flag set only if it commutes), executing
the schedules of the hierarchical builder and executing the schedules of
the flat builder on the same contributions both end, with the same
`recvbuf`. -/
theorem C3_hierarchical_equals_flat {α : Type} (f : α → α → α)
    (hassoc : ∀ a b c, f (f a b) c = f a (f b c)) (op : MPI_Op)
    (hcomm : op.is_commutative = true → ∀ a b, f a b = f b a)
    (t : Topo) (hwf : t.WF) (hs : t.size ≤ 2 ^ 30) (count : Nat) (hcount : count ≠ 0)
    (sendbuf : Nat → Option Buf) (init : Nat → Mem α) (fuel : Nat) (hfuel : 32 ≤ fuel)
    (r : Nat) (hr : r < t.size) :
    ∃ m1 m2, execute (smpWorld fuel op f t sendbuf count init) fuel r = some m1 ∧
      execute (flatWorld fuel op f t.size sendbuf count init) fuel r = some m2 ∧
      m1 Buf.recvbuf = m2 Buf.recvbuf := by
  obtain ⟨m1, h1, e1⟩ := smp_final f hassoc (smpWorld fuel op f t sendbuf count init) t
    sendbuf rfl (smpWorld_spec fuel op f t hwf sendbuf count init) hwf r hr fuel (by omega)
  obtain ⟨m2, h2, e2⟩ := flat_exec f hassoc op hcomm t.size count hs hcount sendbuf init fuel
    hfuel r hr
  exact ⟨m1, m2, h1, h2, by rw [e1, e2]; rfl⟩

/-- Witness of C3: rank 3 of two nodes of two ranks, integer sum, every rank
contributing 1. -/
theorem C3_hierarchical_equals_flat_witness :
    ∃ m1 m2, execute (smpWorld 32 ⟨true⟩ (fun a b : Int => a + b) twoByTwo
        (fun _ => some Buf.sendbuf) 1 onesInit) 32 3 = some m1 ∧
      execute (flatWorld 32 ⟨true⟩ (fun a b : Int => a + b) twoByTwo.size
        (fun _ => some Buf.sendbuf) 1 onesInit) 32 3 = some m2 ∧
      m1 Buf.recvbuf = m2 Buf.recvbuf :=
  C3_hierarchical_equals_flat (fun a b : Int => a + b) (fun a b c => Int.add_assoc a b c)
    ⟨true⟩ (fun _ a b => Int.add_comm a b) twoByTwo twoByTwo_wf (by decide) 1 (by decide)
    (fun _ => some Buf.sendbuf) onesInit 32 (le_refl _) 3 (by decide)

theorem oneBigNode_wf : oneBigNode.WF := by
  refine ⟨rfl, by decide, ?_, ?_⟩
  · intro i hi
    have : i = 0 := by
      have h : i < 1 := hi
      omega
    subst this
    decide
  · intro r hr
    have hr1 : r < 1 * (2 ^ 30 + 1) := hr
    refine ⟨?_, ?_, ?_⟩
    · simp [oneBigNode]
    · simp [oneBigNode]
    · simp only [oneBigNode]
      omega

/-- Counterexample to C3 as stated: on one node of `2 ^ 30 + 1` ranks, with
integer sum and every rank contributing 1, the hierarchical schedules leave
2 in `recvbuf` of rank 1, while the flat builder never returns (its mask
loop does not end), so that executing what it recorded leaves the initial 0
in `recvbuf` of rank 1. -/
theorem C3_counterexample_size_above_two_pow_30 :
    (∃ m, execute (smpWorld 32 ⟨true⟩ (fun a b : Int => a + b) oneBigNode
        (fun _ => some Buf.sendbuf) 1 onesInit) 32 1 = some m ∧ m Buf.recvbuf = 2) ∧
    (∀ fuel, MPIR_Iscan_rec_dbl fuel noFaults (some Buf.sendbuf) Buf.recvbuf 1 ⟨true⟩
      (flatComm oneBigNode.size 1) Sched.empty = none) ∧
    (∀ fuel, ∃ m, execute (flatWorld fuel ⟨true⟩ (fun a b : Int => a + b) oneBigNode.size
        (fun _ => some Buf.sendbuf) 1 onesInit) fuel 1 = some m ∧ m Buf.recvbuf = 0) := by
  have hno : ∀ fuel, MPIR_Iscan_rec_dbl fuel noFaults (some Buf.sendbuf) Buf.recvbuf 1
      ⟨true⟩ (flatComm oneBigNode.size 1) Sched.empty = none := fun fuel =>
    rec_dbl_no_return noFaults (fun _ => rfl) _ _ 1 _ (flatComm oneBigNode.size 1) _ (by decide)
      (by decide) (by decide) fuel
  refine ⟨?_, hno, ?_⟩
  · obtain ⟨m, h1, h2⟩ := smp_final (fun a b : Int => a + b)
      (fun a b c => Int.add_assoc a b c)
      (smpWorld 32 ⟨true⟩ (fun a b : Int => a + b) oneBigNode (fun _ => some Buf.sendbuf) 1
        onesInit) oneBigNode (fun _ => some Buf.sendbuf) rfl
      (smpWorld_spec 32 ⟨true⟩ _ oneBigNode oneBigNode_wf _ 1 onesInit) oneBigNode_wf 1
      (by decide) 32 (by decide)
    exact ⟨m, h1, by rw [h2]; decide⟩
  · intro fuel
    simp only [execute, flatWorld, hno fuel, stepsOf, runSteps]
    exact ⟨_, rfl, by decide⟩

/-! ### C6 -/

/-- C6, evaluated at a failing input: rank 3 of two nodes of two ranks, with
`count == 0` and sub-group builders that record nothing for a count of zero.
`MPIR_Iscan_SMP` has no test of `count`: it allocates `tempbuf` and records
three barriers, a send of `recvbuf` to local rank 0 and a reduce of `tempbuf`
into `recvbuf`, where the flat builder leaves the schedule as it was. -/
theorem C6_smp_count_zero_records_steps :
    (∃ o, MPIR_Iscan_SMP 0 noFaults (some Buf.sendbuf) Buf.recvbuf 0 ⟨true⟩ rank3Comm
        Sched.empty = some (Result.returned o) ∧
      o.s.steps = [Step.barrier, Step.send Buf.recvbuf 0 CommId.node_comm, Step.barrier,
        Step.barrier, Step.reduce Buf.tempbuf Buf.recvbuf] ∧
      o.allocated = [Buf.tempbuf] ∧ o.committed = [Buf.tempbuf]) ∧
    (∃ o, MPIR_Iscan_rec_dbl 0 noFaults (some Buf.sendbuf) Buf.recvbuf 0 ⟨true⟩ rank3Comm
        Sched.empty = some (Result.returned o) ∧ o.s.steps = [] ∧ o.allocated = []) := by
  constructor
  · exact ⟨_, rfl, by decide, by decide, by decide⟩
  · exact ⟨_, rfl, by decide, by decide⟩

/-! ### C9 -/

/-- C9: `MPIR_Iscan_impl` calls tag allocation, schedule creation, the scan
builder of the group and `MPID_Sched_start` in this order, each only if all
the earlier ones succeeded; if one of the first three returns an error the
function returns that error, `MPID_Sched_start` is not called and `*request`
is `MPI_REQUEST_NULL`. -/
theorem C9_no_request_on_construction_failure (E : Engine) (sendbuf : Option Buf)
    (recvbuf : Buf) (count : Nat) (op : MPI_Op) (comm_ptr : Comm) :
    (E.MPID_Sched_next_tag.1 ≠ 0 →
      MPIR_Iscan_impl E sendbuf recvbuf count op comm_ptr =
        ImplResult.returned ⟨E.MPID_Sched_next_tag.1, MPI_REQUEST_NULL,
          [ImplCall.next_tag]⟩) ∧
    (E.MPID_Sched_next_tag.1 = 0 → E.MPID_Sched_create.1 ≠ 0 →
      MPIR_Iscan_impl E sendbuf recvbuf count op comm_ptr =
        ImplResult.returned ⟨E.MPID_Sched_create.1, MPI_REQUEST_NULL,
          [ImplCall.next_tag, ImplCall.create]⟩) ∧
    (∀ Iscan, comm_ptr.coll_fns.bind (fun t => t.Iscan) = some Iscan →
      E.MPID_Sched_next_tag.1 = 0 → E.MPID_Sched_create.1 = 0 →
      (Iscan sendbuf recvbuf count op comm_ptr.id E.MPID_Sched_create.2).1 ≠ 0 →
      MPIR_Iscan_impl E sendbuf recvbuf count op comm_ptr =
        ImplResult.returned
          ⟨(Iscan sendbuf recvbuf count op comm_ptr.id E.MPID_Sched_create.2).1,
            MPI_REQUEST_NULL, [ImplCall.next_tag, ImplCall.create, ImplCall.Iscan]⟩) ∧
    (∀ Iscan, comm_ptr.coll_fns.bind (fun t => t.Iscan) = some Iscan →
      E.MPID_Sched_next_tag.1 = 0 → E.MPID_Sched_create.1 = 0 →
      (Iscan sendbuf recvbuf count op comm_ptr.id E.MPID_Sched_create.2).1 = 0 →
      ∃ o, MPIR_Iscan_impl E sendbuf recvbuf count op comm_ptr = ImplResult.returned o ∧
        o.trace = [ImplCall.next_tag, ImplCall.create, ImplCall.Iscan, ImplCall.start] ∧
        o.mpi_errno = (E.MPID_Sched_start
          (Iscan sendbuf recvbuf count op comm_ptr.id E.MPID_Sched_create.2).2
          E.MPID_Sched_next_tag.2).1) := by
  refine ⟨?_, ?_, ?_, ?_⟩
  · intro h1
    simp [MPIR_Iscan_impl, h1]
  · intro h1 h2
    simp [MPIR_Iscan_impl, h1, h2]
  · intro Iscan hfn h1 h2 h3
    simp [MPIR_Iscan_impl, h1, h2, h3, hfn]
  · intro Iscan hfn h1 h2 h3
    simp [MPIR_Iscan_impl, h1, h2, h3, hfn]

/-- Witness of C9: an engine whose schedule creation fails with code 16; the
call returns 16 after tag allocation and schedule creation only, and the
request is `MPI_REQUEST_NULL`. -/
theorem C9_no_request_on_construction_failure_witness :
    MPIR_Iscan_impl failingCreate (some Buf.sendbuf) Buf.recvbuf 1 ⟨true⟩ tableComm =
      ImplResult.returned ⟨16, MPI_REQUEST_NULL, [ImplCall.next_tag, ImplCall.create]⟩ :=
  (C9_no_request_on_construction_failure failingCreate (some Buf.sendbuf) Buf.recvbuf 1
    ⟨true⟩ tableComm).2.1 rfl (by decide)

/-! ### C10 -/

theorem smp_aborts_on_bad_table (env : Faults) (sendbuf : Option Buf) (recvbuf : Buf)
    (count : Nat) (op : MPI_Op) (comm_ptr : Comm) (s : Sched)
    (hbad : (∃ nc, comm_ptr.node_comm = some nc ∧ nodeTableOk nc = false) ∨
      (∃ rc, comm_ptr.node_roots_comm = some rc ∧ rootsTableOk rc = false)) :
    runCalls env (smpCalls sendbuf recvbuf count op comm_ptr) s [] [] = Result.aborted := by
  unfold smpCalls
  cases hn : comm_ptr.node_comm with
  | none =>
    rcases hbad with ⟨nc, h1, _⟩ | ⟨rc, h1, h2⟩
    · rw [hn] at h1; cases h1
    · simp [h1, h2, runCalls]
  | some nc =>
    by_cases hok : nodeTableOk nc = true
    · rcases hbad with ⟨nc1, h1, h2⟩ | ⟨rc, h1, h2⟩
      · rw [hn] at h1; cases h1; rw [hok] at h2; cases h2
      · simp [h1, h2, hok, runCalls]
    · simp [hok, runCalls]

/-- C10 (amended): `MPIR_Iscan_SMP` builds the hierarchical schedule exactly
when the group is node-consecutive; a group that is not node-consecutive gets
what the flat builder returns; a node-consecutive group whose present
same-node sub-group lacks a table with scan and broadcast, or whose present
sub-group of representatives lacks a table with scan, makes the builder stop
on its assertion: there is no fallback to the flat builder in that case. -/
theorem C10_dispatch_policy (fuel : Nat) (env : Faults) (sendbuf : Option Buf)
    (recvbuf : Buf) (count : Nat) (op : MPI_Op) (comm_ptr : Comm) (s : Sched) :
    (comm_ptr.is_node_consecutive = false →
      MPIR_Iscan_SMP fuel env sendbuf recvbuf count op comm_ptr s =
        MPIR_Iscan_rec_dbl fuel env sendbuf recvbuf count op comm_ptr s) ∧
    (comm_ptr.is_node_consecutive = true →
      MPIR_Iscan_SMP fuel env sendbuf recvbuf count op comm_ptr s =
        some (runCalls env (smpCalls sendbuf recvbuf count op comm_ptr) s [] [])) ∧
    (comm_ptr.is_node_consecutive = true →
      ((∃ nc, comm_ptr.node_comm = some nc ∧ nodeTableOk nc = false) ∨
        (∃ rc, comm_ptr.node_roots_comm = some rc ∧ rootsTableOk rc = false)) →
      MPIR_Iscan_SMP fuel env sendbuf recvbuf count op comm_ptr s = some Result.aborted) := by
  refine ⟨?_, ?_, ?_⟩
  · intro h; simp [MPIR_Iscan_SMP, h]
  · intro h; simp [MPIR_Iscan_SMP, h]
  · intro h hbad
    simp [MPIR_Iscan_SMP, h, smp_aborts_on_bad_table env sendbuf recvbuf count op comm_ptr s hbad]

/-- Witness of C10: a node-consecutive group whose sub-group of
representatives has no scan builder in its table stops on the assertion. -/
theorem C10_dispatch_policy_witness :
    MPIR_Iscan_SMP 32 noFaults (some Buf.sendbuf) Buf.recvbuf 1 ⟨true⟩ noRootScanComm
      Sched.empty = some Result.aborted :=
  (C10_dispatch_policy 32 noFaults (some Buf.sendbuf) Buf.recvbuf 1 ⟨true⟩ noRootScanComm
    Sched.empty).2.2 rfl (Or.inr ⟨_, rfl, rfl⟩)

/-- Counterexample to C10 as stated: on a node-consecutive group whose
same-node sub-group has no capability table, `MPIR_Iscan_SMP` stops on its
assertion, while the flat builder returns success with a schedule for the
same arguments: the flat schedule is not produced. -/
theorem C10_counterexample_missing_table_aborts :
    MPIR_Iscan_SMP 32 noFaults (some Buf.sendbuf) Buf.recvbuf 1 ⟨true⟩ noTableComm
      Sched.empty = some Result.aborted ∧
    (∃ o, MPIR_Iscan_rec_dbl 32 noFaults (some Buf.sendbuf) Buf.recvbuf 1 ⟨true⟩ noTableComm
      Sched.empty = some (Result.returned o) ∧ o.mpi_errno = MPI_SUCCESS ∧
      o.s.steps ≠ []) := by
  constructor
  · rfl
  · exact ⟨_, rfl, by decide, by decide⟩

/-! ### C8 -/

theorem runSome_append (env : Faults) :
    ∀ (a b : List Call) (s : Sched) (stack : List Buf) (codes : List Nat),
      runSome env (a ++ b) s stack codes =
        match runSome env a s stack codes with
        | Except.error r => Except.error r
        | Except.ok (s1, stack1, codes1) => runSome env b s1 stack1 codes1 := by
  intro a
  induction a with
  | nil => intro b s stack codes; rfl
  | cons c rest ih =>
    intro b s stack codes
    cases c with
    | malloc x =>
      simp only [List.cons_append, runSome]
      split
      · exact ih _ _ _ _
      · rfl
    | record st =>
      simp only [List.cons_append, runSome]
      split
      · exact ih _ _ _ _
      · rfl
    | delegate g =>
      simp only [List.cons_append, runSome]
      split
      · exact ih _ _ _ _
      · rfl
    | assert cond =>
      simp only [List.cons_append, runSome]
      split
      · exact ih _ _ _ _
      · rfl

theorem runCalls_of_runSome (env : Faults) (calls : List Call) (s : Sched)
    (stack : List Buf) (codes : List Nat) :
    runCalls env calls s stack codes =
      match runSome env calls s stack codes with
      | Except.error r => r
      | Except.ok (s1, stack1, codes1) =>
        Result.returned ⟨MPI_SUCCESS, s1, stack1, stack1, [], codes1⟩ := by
  have h := runCalls_append_runSome env calls [] s stack codes
  rw [List.append_nil] at h
  rw [h]
  cases runSome env calls s stack codes with
  | error r => rfl
  | ok st => rfl

theorem runSome_ok_stack (env : Faults) :
    ∀ (calls : List Call) (s : Sched) (stack : List Buf) (codes : List Nat) (s1 : Sched)
      (stack1 : List Buf) (codes1 : List Nat),
      runSome env calls s stack codes = Except.ok (s1, stack1, codes1) →
      stack1 = stack ++ callMallocs calls := by
  intro calls
  induction calls with
  | nil =>
    intro s stack codes s1 stack1 codes1 h
    simp only [runSome, Except.ok.injEq, Prod.mk.injEq] at h
    simp [callMallocs, h.2.1]
  | cons c rest ih =>
    intro s stack codes s1 stack1 codes1 h
    cases c with
    | malloc x =>
      simp only [runSome] at h
      split at h
      · rw [ih _ _ _ _ _ _ h]; simp [callMallocs]
      · cases h
    | record st =>
      simp only [runSome] at h
      split at h
      · rw [ih _ _ _ _ _ _ h]; simp [callMallocs]
      · cases h
    | delegate g =>
      simp only [runSome] at h
      split at h
      · rw [ih _ _ _ _ _ _ h]; simp [callMallocs]
      · cases h
    | assert cond =>
      simp only [runSome] at h
      split at h
      · rw [ih _ _ _ _ _ _ h]; simp [callMallocs]
      · cases h

theorem runSome_fail (env : Faults) (pre : List Call) (c : Call) (post : List Call)
    (s : Sched) (stack : List Buf) (codes : List Nat) (s1 : Sched) (stack1 : List Buf)
    (codes1 : List Nat)
    (hpre : runSome env pre s stack codes = Except.ok (s1, stack1, codes1))
    (hc : c.code env s1 ≠ 0) :
    ∃ o, runSome env (pre ++ c :: post) s stack codes = Except.error (Result.returned o) ∧
      o.mpi_errno = c.code env s1 ∧ o.allocated = stack1 ∧ o.reaped = stack1 ∧
      o.committed = [] := by
  rw [runSome_append, hpre]
  cases c with
  | malloc x =>
    simp only [Call.code] at hc
    simp only [runSome, if_neg hc]
    exact ⟨_, rfl, rfl, rfl, rfl, rfl⟩
  | record st =>
    simp only [Call.code] at hc
    simp only [runSome, if_neg hc]
    exact ⟨_, rfl, rfl, rfl, rfl, rfl⟩
  | delegate g =>
    simp only [Call.code] at hc
    simp only [runSome, if_neg hc]
    exact ⟨_, rfl, rfl, rfl, rfl, rfl⟩
  | assert cond => exact absurd rfl hc

theorem runSome_zero (env : Faults) :
    ∀ (calls : List Call) (s : Sched) (stack : List Buf) (codes : List Nat),
      (∀ c ∈ calls, c.isPlain = true) →
      (∀ i, i < calls.length → env (s.ncalls + i) = 0) →
      runSome env calls s stack codes =
        Except.ok (⟨s.steps ++ callSteps calls, s.ncalls + calls.length⟩,
          stack ++ callMallocs calls, codes ++ List.replicate calls.length 0) := by
  intro calls
  induction calls with
  | nil => intro s stack codes _ _; simp [runSome, callSteps, callMallocs]
  | cons c rest ih =>
    intro s stack codes h henv
    have hrest : ∀ c ∈ rest, c.isPlain = true := fun c hc => h c (List.mem_cons_of_mem _ hc)
    have hc := h c (List.mem_cons_self _ _)
    have h0 : env s.ncalls = 0 := by simpa using henv 0 (by simp)
    have hnext : ∀ (t : List Step) i, i < rest.length →
        env ((⟨t, s.ncalls + 1⟩ : Sched).ncalls + i) = 0 := by
      intro t i hi
      have := henv (i + 1) (by simpa using hi)
      rw [show s.ncalls + 1 + i = s.ncalls + (i + 1) by omega]
      exact this
    cases c with
    | malloc b =>
      simp only [runSome, h0, if_true, ih _ _ _ hrest (hnext _), callSteps, callMallocs]
      simp [Nat.add_comm, Nat.add_left_comm, List.replicate_succ]
    | record st =>
      simp only [runSome, h0, if_true, ih _ _ _ hrest (hnext _), callSteps, callMallocs]
      simp [Nat.add_comm, Nat.add_left_comm, List.replicate_succ]
    | delegate f => simp [Call.isPlain] at hc
    | assert b => simp [Call.isPlain] at hc

theorem runMaskLoop_trace (env : Faults) (isc : Bool) (recvbuf : Buf) (id : CommId)
    (rank size : Nat) :
    ∀ (fuel mask : Nat) (s : Sched) (stack : List Buf) (codes : List Nat),
      runMaskLoop env isc recvbuf id rank size fuel mask s stack codes =
        match runSome env ((maskTrace size fuel mask).flatMap
            (roundCalls isc recvbuf id rank size)) s stack codes with
        | Except.error r => some r
        | Except.ok (s1, stack1, codes1) =>
          if (maskTrace size fuel mask).length < fuel then
            some (Result.returned ⟨MPI_SUCCESS, s1, stack1, stack1, [], codes1⟩)
          else none := by
  intro fuel
  induction fuel with
  | zero => intro mask s stack codes; rfl
  | succ fuel ih =>
    intro mask s stack codes
    by_cases hlt : int_lt mask size = true
    · simp only [runMaskLoop, maskTrace, hlt, if_true, List.flatMap_cons, runSome_append]
      cases hrun : runSome env (roundCalls isc recvbuf id rank size mask) s stack codes with
      | error r => rfl
      | ok st =>
        obtain ⟨s1, stack1, codes1⟩ := st
        simp only [ih, List.length_cons, Nat.add_lt_add_iff_right]
    · simp [runMaskLoop, maskTrace, hlt, runSome]

theorem rec_dbl_trace (fuel : Nat) (env : Faults) (sendbuf : Option Buf) (recvbuf : Buf)
    (count : Nat) (op : MPI_Op) (comm_ptr : Comm) (s : Sched) (hcount : count ≠ 0) :
    MPIR_Iscan_rec_dbl fuel env sendbuf recvbuf count op comm_ptr s =
      match runSome env (flatCalls fuel sendbuf recvbuf op comm_ptr) s [] [] with
      | Except.error r => some r
      | Except.ok (s1, stack1, codes1) =>
        if (maskTrace comm_ptr.local_size fuel 1).length < fuel then
          some (Result.returned ⟨MPI_SUCCESS, s1, stack1, stack1, [], codes1⟩)
        else none := by
  unfold MPIR_Iscan_rec_dbl flatCalls
  rw [if_neg hcount, runSome_append]
  cases hrun : runSome env (recDblInit sendbuf recvbuf) s [] [] with
  | error r => rfl
  | ok st =>
    obtain ⟨s1, stack1, codes1⟩ := st
    exact runMaskLoop_trace env _ _ _ _ _ _ _ _ _ _

theorem callMallocs_callIscan (c : SubComm) (id : CommId) (sendbuf : Option Buf)
    (recvbuf : Buf) (count : Nat) (op : MPI_Op) (rest : List Call) :
    callMallocs (callIscan c id sendbuf recvbuf count op :: rest) = callMallocs rest := by
  unfold callIscan
  split <;> rfl

theorem callMallocs_callIbcast (c : SubComm) (id : CommId) (buf : Buf) (count root : Nat)
    (rest : List Call) :
    callMallocs (callIbcast c id buf count root :: rest) = callMallocs rest := by
  unfold callIbcast
  split <;> rfl

theorem smpCalls_mallocs_nodup (sendbuf : Option Buf) (recvbuf : Buf) (count : Nat)
    (op : MPI_Op) (comm_ptr : Comm) :
    (callMallocs (smpCalls sendbuf recvbuf count op comm_ptr)).Nodup := by
  unfold smpCalls
  simp only [callMallocs_append]
  cases comm_ptr.node_comm <;> cases comm_ptr.node_roots_comm <;> cases sendbuf <;>
    simp only [callMallocs, List.cons_append, List.nil_append, List.append_nil,
      callMallocs_callIscan, callMallocs_callIbcast, callMallocs_append] <;>
    repeat' split <;>
    simp [callMallocs, callMallocs_callIscan, callMallocs_callIbcast]

/-! ### Flat worlds of more than `2 ^ 30` ranks -/

theorem flatWorld_big_sched {α : Type} (fuel : Nat) (op : MPI_Op) (f : α → α → α)
    (size : Nat) (sendbuf : Nat → Option Buf) (count : Nat) (init : Nat → Mem α)
    (h1 : 2 ^ 30 < size) (h2 : size < 2 ^ 31) (hcount : count ≠ 0) (r : Nat) :
    (flatWorld fuel op f size sendbuf count init).sched r = [] := by
  have hno := rec_dbl_no_return noFaults (fun _ => rfl) (sendbuf r) Buf.recvbuf count op (flatComm size r)
    Sched.empty hcount (by simpa [flatComm] using h1) (by simpa [flatComm] using h2) fuel
  simp only [flatWorld, hno, stepsOf]

/-! ### The iterations of the mask loop -/

theorem maskLoop_trace (isc : Bool) (recvbuf : Buf) (id : CommId) (rank size : Nat) :
    ∀ fuel mask, maskLoop isc recvbuf id rank size fuel mask =
      if (maskTrace size fuel mask).length < fuel then
        some ((maskTrace size fuel mask).flatMap (roundCalls isc recvbuf id rank size))
      else none := by
  intro fuel
  induction fuel with
  | zero => intro mask; simp [maskLoop, maskTrace]
  | succ fuel ih =>
    intro mask
    by_cases h : int_lt mask size = true
    · simp only [maskLoop, maskTrace, h, if_true, ih, List.length_cons,
        Nat.add_lt_add_iff_right]
      by_cases hl : (maskTrace size fuel (int_shl1 mask)).length < fuel
      · simp [hl, List.flatMap_cons]
      · simp [hl]
    · simp [maskLoop, maskTrace, h]

theorem maskTrace_eq (size : Nat) :
    ∀ (n k fuel : Nat), k + n ≤ 30 → size ≤ 2 ^ (k + n) →
      (∀ i, i < n → 2 ^ (k + i) < size) → n < fuel →
      maskTrace size fuel (2 ^ k) = (List.range n).map (fun i => 2 ^ (k + i)) := by
  intro n
  induction n with
  | zero =>
    intro k fuel hk hs _ hf
    obtain ⟨g, rfl⟩ : ∃ g, fuel = g + 1 := ⟨fuel - 1, by omega⟩
    have h1 : (2 : Nat) ^ k < 2 ^ 31 := Nat.pow_lt_pow_right (by norm_num) (by omega)
    have h2 : size < 2 ^ 31 := by simp at hs; omega
    simp at hs
    simp [maskTrace, int_lt_of_lt h1 h2, Nat.not_lt.mpr hs]
  | succ n ih =>
    intro k fuel hk hs hlt hf
    obtain ⟨g, rfl⟩ : ∃ g, fuel = g + 1 := ⟨fuel - 1, by omega⟩
    have h1 : (2 : Nat) ^ k < 2 ^ 31 := Nat.pow_lt_pow_right (by norm_num) (by omega)
    have h3 : (2 : Nat) ^ (k + (n + 1)) ≤ 2 ^ 30 := Nat.pow_le_pow_right (by norm_num) hk
    have h2 : size < 2 ^ 31 := by omega
    have h4 : 2 ^ k < size := by simpa using hlt 0 (by omega)
    have ihk := ih (k + 1) g (by omega) (by rw [show k + 1 + n = k + (n + 1) by omega]; exact hs)
      (fun i hi => by rw [show k + 1 + i = k + (i + 1) by omega]; exact hlt (i + 1) (by omega))
      (by omega)
    simp only [maskTrace, int_lt_of_lt h1 h2, h4, decide_True, if_true,
      int_shl1_two_pow (show k ≤ 30 by omega), ihk, List.range_succ_eq_map, List.map_cons,
      List.map_map, Nat.add_zero]
    congr 1
    apply List.map_congr_left
    intro i _
    simp only [Function.comp]
    congr 1
    omega

theorem flat_trace (size fuel : Nat) (hs : size ≤ 2 ^ 30) (hfuel : 32 ≤ fuel) :
    maskTrace size fuel 1 = (List.range (Nat.clog 2 size)).map (fun i => 2 ^ i) := by
  obtain ⟨h1, h2, h3⟩ := clog_facts size hs
  have := maskTrace_eq size (Nat.clog 2 size) 0 fuel (by omega) (by simpa using h2)
    (fun i hi => by simpa using h3 i hi) (by omega)
  simpa using this

theorem send_mem_flatPre_valid (isc : Bool) (sendbuf : Option Buf) (rank size : Nat)
    (hr : rank < size) (hs : size ≤ 2 ^ 30) :
    ∀ (k : Nat), k ≤ 31 → ∀ buf dest c1,
      Step.send buf dest c1 ∈ flatPre isc sendbuf rank size k →
      ∃ j, j < k ∧ dest = rank ^^^ 2 ^ j ∧ dest < size := by
  intro k
  induction k with
  | zero =>
    intro _ buf dest c1 h
    cases sendbuf <;> simp [flatPre, roundsFrom, recDblInit, callSteps] at h
  | succ k ih =>
    intro hk buf dest c1 h
    rw [flatPre_succ, List.mem_append] at h
    rcases h with h | h
    · obtain ⟨j, hj, e⟩ := ih (by omega) buf dest c1 h
      exact ⟨j, by omega, e⟩
    · rw [roundCalls_steps isc _ _ rank size k hr hs (by omega)] at h
      split at h
      · rename_i hp
        have e := send_mem_exchange _ _ _ _ _ _ _ _ h
        exact ⟨k, by omega, e, by rw [e]; exact hp⟩
      · simp at h

theorem xor_two_pow_ne_self (r j : Nat) : r ^^^ 2 ^ j ≠ r := by
  intro e
  have h : r ^^^ 2 ^ j = r ^^^ 0 := by simpa using e
  have := Nat.xor_right_inj.mp h
  have hpos : 0 < 2 ^ j := Nat.two_pow_pos j
  omega

/-! ### C19 -/

/-- C19 (amended): for every group size from 1 to `2 ^ 30` and every rank of
the group, with `mask` a 32-bit `int` doubled by a left shift modulo
`2 ^ 32`, the loop `while (mask < comm_size)` of the flat builder ends and
the builder returns; the values of `mask` at its iterations are
`1, 2, ..., 2 ^ (K - 1)` with `K = ceil(log2(size))`, each a positive power
of two; and every partner `rank ^ mask` the schedule sends to is a rank in
`0..size-1` other than `rank`. -/
theorem C19_mask_loop_terminates (op : MPI_Op) (sendbuf : Option Buf) (size count : Nat)
    (hsize : 1 ≤ size) (hs : size ≤ 2 ^ 30) (hcount : count ≠ 0) (rank : Nat)
    (hr : rank < size) (fuel : Nat) (hfuel : 32 ≤ fuel) :
    (∃ o, MPIR_Iscan_rec_dbl fuel noFaults sendbuf Buf.recvbuf count op (flatComm size rank)
        Sched.empty = some (Result.returned o) ∧
      ∀ buf dest c, Step.send buf dest c ∈ o.s.steps →
        dest < size ∧ dest ≠ rank ∧ ∃ m ∈ maskTrace size fuel 1, dest = int_xor rank m) ∧
    maskTrace size fuel 1 = (List.range (Nat.clog 2 size)).map (fun i => 2 ^ i) ∧
    ∀ m ∈ maskTrace size fuel 1, (∃ i, m = 2 ^ i) ∧ 0 < toInt32 m := by
  obtain ⟨hK, hle, hlt⟩ := clog_facts size hs
  have htrace := flat_trace size fuel hs hfuel
  refine ⟨⟨_, flat_result noFaults (fun _ => rfl) sendbuf count op size rank fuel hs hfuel
    hcount Sched.empty, ?_⟩, htrace, ?_⟩
  · intro buf dest c hmem
    simp only [Sched.empty, List.nil_append] at hmem
    obtain ⟨j, hj, e, hd⟩ := send_mem_flatPre_valid op.is_commutative sendbuf rank size hr hs
      (Nat.clog 2 size) (by omega) buf dest c hmem
    refine ⟨hd, by rw [e]; exact xor_two_pow_ne_self rank j, 2 ^ j, ?_, ?_⟩
    · rw [htrace]
      exact List.mem_map.mpr ⟨j, List.mem_range.mpr hj, rfl⟩
    · have h1 : (2 : Nat) ^ j < 2 ^ 31 := Nat.pow_lt_pow_right (by norm_num) (by omega)
      rw [int_xor_of_lt (by omega) h1, e]
  · intro m hm
    rw [htrace] at hm
    obtain ⟨i, hi, rfl⟩ := List.mem_map.mp hm
    have hi1 := List.mem_range.mp hi
    have h1 : (2 : Nat) ^ i < 2 ^ 31 := Nat.pow_lt_pow_right (by norm_num) (by omega)
    refine ⟨⟨i, rfl⟩, ?_⟩
    rw [toInt32_of_lt h1]
    exact_mod_cast Nat.two_pow_pos i

/-- Witness of C19: rank 2 of a group of five ranks. -/
theorem C19_mask_loop_terminates_witness :
    (∃ o, MPIR_Iscan_rec_dbl 32 noFaults (some Buf.sendbuf) Buf.recvbuf 1 ⟨false⟩
        (flatComm 5 2) Sched.empty = some (Result.returned o) ∧
      ∀ buf dest c, Step.send buf dest c ∈ o.s.steps →
        dest < 5 ∧ dest ≠ 2 ∧ ∃ m ∈ maskTrace 5 32 1, dest = int_xor 2 m) ∧
    maskTrace 5 32 1 = (List.range (Nat.clog 2 5)).map (fun i => 2 ^ i) ∧
    ∀ m ∈ maskTrace 5 32 1, (∃ i, m = 2 ^ i) ∧ 0 < toInt32 m :=
  C19_mask_loop_terminates ⟨false⟩ (some Buf.sendbuf) 5 1 (by decide) (by decide) (by decide)
    2 (by decide) 32 (le_refl _)

/-- Counterexample to C19 as stated: for a group of `2 ^ 30 + 1` ranks the
loop never ends, whatever the fuel; `mask` takes the values
`1, 2, ..., 2 ^ 30`, then `2 ^ 31`, which as an `int` is negative, and then
0 for ever, neither of which is a positive power of two. -/
theorem C19_counterexample_mask_overflow :
    (∀ fuel, maskLoop false Buf.recvbuf CommId.comm_ptr 0 (2 ^ 30 + 1) fuel 1 = none) ∧
    maskTrace (2 ^ 30 + 1) 34 1 =
      (List.range 31).map (fun i => 2 ^ i) ++ [2 ^ 31, 0, 0] ∧
    toInt32 (2 ^ 31) < 0 := by
  refine ⟨?_, by decide, by decide⟩
  intro fuel
  have := maskLoop_overflow false Buf.recvbuf CommId.comm_ptr 0 (2 ^ 30 + 1) (by decide)
    (by decide) 31 0 (by omega) fuel
  simpa using this

/-! ### Exchanges and reduces of the flat schedule -/

theorem countExchanges_init (sendbuf : Option Buf) (recvbuf : Buf) (rest : List Step) :
    countExchanges (callSteps (recDblInit sendbuf recvbuf) ++ rest) = countExchanges rest := by
  cases sendbuf <;> simp [recDblInit, callSteps, countExchanges]

theorem countExchanges_exchange (isc : Bool) (recvbuf : Buf) (id : CommId) (rank p : Nat)
    (rest : List Step) :
    countExchanges (exchangeSteps isc recvbuf id rank p ++ rest) = 1 + countExchanges rest := by
  unfold exchangeSteps
  by_cases hq : p < rank
  · simp [hq, countExchanges]
  · cases isc <;> simp [hq, countExchanges]

theorem countExchanges_rounds (isc : Bool) (recvbuf : Buf) (id : CommId) (rank size : Nat)
    (hr : rank < size) (hs : size ≤ 2 ^ 30) :
    ∀ (n k : Nat), k + n ≤ 31 →
      countExchanges (callSteps (roundsFrom isc recvbuf id rank size n k)) ≤ n ∧
      (rank = 0 → (∀ i, i < n → 2 ^ (k + i) < size) →
        countExchanges (callSteps (roundsFrom isc recvbuf id rank size n k)) = n) := by
  intro n
  induction n with
  | zero => intro k _; simp [roundsFrom, callSteps, countExchanges]
  | succ n ih =>
    intro k hk
    obtain ⟨ih1, ih2⟩ := ih (k + 1) (by omega)
    simp only [roundsFrom, callSteps_append]
    rw [roundCalls_steps isc _ _ rank size k hr hs (by omega)]
    by_cases hp : rank ^^^ 2 ^ k < size
    · rw [if_pos hp, countExchanges_exchange]
      refine ⟨by omega, fun h0 hlt => ?_⟩
      rw [ih2 h0 (fun i hi => by
        rw [show k + 1 + i = k + (i + 1) by omega]; exact hlt (i + 1) (by omega))]
      omega
    · rw [if_neg hp, List.nil_append]
      refine ⟨by omega, fun h0 hlt => ?_⟩
      exfalso
      apply hp
      rw [h0, Nat.zero_xor]
      simpa using hlt 0 (by omega)

theorem reduceRun_rounds (isc : Bool) (recvbuf : Buf) (id : CommId) (rank size : Nat)
    (hr : rank < size) (hs : size ≤ 2 ^ 30) :
    ∀ (n k : Nat), k + n ≤ 31 →
      reduceRun (callSteps (roundsFrom isc recvbuf id rank size n k)) = 0 := by
  intro n
  induction n with
  | zero => intro k _; simp [roundsFrom, callSteps, reduceRun]
  | succ n ih =>
    intro k hk
    simp only [roundsFrom, callSteps_append]
    rw [roundCalls_steps isc _ _ rank size k hr hs (by omega)]
    by_cases hp : rank ^^^ 2 ^ k < size
    · rw [if_pos hp]
      simp [exchangeSteps, reduceRun]
    · rw [if_neg hp, List.nil_append]
      exact ih (k + 1) (by omega)

theorem reduceRuns_exchange (isc : Bool) (recvbuf : Buf) (id : CommId) (rank p : Nat)
    (rest : List Step) (hrest : reduceRun rest = 0) :
    ∃ x, x ≤ 2 ∧
      reduceRuns (exchangeSteps isc recvbuf id rank p ++ rest) = x :: reduceRuns rest := by
  unfold exchangeSteps
  by_cases hq : p < rank
  · exact ⟨2, le_refl _, by simp [hq, reduceRuns, reduceRun, hrest]⟩
  · cases isc
    · exact ⟨1, by omega, by simp [hq, reduceRuns, reduceRun, hrest]⟩
    · exact ⟨1, by omega, by simp [hq, reduceRuns, reduceRun, hrest]⟩

theorem reduceRuns_rounds (isc : Bool) (recvbuf : Buf) (id : CommId) (rank size : Nat)
    (hr : rank < size) (hs : size ≤ 2 ^ 30) :
    ∀ (n k : Nat), k + n ≤ 31 →
      ∀ x ∈ reduceRuns (callSteps (roundsFrom isc recvbuf id rank size n k)), x ≤ 2 := by
  intro n
  induction n with
  | zero => intro k _ x hx; simp [roundsFrom, callSteps, reduceRuns] at hx
  | succ n ih =>
    intro k hk x hx
    simp only [roundsFrom, callSteps_append] at hx
    rw [roundCalls_steps isc _ _ rank size k hr hs (by omega)] at hx
    by_cases hp : rank ^^^ 2 ^ k < size
    · rw [if_pos hp] at hx
      obtain ⟨y, hy, e⟩ := reduceRuns_exchange isc recvbuf id rank (rank ^^^ 2 ^ k) _
        (reduceRun_rounds isc recvbuf id rank size hr hs n (k + 1) (by omega))
      rw [e] at hx
      rcases List.mem_cons.mp hx with h | h
      · omega
      · exact ih (k + 1) (by omega) x h
    · rw [if_neg hp, List.nil_append] at hx
      exact ih (k + 1) (by omega) x hx

theorem reduceRuns_init (sendbuf : Option Buf) (recvbuf : Buf) (rest : List Step) :
    reduceRuns (callSteps (recDblInit sendbuf recvbuf) ++ rest) = reduceRuns rest := by
  cases sendbuf <;> simp [recDblInit, callSteps, reduceRuns]

theorem clog_big : Nat.clog 2 (2 ^ 30 + 1) = 31 := by
  apply le_antisymm
  · exact (Nat.le_pow_iff_clog_le (by norm_num)).mp (by norm_num)
  · by_contra h
    have h2 : Nat.clog 2 (2 ^ 30 + 1) ≤ 30 := by omega
    have := (Nat.le_pow_iff_clog_le (b := 2) (x := 2 ^ 30 + 1) (y := 30) (by norm_num)).mpr h2
    norm_num at this

/-! ### C12 -/

/-- C12 (amended): for every size from 1 to `2 ^ 30` and every rank
`r < size` with a count other than zero, the mask loop runs exactly
`ceil(log2(size))` iterations, the schedule contains at most
`ceil(log2(size))` exchanges (a send and a recv with the same partner and
nothing between them) and exactly that many at rank 0, and each exchange is
followed, before the next exchange, by at most two reduce steps. -/
theorem C12_round_count (op : MPI_Op) (sendbuf : Option Buf) (size count : Nat)
    (hsize : 1 ≤ size) (hs : size ≤ 2 ^ 30) (hcount : count ≠ 0) (r : Nat) (hr : r < size)
    (fuel : Nat) (hfuel : 32 ≤ fuel) :
    (maskTrace size fuel 1).length = Nat.clog 2 size ∧
    ∃ o, MPIR_Iscan_rec_dbl fuel noFaults sendbuf Buf.recvbuf count op (flatComm size r)
        Sched.empty = some (Result.returned o) ∧
      countExchanges o.s.steps ≤ Nat.clog 2 size ∧
      (r = 0 → countExchanges o.s.steps = Nat.clog 2 size) ∧
      ∀ x ∈ reduceRuns o.s.steps, x ≤ 2 := by
  obtain ⟨hK, hle, hlt⟩ := clog_facts size hs
  refine ⟨by rw [flat_trace size fuel hs hfuel]; simp, _,
    flat_result noFaults (fun _ => rfl) sendbuf count op size r fuel hs hfuel hcount
      Sched.empty, ?_, ?_, ?_⟩
  · simp only [Sched.empty, List.nil_append, flatPre, countExchanges_init]
    exact (countExchanges_rounds _ _ _ r size hr hs _ 0 (by omega)).1
  · intro h0
    simp only [Sched.empty, List.nil_append, flatPre, countExchanges_init]
    exact (countExchanges_rounds _ _ _ r size hr hs _ 0 (by omega)).2 h0
      (fun i hi => by simpa using hlt i hi)
  · intro x hx
    simp only [Sched.empty, List.nil_append, flatPre, reduceRuns_init] at hx
    exact reduceRuns_rounds _ _ _ r size hr hs _ 0 (by omega) x hx

/-- Witness of C12: rank 0 of a group of five ranks. -/
theorem C12_round_count_witness :
    (maskTrace 5 32 1).length = Nat.clog 2 5 ∧
    ∃ o, MPIR_Iscan_rec_dbl 32 noFaults (some Buf.sendbuf) Buf.recvbuf 1 ⟨false⟩
        (flatComm 5 0) Sched.empty = some (Result.returned o) ∧
      countExchanges o.s.steps ≤ Nat.clog 2 5 ∧
      (0 = 0 → countExchanges o.s.steps = Nat.clog 2 5) ∧
      ∀ x ∈ reduceRuns o.s.steps, x ≤ 2 :=
  C12_round_count ⟨false⟩ (some Buf.sendbuf) 5 1 (by decide) (by decide) (by decide) 0
    (by decide) 32 (le_refl _)

/-- Counterexample to C12 as stated: for a group of `2 ^ 30 + 1` ranks
`ceil(log2(size))` is 31, but the mask loop is still running after 40
iterations and never ends: the flat builder returns for no amount of
fuel. -/
theorem C12_counterexample_loop_runs_on :
    Nat.clog 2 (2 ^ 30 + 1) = 31 ∧ (maskTrace (2 ^ 30 + 1) 40 1).length = 40 ∧
    ∀ fuel, MPIR_Iscan_rec_dbl fuel noFaults (some Buf.sendbuf) Buf.recvbuf 1 ⟨false⟩
      (flatComm (2 ^ 30 + 1) 0) Sched.empty = none :=
  ⟨clog_big, by decide, fun fuel =>
    rec_dbl_no_return noFaults (fun _ => rfl) _ _ 1 _ (flatComm (2 ^ 30 + 1) 0) _ (by decide)
      (by decide) (by decide) fuel⟩

/-! ### Reduces into `recvbuf` -/

theorem countReduceInto_append (b : Buf) (x y : List Step) :
    countReduceInto b (x ++ y) = countReduceInto b x + countReduceInto b y := by
  simp [countReduceInto, List.countP_append]

theorem testBit_iff (r k : Nat) : r.testBit k = true ↔ r / 2 ^ k % 2 = 1 := by
  rw [Nat.testBit_to_div_mod]
  simp

theorem round_reduce_count (isc : Bool) (rank size k : Nat) (hr : rank < size)
    (hs : size ≤ 2 ^ 30) (hk : k ≤ 30) :
    countReduceInto Buf.recvbuf
        (callSteps (roundCalls isc Buf.recvbuf CommId.comm_ptr rank size (2 ^ k))) =
      if rank.testBit k then 1 else 0 := by
  rw [roundCalls_steps isc _ _ rank size k hr hs hk, xor_two_pow]
  by_cases hb : rank / 2 ^ k % 2 = 0
  · have hnb : rank.testBit k = false := by
      cases h : rank.testBit k with
      | false => rfl
      | true => have := (testBit_iff rank k).mp h; omega
    rw [if_pos hb, hnb]
    by_cases hp : rank + 2 ^ k < size
    · rw [if_pos hp]
      unfold exchangeSteps
      cases isc <;> simp [countReduceInto]
    · rw [if_neg hp]
      simp [countReduceInto]
  · have hb1 : rank / 2 ^ k % 2 = 1 := by omega
    have hbt : rank.testBit k = true := (testBit_iff rank k).mpr hb1
    obtain ⟨_, h2, _, _⟩ := bit_set_arith rank k hb1
    have hpos : 0 < 2 ^ k := Nat.two_pow_pos k
    rw [if_neg hb, hbt, if_pos (by omega)]
    unfold exchangeSteps
    have hlt : rank - 2 ^ k < rank := by omega
    simp [hlt, countReduceInto]

theorem rounds_reduce_count (isc : Bool) (rank size : Nat) (hr : rank < size)
    (hs : size ≤ 2 ^ 30) :
    ∀ (n k : Nat), k + n ≤ 31 →
      countReduceInto Buf.recvbuf
          (callSteps (roundsFrom isc Buf.recvbuf CommId.comm_ptr rank size n k)) =
        ((List.range n).filter (fun i => rank.testBit (k + i))).length := by
  intro n
  induction n with
  | zero => intro k _; simp [roundsFrom, callSteps, countReduceInto]
  | succ n ih =>
    intro k hk
    simp only [roundsFrom, callSteps_append, countReduceInto_append]
    rw [round_reduce_count isc rank size k hr hs (by omega), ih (k + 1) (by omega),
      List.range_succ_eq_map, List.filter_cons, List.filter_map]
    have e : (fun i => rank.testBit (k + 1 + i)) =
        ((fun i => rank.testBit (k + i)) ∘ Nat.succ) := by
      funext i
      simp only [Function.comp, Nat.succ_eq_add_one]
      congr 1
      omega
    rw [e, Nat.add_zero]
    by_cases hb : rank.testBit k = true
    · rw [if_pos hb, if_pos hb, List.length_cons, List.length_map]; omega
    · rw [if_neg hb, if_neg hb, List.length_map]; omega

theorem popcount_eq (r K : Nat) (hK : K ≤ 32) (hr : r < 2 ^ K) :
    popcount r = ((List.range K).filter (fun i => r.testBit i)).length := by
  have h : ∀ d, ((List.range (K + d)).filter (fun i => r.testBit i)).length =
      ((List.range K).filter (fun i => r.testBit i)).length := by
    intro d
    induction d with
    | zero => rfl
    | succ d ih =>
      rw [show K + (d + 1) = (K + d) + 1 by omega, List.range_succ, List.filter_append,
        List.length_append, ih]
      have hlt : r < 2 ^ (K + d) :=
        lt_of_lt_of_le hr (Nat.pow_le_pow_right (by norm_num) (by omega))
      simp [Nat.testBit_lt_two_pow hlt]
  have := h (32 - K)
  rw [show K + (32 - K) = 32 by omega] at this
  exact this

/-! ### C13 -/

/-- C13 (amended): in a group of at most `2 ^ 30` ranks, for every rank `r`
and every round of its flat schedule (mask `2 ^ k < size`, partner
`r XOR mask`): if `r < partner` no step of the round writes `recvbuf`; if
`partner < r` exactly one step of the round writes `recvbuf`, and it is the
reduce of `tmp_buf` into `recvbuf`, `tmp_buf` being the earlier operand;
hence the schedule of `r` contains exactly `popcount(r)` reduces into
`recvbuf`. -/
theorem C13_recvbuf_only_from_lower (op : MPI_Op) (sendbuf : Option Buf) (size count : Nat)
    (hs : size ≤ 2 ^ 30) (hcount : count ≠ 0) (r : Nat) (hr : r < size)
    (fuel : Nat) (hfuel : 32 ≤ fuel) :
    (∀ k, 2 ^ k < size →
      (r < int_xor r (2 ^ k) →
        countWrites Buf.recvbuf (callSteps
          (roundCalls op.is_commutative Buf.recvbuf CommId.comm_ptr r size (2 ^ k))) = 0) ∧
      (int_xor r (2 ^ k) < r →
        countWrites Buf.recvbuf (callSteps
          (roundCalls op.is_commutative Buf.recvbuf CommId.comm_ptr r size (2 ^ k))) = 1 ∧
        List.count (Step.reduce Buf.tmp_buf Buf.recvbuf) (callSteps
          (roundCalls op.is_commutative Buf.recvbuf CommId.comm_ptr r size (2 ^ k))) = 1)) ∧
    ∃ o, MPIR_Iscan_rec_dbl fuel noFaults sendbuf Buf.recvbuf count op (flatComm size r)
        Sched.empty = some (Result.returned o) ∧
      countReduceInto Buf.recvbuf o.s.steps = popcount r := by
  obtain ⟨hK, hle, hlt⟩ := clog_facts size hs
  constructor
  · intro k hk
    have hk30 : k ≤ 30 := by
      by_contra hne
      have : (2 : Nat) ^ 31 ≤ 2 ^ k := Nat.pow_le_pow_right (by norm_num) (by omega)
      omega
    have h1 : (2 : Nat) ^ k < 2 ^ 31 := Nat.pow_lt_pow_right (by norm_num) (by omega)
    rw [int_xor_of_lt (by omega) h1, roundCalls_steps _ _ _ r size k hr hs hk30]
    constructor
    · intro hlow
      by_cases hp : r ^^^ 2 ^ k < size
      · rw [if_pos hp]
        unfold exchangeSteps
        have hn : ¬ r ^^^ 2 ^ k < r := by omega
        cases op.is_commutative <;> simp [hn, countWrites, Step.writes]
      · rw [if_neg hp]
        simp [countWrites]
    · intro hhigh
      rw [if_pos (by omega)]
      unfold exchangeSteps
      simp [hhigh, countWrites, Step.writes]
  · refine ⟨_, flat_result noFaults (fun _ => rfl) sendbuf count op size r fuel hs hfuel
      hcount Sched.empty, ?_⟩
    simp only [Sched.empty, List.nil_append, flatPre, countReduceInto_append]
    rw [rounds_reduce_count _ r size hr hs _ 0 (by omega),
      popcount_eq r (Nat.clog 2 size) (by omega) (by omega)]
    have h0 : countReduceInto Buf.recvbuf (callSteps (recDblInit sendbuf Buf.recvbuf)) = 0 := by
      cases sendbuf <;> simp [recDblInit, callSteps, countReduceInto]
    rw [h0]
    simp

/-- Witness of C13: rank 3 of a group of five ranks. -/
theorem C13_recvbuf_only_from_lower_witness :
    ∃ o, MPIR_Iscan_rec_dbl 32 noFaults (some Buf.sendbuf) Buf.recvbuf 1 ⟨false⟩
        (flatComm 5 3) Sched.empty = some (Result.returned o) ∧
      countReduceInto Buf.recvbuf o.s.steps = popcount 3 :=
  (C13_recvbuf_only_from_lower ⟨false⟩ (some Buf.sendbuf) 5 1 (by decide) (by decide) 3
    (by decide) 32 (le_refl _)).2

/-- Counterexample to C13 as stated: in a group of `2 ^ 30 + 1` ranks the flat
builder never returns at rank 1 when no call fails.  The first 32 iterations
of its loop have the masks `1, 2, ..., 2 ^ 30` and then `2 ^ 31`, which as an
`int` is negative; the partner `1 XOR 2 ^ 31` is then negative too, passes the
test `dst < comm_size`, and the iteration records a reduce into `recvbuf`, as
the iteration with mask 1 does.  When the builder is stopped by the failure
of its 251st call, the schedule it has built holds 2 reduces into `recvbuf`,
while `popcount(1)` is 1. -/
theorem C13_counterexample_size_above_two_pow_30 :
    popcount 1 = 1 ∧
    (∀ fuel, MPIR_Iscan_rec_dbl fuel noFaults (some Buf.sendbuf) Buf.recvbuf 1 ⟨false⟩
        (flatComm (2 ^ 30 + 1) 1) Sched.empty = none) ∧
    maskTrace (2 ^ 30 + 1) 32 1 = (List.range 31).map (fun i => 2 ^ i) ++ [2 ^ 31] ∧
    Step.reduce Buf.tmp_buf Buf.recvbuf ∈
      callSteps (roundCalls false Buf.recvbuf CommId.comm_ptr 1 (2 ^ 30 + 1) 1) ∧
    Step.reduce Buf.tmp_buf Buf.recvbuf ∈
      callSteps (roundCalls false Buf.recvbuf CommId.comm_ptr 1 (2 ^ 30 + 1) (2 ^ 31)) ∧
    ∃ o, MPIR_Iscan_rec_dbl 40 (failAt 250) (some Buf.sendbuf) Buf.recvbuf 1 ⟨false⟩
        (flatComm (2 ^ 30 + 1) 1) Sched.empty = some (Result.returned o) ∧
      countReduceInto Buf.recvbuf o.s.steps = 2 := by
  refine ⟨by decide, fun fuel => ?_, by decide, by decide, by decide, ?_⟩
  · exact rec_dbl_no_return noFaults (fun _ => rfl) (some Buf.sendbuf) Buf.recvbuf 1 ⟨false⟩
      (flatComm (2 ^ 30 + 1) 1) Sched.empty (by decide) (by decide) (by decide) fuel
  · set_option maxRecDepth 100000 in
    exact ⟨_, rfl, by decide⟩

/-! ### Pairing of sends and recvs in the flat schedule -/

theorem countSend_append (c : CommId) (d : Nat) (a b : List Step) :
    countSend c d (a ++ b) = countSend c d a + countSend c d b := by
  simp [countSend, List.countP_append]

theorem round_send_count (isc : Bool) (rank size k p : Nat) (hr : rank < size)
    (hs : size ≤ 2 ^ 30) (hk : k ≤ 30) (hp : p < size) :
    countSend CommId.comm_ptr p
        (callSteps (roundCalls isc Buf.recvbuf CommId.comm_ptr rank size (2 ^ k))) =
      if rank ^^^ 2 ^ k = p then 1 else 0 := by
  rw [roundCalls_steps isc _ _ rank size k hr hs hk]
  by_cases hq : rank ^^^ 2 ^ k < size
  · rw [if_pos hq]
    unfold exchangeSteps
    by_cases he : rank ^^^ 2 ^ k = p
    · subst he
      by_cases hlt : rank ^^^ 2 ^ k < rank
      · simp [hlt, countSend]
      · cases isc <;> simp [hlt, countSend]
    · by_cases hlt : rank ^^^ 2 ^ k < rank
      · simp [he, hlt, countSend]
      · cases isc <;> simp [he, hlt, countSend]
  · rw [if_neg hq, if_neg (by omega)]
    simp [countSend]

theorem round_recv_count (isc : Bool) (rank size k p : Nat) (hr : rank < size)
    (hs : size ≤ 2 ^ 30) (hk : k ≤ 30) (hp : p < size) :
    countRecv CommId.comm_ptr p
        (callSteps (roundCalls isc Buf.recvbuf CommId.comm_ptr rank size (2 ^ k))) =
      if rank ^^^ 2 ^ k = p then 1 else 0 := by
  rw [roundCalls_steps isc _ _ rank size k hr hs hk]
  by_cases hq : rank ^^^ 2 ^ k < size
  · rw [if_pos hq]
    unfold exchangeSteps
    by_cases he : rank ^^^ 2 ^ k = p
    · subst he
      by_cases hlt : rank ^^^ 2 ^ k < rank
      · simp [hlt, countRecv]
      · cases isc <;> simp [hlt, countRecv]
    · by_cases hlt : rank ^^^ 2 ^ k < rank
      · simp [he, hlt, countRecv]
      · cases isc <;> simp [he, hlt, countRecv]
  · rw [if_neg hq, if_neg (by omega)]
    simp [countRecv]

theorem rounds_send_count (isc : Bool) (rank size p : Nat) (hr : rank < size)
    (hs : size ≤ 2 ^ 30) (hp : p < size) :
    ∀ (n k : Nat), k + n ≤ 31 →
      countSend CommId.comm_ptr p
          (callSteps (roundsFrom isc Buf.recvbuf CommId.comm_ptr rank size n k)) =
        ((List.range n).filter (fun i => decide (rank ^^^ 2 ^ (k + i) = p))).length := by
  intro n
  induction n with
  | zero => intro k _; simp [roundsFrom, callSteps, countSend]
  | succ n ih =>
    intro k hk
    simp only [roundsFrom, callSteps_append, countSend_append]
    rw [round_send_count isc rank size k p hr hs (by omega) hp, ih (k + 1) (by omega),
      List.range_succ_eq_map, List.filter_cons, List.filter_map]
    have e : (fun i => decide (rank ^^^ 2 ^ (k + 1 + i) = p)) =
        ((fun i => decide (rank ^^^ 2 ^ (k + i) = p)) ∘ Nat.succ) := by
      funext i
      simp only [Function.comp, Nat.succ_eq_add_one]
      rw [show k + 1 + i = k + (i + 1) by omega]
    rw [e, Nat.add_zero]
    by_cases hb : rank ^^^ 2 ^ k = p
    · rw [if_pos hb, if_pos (by simpa using hb), List.length_cons, List.length_map]; omega
    · rw [if_neg hb, if_neg (by simpa using hb), List.length_map]; omega

theorem rounds_recv_count (isc : Bool) (rank size p : Nat) (hr : rank < size)
    (hs : size ≤ 2 ^ 30) (hp : p < size) :
    ∀ (n k : Nat), k + n ≤ 31 →
      countRecv CommId.comm_ptr p
          (callSteps (roundsFrom isc Buf.recvbuf CommId.comm_ptr rank size n k)) =
        ((List.range n).filter (fun i => decide (rank ^^^ 2 ^ (k + i) = p))).length := by
  intro n
  induction n with
  | zero => intro k _; simp [roundsFrom, callSteps, countRecv]
  | succ n ih =>
    intro k hk
    simp only [roundsFrom, callSteps_append, countRecv_append]
    rw [round_recv_count isc rank size k p hr hs (by omega) hp, ih (k + 1) (by omega),
      List.range_succ_eq_map, List.filter_cons, List.filter_map]
    have e : (fun i => decide (rank ^^^ 2 ^ (k + 1 + i) = p)) =
        ((fun i => decide (rank ^^^ 2 ^ (k + i) = p)) ∘ Nat.succ) := by
      funext i
      simp only [Function.comp, Nat.succ_eq_add_one]
      rw [show k + 1 + i = k + (i + 1) by omega]
    rw [e, Nat.add_zero]
    by_cases hb : rank ^^^ 2 ^ k = p
    · rw [if_pos hb, if_pos (by simpa using hb), List.length_cons, List.length_map]; omega
    · rw [if_neg hb, if_neg (by simpa using hb), List.length_map]; omega

theorem filter_range_le_one (P : Nat → Bool) :
    ∀ n, (∀ i j, i < n → j < n → P i = true → P j = true → i = j) →
      ((List.range n).filter P).length ≤ 1 := by
  intro n
  induction n with
  | zero => intro _; simp
  | succ n ih =>
    intro h
    have ihn := ih (fun i j hi hj => h i j (by omega) (by omega))
    rw [List.range_succ, List.filter_append, List.length_append]
    by_cases hP : P n = true
    · have hempty : (List.range n).filter P = [] := by
        rw [List.filter_eq_nil_iff]
        intro i hi hPi
        have hi1 := List.mem_range.mp hi
        have := h i n (by omega) (by omega) hPi hP
        omega
      simp [hempty, hP]
    · simp [hP]
      exact ihn

theorem round_pair (isc : Bool) (rank size k p : Nat) (hr : rank < size)
    (hs : size ≤ 2 ^ 30) (hk : k ≤ 30) (hp : p < size) (he : p = rank ^^^ 2 ^ k) :
    Step.send Buf.partial_scan p CommId.comm_ptr ∈
        callSteps (roundCalls isc Buf.recvbuf CommId.comm_ptr rank size (2 ^ k)) ∧
      Step.recv Buf.tmp_buf p CommId.comm_ptr ∈
        callSteps (roundCalls isc Buf.recvbuf CommId.comm_ptr rank size (2 ^ k)) := by
  subst he
  rw [roundCalls_steps isc _ _ rank size k hr hs hk, if_pos hp]
  unfold exchangeSteps
  simp

theorem round_send_partner (isc : Bool) (rank size k p : Nat) (hr : rank < size)
    (hs : size ≤ 2 ^ 30) (hk : k ≤ 30) (buf : Buf) (c : CommId)
    (h : Step.send buf p c ∈
      callSteps (roundCalls isc Buf.recvbuf CommId.comm_ptr rank size (2 ^ k))) :
    p = rank ^^^ 2 ^ k := by
  rw [roundCalls_steps isc _ _ rank size k hr hs hk] at h
  split at h
  · exact send_mem_exchange _ _ _ _ _ _ _ _ h
  · simp at h

theorem flatSteps_eq (fuel : Nat) (op : MPI_Op) (sendbuf : Option Buf) (count size rank : Nat)
    (hs : size ≤ 2 ^ 30) (hfuel : 32 ≤ fuel) (hcount : count ≠ 0) :
    flatSteps fuel op sendbuf count size rank =
      flatPre op.is_commutative sendbuf rank size (Nat.clog 2 size) := by
  unfold flatSteps
  rw [flat_result noFaults (fun _ => rfl) sendbuf count op size rank fuel hs hfuel hcount
    Sched.empty]
  simp [stepsOf, Sched.empty]

theorem countSend_init (c : CommId) (d : Nat) (sendbuf : Option Buf) (recvbuf : Buf) :
    countSend c d (callSteps (recDblInit sendbuf recvbuf)) = 0 := by
  cases sendbuf <;> simp [recDblInit, callSteps, countSend]

/-! ### C17 -/

/-- C17 (amended): in a group of at most `2 ^ 30` ranks, for every mask
`2 ^ k < size` and all ranks `r, p < size`: the round of `r` for that mask
contains a send to `p` and a recv from `p` if and only if `p = r XOR mask`,
and then the round of `p` for the same mask contains a send to `r` and a
recv from `r`; in the schedule of `r` that round follows the rounds of all
smaller masks; `r` sends to `p` at most once, and as many times as `p`
receives from `r`, so every send has exactly one matching recv. -/
theorem C17_symmetric_pairing (op : MPI_Op) (sendbuf : Nat → Option Buf) (size count : Nat)
    (hs : size ≤ 2 ^ 30) (hcount : count ≠ 0) (fuel : Nat) (hfuel : 32 ≤ fuel)
    (k : Nat) (hk : 2 ^ k < size) (r p : Nat) (hr : r < size) (hp : p < size) :
    (((∃ buf, Step.send buf p CommId.comm_ptr ∈ callSteps
          (roundCalls op.is_commutative Buf.recvbuf CommId.comm_ptr r size (2 ^ k))) ∧
        (∃ buf, Step.recv buf p CommId.comm_ptr ∈ callSteps
          (roundCalls op.is_commutative Buf.recvbuf CommId.comm_ptr r size (2 ^ k)))) ↔
      p = r ^^^ 2 ^ k) ∧
    (p = r ^^^ 2 ^ k →
      (∃ buf, Step.send buf r CommId.comm_ptr ∈ callSteps
        (roundCalls op.is_commutative Buf.recvbuf CommId.comm_ptr p size (2 ^ k))) ∧
      (∃ buf, Step.recv buf r CommId.comm_ptr ∈ callSteps
        (roundCalls op.is_commutative Buf.recvbuf CommId.comm_ptr p size (2 ^ k)))) ∧
    (∃ rest, flatSteps fuel op (sendbuf r) count size r =
      flatPre op.is_commutative (sendbuf r) r size k ++
        (callSteps (roundCalls op.is_commutative Buf.recvbuf CommId.comm_ptr r size (2 ^ k))
          ++ rest)) ∧
    countSend CommId.comm_ptr p (flatSteps fuel op (sendbuf r) count size r) =
      countRecv CommId.comm_ptr r (flatSteps fuel op (sendbuf p) count size p) ∧
    countSend CommId.comm_ptr p (flatSteps fuel op (sendbuf r) count size r) ≤ 1 := by
  obtain ⟨hK, hle, hlt⟩ := clog_facts size hs
  have hk30 : k ≤ 30 := by
    by_contra hne
    have : (2 : Nat) ^ 31 ≤ 2 ^ k := Nat.pow_le_pow_right (by norm_num) (by omega)
    omega
  have hkK : k < Nat.clog 2 size := by
    by_contra hne
    have : 2 ^ Nat.clog 2 size ≤ 2 ^ k := Nat.pow_le_pow_right (by norm_num) (by omega)
    omega
  have hsend : countSend CommId.comm_ptr p (flatSteps fuel op (sendbuf r) count size r) =
      ((List.range (Nat.clog 2 size)).filter (fun i => decide (r ^^^ 2 ^ i = p))).length := by
    rw [flatSteps_eq fuel op _ count size r hs hfuel hcount]
    unfold flatPre
    rw [countSend_append, countSend_init,
      rounds_send_count _ r size p hr hs hp _ 0 (by omega)]
    simp
  have hrecv : countRecv CommId.comm_ptr r (flatSteps fuel op (sendbuf p) count size p) =
      ((List.range (Nat.clog 2 size)).filter (fun i => decide (p ^^^ 2 ^ i = r))).length := by
    rw [flatSteps_eq fuel op _ count size p hs hfuel hcount]
    unfold flatPre
    rw [countRecv_append, countRecv_init,
      rounds_recv_count _ p size r hp hs hr _ 0 (by omega)]
    simp
  refine ⟨⟨?_, ?_⟩, ?_, ?_, ?_, ?_⟩
  · rintro ⟨⟨buf, hb⟩, _⟩
    exact round_send_partner _ r size k p hr hs hk30 buf _ hb
  · intro he
    obtain ⟨h1, h2⟩ := round_pair op.is_commutative r size k p hr hs hk30 hp he
    exact ⟨⟨_, h1⟩, ⟨_, h2⟩⟩
  · intro he
    have he2 : r = p ^^^ 2 ^ k := by rw [he, Nat.xor_cancel_right]
    obtain ⟨h1, h2⟩ := round_pair op.is_commutative p size k r hp hs hk30 hr he2
    exact ⟨⟨_, h1⟩, ⟨_, h2⟩⟩
  · refine ⟨callSteps (roundsFrom op.is_commutative Buf.recvbuf CommId.comm_ptr r size
      (Nat.clog 2 size - (k + 1)) (k + 1)), ?_⟩
    rw [flatSteps_eq fuel op _ count size r hs hfuel hcount]
    have e : Nat.clog 2 size = (k + 1) + (Nat.clog 2 size - (k + 1)) := by omega
    conv_lhs => rw [e]
    rw [flatPre_add, flatPre_succ, List.append_assoc]
  · rw [hsend, hrecv]
    congr 1
    apply List.filter_congr
    intro i _
    have : (r ^^^ 2 ^ i = p) ↔ (p ^^^ 2 ^ i = r) := by
      constructor
      · intro h; rw [← h, Nat.xor_cancel_right]
      · intro h; rw [← h, Nat.xor_cancel_right]
    simp [this]
  · rw [hsend]
    apply filter_range_le_one
    intro i j _ _ hi hj
    by_contra hne
    have h1 : r ^^^ 2 ^ i = p := by simpa using hi
    have h2 : r ^^^ 2 ^ j = p := by simpa using hj
    exact xor_two_pow_ne r i j hne (h1.trans h2.symm)

/-- Witness of C17: ranks 1 and 3 of five ranks, in the round with mask 2. -/
theorem C17_symmetric_pairing_witness :
    countSend CommId.comm_ptr 3 (flatSteps 32 ⟨false⟩ (some Buf.sendbuf) 1 5 1) =
      countRecv CommId.comm_ptr 1 (flatSteps 32 ⟨false⟩ (some Buf.sendbuf) 1 5 3) ∧
    countSend CommId.comm_ptr 3 (flatSteps 32 ⟨false⟩ (some Buf.sendbuf) 1 5 1) ≤ 1 :=
  (C17_symmetric_pairing ⟨false⟩ (fun _ => some Buf.sendbuf) 5 1 (by decide) (by decide) 32
    (le_refl _) 1 (by decide) 1 3 (by decide) (by decide)).2.2.2

/-- Counterexample to C17 as stated: in a group of `2 ^ 30 + 1` ranks the flat
builder never returns at rank 0 when no call fails.  The first 34 iterations
of its loop have the masks `1, 2, ..., 2 ^ 30`, then `2 ^ 31` (negative as an
`int`), then 0 and 0 again: the masks do not go on increasing.  The iteration
with mask `2 ^ 31` records a send to `0 XOR 2 ^ 31`, which is not a rank of
the group, so no rank records the matching recv; every iteration with mask 0
records a send from rank 0 to rank 0 itself.  When the builder is stopped by
the failure of its 251st call, the schedule it has built holds 4 sends to
rank 0 and one send to `2 ^ 31`. -/
theorem C17_counterexample_size_above_two_pow_30 :
    (∀ fuel, MPIR_Iscan_rec_dbl fuel noFaults (some Buf.sendbuf) Buf.recvbuf 1 ⟨false⟩
        (flatComm (2 ^ 30 + 1) 0) Sched.empty = none) ∧
    maskTrace (2 ^ 30 + 1) 34 1 = (List.range 31).map (fun i => 2 ^ i) ++ [2 ^ 31, 0, 0] ∧
    Step.send Buf.partial_scan (2 ^ 31) CommId.comm_ptr ∈
      callSteps (roundCalls false Buf.recvbuf CommId.comm_ptr 0 (2 ^ 30 + 1) (2 ^ 31)) ∧
    ¬ (2 ^ 31 < 2 ^ 30 + 1) ∧
    Step.send Buf.partial_scan 0 CommId.comm_ptr ∈
      callSteps (roundCalls false Buf.recvbuf CommId.comm_ptr 0 (2 ^ 30 + 1) 0) ∧
    ∃ o, MPIR_Iscan_rec_dbl 40 (failAt 250) (some Buf.sendbuf) Buf.recvbuf 1 ⟨false⟩
        (flatComm (2 ^ 30 + 1) 0) Sched.empty = some (Result.returned o) ∧
      countSend CommId.comm_ptr 0 o.s.steps = 4 ∧
      countSend CommId.comm_ptr (2 ^ 31) o.s.steps = 1 := by
  refine ⟨fun fuel => ?_, by decide, by decide, by decide, by decide, ?_⟩
  · exact rec_dbl_no_return noFaults (fun _ => rfl) (some Buf.sendbuf) Buf.recvbuf 1 ⟨false⟩
      (flatComm (2 ^ 30 + 1) 0) Sched.empty (by decide) (by decide) (by decide) fuel
  · set_option maxRecDepth 100000 in
    exact ⟨_, rfl, by decide, by decide⟩

/-! ### The two settings of the commutative flag -/

theorem flat_rel {α : Type} (f : α → α → α) (hcomm : ∀ a b, f a b = f b a) (size K : Nat)
    (hs : size ≤ 2 ^ 30) (hK : K ≤ 30) (sendbuf : Nat → Option Buf) (WT WF : World α)
    (hopT : WT.op = f) (hopF : WF.op = f) (hinit : WT.init = WF.init)
    (hmemT : ∀ r c, WT.members r c = List.range size)
    (hmemF : ∀ r c, WF.members r c = List.range size)
    (hschedT : ∀ r, r < size → WT.sched r = flatPre true (sendbuf r) r size K)
    (hschedF : ∀ r, r < size → WF.sched r = flatPre false (sendbuf r) r size K) :
    ∀ k, k ≤ K → ∀ n, k ≤ n → ∀ r, r < size →
      ∃ mT mF,
        runSteps WT (feedN WT n) r [] (flatPre true (sendbuf r) r size k) (WT.init r)
          = some mT ∧
        runSteps WF (feedN WF n) r [] (flatPre false (sendbuf r) r size k) (WF.init r)
          = some mF ∧
        mT Buf.recvbuf = mF Buf.recvbuf ∧ mT Buf.partial_scan = mF Buf.partial_scan := by
  intro k
  induction k with
  | zero =>
    intro _ n _ r hr
    rw [hinit]
    cases hsb : sendbuf r with
    | none =>
      simp only [flatPre, recDblInit, callSteps, roundsFrom, runSteps, runStep,
        List.append_nil, List.nil_append, List.cons_append]
      exact ⟨_, _, rfl, rfl, rfl, rfl⟩
    | some sb =>
      simp only [flatPre, recDblInit, callSteps, roundsFrom, runSteps, runStep,
        List.append_nil, List.nil_append, List.cons_append]
      exact ⟨_, _, rfl, rfl, rfl, rfl⟩
  | succ k ih =>
    intro hk n hn r hr
    obtain ⟨n1, rfl⟩ : ∃ n1, n = n1 + 1 := ⟨n - 1, by omega⟩
    obtain ⟨mT, mF, hT, hF, er, ep⟩ := ih (by omega) (n1 + 1) (by omega) r hr
    rw [flatPre_succ, runSteps_append, hT, Option.some_bind, List.nil_append,
      roundCalls_steps true _ _ r size k hr hs (by omega),
      flatPre_succ, runSteps_append, hF, Option.some_bind, List.nil_append,
      roundCalls_steps false _ _ r size k hr hs (by omega)]
    by_cases hp : r ^^^ 2 ^ k < size
    · rw [if_pos hp, if_pos hp]
      obtain ⟨pT, pF, hpT, hpF, _, epp⟩ := ih (by omega) n1 (by omega) (r ^^^ 2 ^ k) hp
      have hback : (r ^^^ 2 ^ k) ^^^ 2 ^ k = r := Nat.xor_cancel_right _ _
      have hfT := feed_msg_flat true size K hs hK sendbuf WT hmemT hschedT n1 k (r ^^^ 2 ^ k)
        (by omega) hp (by rw [hback]; exact hr)
      have hfF := feed_msg_flat false size K hs hK sendbuf WF hmemF hschedF n1 k (r ^^^ 2 ^ k)
        (by omega) hp (by rw [hback]; exact hr)
      rw [hback, hpT, Option.map_some'] at hfT
      rw [hback, hpF, Option.map_some'] at hfF
      obtain ⟨m1T, h1T, r1T, p1T⟩ := run_exchange WT (feedN WT (n1 + 1)) true size r
        (r ^^^ 2 ^ k) (flatPre true (sendbuf r) r size k) mT (pT Buf.partial_scan) hmemT hp
        (countRecv_flatPre true (sendbuf r) r size hr hs _ _ k (by omega)
          (fun j hj => xor_two_pow_ne r j k (by omega))) hfT
      obtain ⟨m1F, h1F, r1F, p1F⟩ := run_exchange WF (feedN WF (n1 + 1)) false size r
        (r ^^^ 2 ^ k) (flatPre false (sendbuf r) r size k) mF (pF Buf.partial_scan) hmemF hp
        (countRecv_flatPre false (sendbuf r) r size hr hs _ _ k (by omega)
          (fun j hj => xor_two_pow_ne r j k (by omega))) hfF
      refine ⟨m1T, m1F, h1T, h1F, ?_, ?_⟩
      · rw [r1T, r1F, hopT, hopF, er, epp]
      · rw [p1T, p1F, hopT, hopF, ep, epp]
        by_cases hlt : r ^^^ 2 ^ k < r
        · simp [hlt]
        · simp [hlt, hcomm (pF Buf.partial_scan) (mF Buf.partial_scan)]
    · rw [if_neg hp, if_neg hp]
      exact ⟨mT, mF, by simp [runSteps], by simp [runSteps], er, ep⟩

/-! ### C18 -/

/-- C18: for every size of the group (an `int`), every rank and every operator
that commutes, executing the flat schedules built with the commutative flag
set ends with the same `recvbuf` and the same `partial_scan` on the rank as
executing the flat schedules built with the flag clear.  (Above `2 ^ 30`
ranks neither setting yields a schedule, and with a count of zero both
schedules are empty.) -/
theorem C18_commutative_shortcut_sound {α : Type} (f : α → α → α)
    (hcomm : ∀ a b, f a b = f b a) (size count : Nat) (hsize : size < 2 ^ 31)
    (sendbuf : Nat → Option Buf) (init : Nat → Mem α) (fuel : Nat) (hfuel : 32 ≤ fuel)
    (r : Nat) (hr : r < size) :
    ∃ mT mF,
      execute (flatWorld fuel ⟨true⟩ f size sendbuf count init) fuel r = some mT ∧
      execute (flatWorld fuel ⟨false⟩ f size sendbuf count init) fuel r = some mF ∧
      mT Buf.recvbuf = mF Buf.recvbuf ∧ mT Buf.partial_scan = mF Buf.partial_scan := by
  by_cases hcount : count = 0
  · subst hcount
    have hT : (flatWorld fuel ⟨true⟩ f size sendbuf 0 init).sched r = [] := by
      simp [flatWorld, MPIR_Iscan_rec_dbl, stepsOf, Sched.empty]
    have hF : (flatWorld fuel ⟨false⟩ f size sendbuf 0 init).sched r = [] := by
      simp [flatWorld, MPIR_Iscan_rec_dbl, stepsOf, Sched.empty]
    unfold execute
    rw [hT, hF]
    exact ⟨_, _, rfl, rfl, rfl, rfl⟩
  · by_cases hs : size ≤ 2 ^ 30
    · obtain ⟨hK, _, _⟩ := clog_facts size hs
      have hschedT := fun q (_ : q < size) =>
        flat_sched fuel ⟨true⟩ f size sendbuf count init hs hfuel hcount q
      have hschedF := fun q (_ : q < size) =>
        flat_sched fuel ⟨false⟩ f size sendbuf count init hs hfuel hcount q
      obtain ⟨mT, mF, hT, hF, er, ep⟩ := flat_rel f hcomm size (Nat.clog 2 size) hs hK sendbuf
        (flatWorld fuel ⟨true⟩ f size sendbuf count init)
        (flatWorld fuel ⟨false⟩ f size sendbuf count init) rfl rfl rfl
        (fun _ _ => rfl) (fun _ _ => rfl) hschedT hschedF (Nat.clog 2 size) (le_refl _) fuel
        (by omega) r hr
      refine ⟨mT, mF, ?_, ?_, er, ep⟩
      · unfold execute
        rw [hschedT r hr]
        exact hT
      · unfold execute
        rw [hschedF r hr]
        exact hF
    · unfold execute
      rw [flatWorld_big_sched fuel ⟨true⟩ f size sendbuf count init (by omega) hsize hcount r,
        flatWorld_big_sched fuel ⟨false⟩ f size sendbuf count init (by omega) hsize hcount r]
      exact ⟨_, _, rfl, rfl, rfl, rfl⟩

/-- Witness of C18: rank 2 of five ranks under integer sum, every rank
contributing 1. -/
theorem C18_commutative_shortcut_sound_witness :
    ∃ mT mF,
      execute (flatWorld 32 ⟨true⟩ (fun a b : Int => a + b) 5 (fun _ => some Buf.sendbuf) 1
        onesInit) 32 2 = some mT ∧
      execute (flatWorld 32 ⟨false⟩ (fun a b : Int => a + b) 5 (fun _ => some Buf.sendbuf) 1
        onesInit) 32 2 = some mF ∧
      mT Buf.recvbuf = mF Buf.recvbuf ∧ mT Buf.partial_scan = mF Buf.partial_scan :=
  C18_commutative_shortcut_sound (fun a b : Int => a + b) (fun a b => Int.add_comm a b) 5 1
    (by decide) (fun _ => some Buf.sendbuf) onesInit 32 (le_refl _) 2 (by decide)

/-! ### C11: independence of the steps of a round -/

/-- C11 (evaluation at the failing input): on two ranks, not in place, the
first round of rank 0 holds the initial copy into `partial_scan` and the
send of `partial_scan` with no barrier between them, so the two steps are not
independent, while every later round is pairwise independent.  The order
inside that round matters: run in recorded order rank 1 ends with `AB`, and
with the send issued before the copies rank 1 ends with `B` alone. -/
theorem C11_first_round_send_reads_copied_buffer :
    (splitRounds (flatSteps 32 ⟨false⟩ (some Buf.sendbuf) 1 2 0)).head? =
        some [Step.copy Buf.sendbuf Buf.recvbuf,
              Step.copy Buf.sendbuf Buf.partial_scan,
              Step.send Buf.partial_scan 1 CommId.comm_ptr,
              Step.recv Buf.tmp_buf 1 CommId.comm_ptr] ∧
      Step.independent (Step.copy Buf.sendbuf Buf.partial_scan)
        (Step.send Buf.partial_scan 1 CommId.comm_ptr) = false ∧
      (splitRounds (flatSteps 32 ⟨false⟩ (some Buf.sendbuf) 1 2 0)).map
          pairwiseIndependent = [false, true, true, true] ∧
      (execute (flatWorld 32 ⟨false⟩ (fun a b => a ++ b) 2
          (fun _ => some Buf.sendbuf) 1 abcdInit) 2 1).map
          (fun m => m Buf.recvbuf) = some ['A', 'B'] ∧
      (execute reorderedWorld 2 1).map (fun m => m Buf.recvbuf) = some ['B'] := by
  refine ⟨by decide, by decide, by decide, by decide, by decide⟩

/-! ### C15: the relay among representatives -/

theorem smp_root_tempbuf {α : Type} (f : α → α → α)
    (hassoc : ∀ a b c, f (f a b) c = f a (f b c)) (W : World α) (t : Topo)
    (sendbuf : Nat → Option Buf) (hop : W.op = f) (hW : IsSmpWorld W t sendbuf)
    (hwf : t.WF) (r : Nat) (hr : r < t.size) (hl0 : t.localRank r = 0)
    (hi0 : t.nodeOf r ≠ 0) (n : Nat) (hfuel : 5 ≤ n) :
    ∃ m, execute W n r = some m ∧
      m Buf.tempbuf = scanRange f (fun q => contribution (sendbuf q) (W.init q)) 0
        (t.base (t.nodeOf r) - 1) := by
  obtain ⟨hi, hrl, hl, _, _, hle⟩ := t.rank_facts hwf r hr
  have hrb : r = t.base (t.nodeOf r) := by omega
  have hget0 : (W.members r CommId.node_comm)[0]? = some (t.base (t.nodeOf r)) := by
    rw [hW.1]
    have := getElem_map_range (fun l => t.base (t.nodeOf r) + l) (t.sz (t.nodeOf r)) 0
      (by omega)
    simpa using this
  obtain ⟨m, hm, hmr, hmt⟩ := smp_root_relay f hassoc W t sendbuf hop hW hwf r hr hl0 n
    (by omega)
  unfold execute
  rw [hW.2.2 r hr]
  unfold smpSteps
  rw [if_pos hl0, runSteps_append, hm, Option.some_bind, List.nil_append]
  unfold fixupSteps
  rw [if_pos hi0]
  have hget1 : (W.members r CommId.node_comm)[0]? = some r :=
    hget0.trans (congrArg some hrb.symm)
  by_cases hn : 1 < t.sz (t.nodeOf r)
  · simp only [hn, if_true, List.cons_append, List.nil_append, runSteps, runStep, hget1, hop]
    exact ⟨_, rfl, by simp [Mem.set, hmt hi0]⟩
  · simp only [hn, if_false, List.nil_append, runSteps, runStep, hop]
    exact ⟨_, rfl, by simp [Mem.set, hmt hi0]⟩

theorem smpSteps_send_roots (sb : Option Buf) (i l n N : Nat) (buf : Buf) (dest : Nat) :
    Step.send buf dest CommId.roots_comm ∈ smpSteps sb i l n N ↔
      (l = 0 ∧ i ≠ N - 1 ∧ buf = Buf.prefulldata ∧ dest = i + 1) := by
  unfold smpSteps rootPre relaySteps fixupSteps
  cases sb <;> split_ifs <;> simp_all

theorem smpSteps_recv_roots (sb : Option Buf) (i l n N : Nat) (buf : Buf) (src : Nat) :
    Step.recv buf src CommId.roots_comm ∈ smpSteps sb i l n N ↔
      (l = 0 ∧ i ≠ 0 ∧ buf = Buf.tempbuf ∧ src = i - 1) := by
  unfold smpSteps rootPre relaySteps fixupSteps
  cases sb <;> split_ifs <;> simp_all

/-- C15: on a node-consecutive group with a well-formed layout of `N` nodes,
the schedule of rank `r` on node `i` holds a send on the group of
representatives exactly when `r` is the representative and `i ≠ N - 1`, and it
is then the send of `prefulldata` to `i + 1`; it holds a receive on that group
exactly when `r` is the representative and `i ≠ 0`, and it is then the receive
into `tempbuf` from `i - 1`; a rank that is not a representative has neither.
After execution `tempbuf` on the representative of a node `i > 0` holds the
combination of the contributions of all the ranks of nodes `0..i-1`. -/
theorem C15_relay_among_representatives {α : Type} (f : α → α → α)
    (hassoc : ∀ a b c, f (f a b) c = f a (f b c)) (op : MPI_Op) (t : Topo) (hwf : t.WF)
    (count : Nat) (sendbuf : Nat → Option Buf) (init : Nat → Mem α) (fuel n : Nat)
    (hn : 5 ≤ n) (r : Nat) (hr : r < t.size) :
    (∀ buf dest, Step.send buf dest CommId.roots_comm ∈
        (smpWorld fuel op f t sendbuf count init).sched r ↔
      (t.localRank r = 0 ∧ t.nodeOf r ≠ t.N - 1 ∧ buf = Buf.prefulldata ∧
        dest = t.nodeOf r + 1)) ∧
    (∀ buf src, Step.recv buf src CommId.roots_comm ∈
        (smpWorld fuel op f t sendbuf count init).sched r ↔
      (t.localRank r = 0 ∧ t.nodeOf r ≠ 0 ∧ buf = Buf.tempbuf ∧ src = t.nodeOf r - 1)) ∧
    (t.localRank r = 0 → t.nodeOf r ≠ 0 →
      ∃ m, execute (smpWorld fuel op f t sendbuf count init) n r = some m ∧
        m Buf.tempbuf =
          scanRange f (fun q => contribution (sendbuf q) (init q)) 0
            (t.base (t.nodeOf r) - 1)) := by
  have hW := smpWorld_spec fuel op f t hwf sendbuf count init
  refine ⟨?_, ?_, ?_⟩
  · intro buf dest
    rw [hW.2.2 r hr]
    exact smpSteps_send_roots _ _ _ _ _ _ _
  · intro buf src
    rw [hW.2.2 r hr]
    exact smpSteps_recv_roots _ _ _ _ _ _ _
  · intro hl0 hi0
    exact smp_root_tempbuf f hassoc (smpWorld fuel op f t sendbuf count init) t sendbuf rfl
      hW hwf r hr hl0 hi0 n hn

/-- Witness of C15: two nodes of two ranks, integer sum, contributions
`[1, 1, 1, 1]`: rank 0 sends `prefulldata` to representative 1, rank 2
receives into `tempbuf` from representative 0 and ends with `tempbuf = 2`,
and rank 2, the last representative, sends nothing to a representative. -/
theorem C15_relay_among_representatives_witness :
    Step.send Buf.prefulldata 1 CommId.roots_comm ∈
        (smpWorld 0 ⟨true⟩ (fun a b : Int => a + b) twoByTwo
          (fun _ => some Buf.sendbuf) 1 onesInit).sched 0 ∧
    Step.recv Buf.tempbuf 0 CommId.roots_comm ∈
        (smpWorld 0 ⟨true⟩ (fun a b : Int => a + b) twoByTwo
          (fun _ => some Buf.sendbuf) 1 onesInit).sched 2 ∧
    (∀ buf dest, Step.send buf dest CommId.roots_comm ∉
        (smpWorld 0 ⟨true⟩ (fun a b : Int => a + b) twoByTwo
          (fun _ => some Buf.sendbuf) 1 onesInit).sched 2) ∧
    (∃ m, execute (smpWorld 0 ⟨true⟩ (fun a b : Int => a + b) twoByTwo
        (fun _ => some Buf.sendbuf) 1 onesInit) 5 2 = some m ∧ m Buf.tempbuf = 2) := by
  have h := fun r (hr : r < 4) =>
    C15_relay_among_representatives (fun a b : Int => a + b)
      (fun a b c => Int.add_assoc a b c) ⟨true⟩ twoByTwo twoByTwo_wf 1
      (fun _ => some Buf.sendbuf) onesInit 0 5 (le_refl _) r hr
  refine ⟨?_, ?_, ?_, ?_⟩
  · exact ((h 0 (by decide)).1 Buf.prefulldata 1).2 (by decide)
  · exact ((h 2 (by decide)).2.1 Buf.tempbuf 0).2 (by decide)
  · intro buf dest hmem
    exact absurd (((h 2 (by decide)).1 buf dest).1 hmem).2.1 (by decide)
  · obtain ⟨m, h1, h2⟩ := (h 2 (by decide)).2.2 (by decide) (by decide)
    exact ⟨m, h1, by rw [h2]; decide⟩

/-! ### C16: the fix-up -/

theorem smpSteps_split (sb : Option Buf) (i l n N : Nat) :
    ∃ pre, smpSteps sb i l n N = pre ++ fixupSteps i n ∧
      (∀ b root c, Step.ibcast b root c ∉ pre) ∧ (∀ a b, Step.reduce a b ∉ pre) := by
  unfold smpSteps
  by_cases hl0 : l = 0
  · rw [if_pos hl0]
    refine ⟨_, rfl, ?_, ?_⟩
    · intro b root c
      unfold rootPre relaySteps
      cases sb <;> split_ifs <;> simp
    · intro a b
      unfold rootPre relaySteps
      cases sb <;> split_ifs <;> simp
  · rw [if_neg hl0]
    refine ⟨_, rfl, ?_, ?_⟩
    · intro b root c
      split_ifs <;> simp
    · intro a b
      split_ifs <;> simp

theorem fixup_shape (pre : List Step) (i n : Nat)
    (h1 : ∀ b root c, Step.ibcast b root c ∉ pre) (h2 : ∀ a b, Step.reduce a b ∉ pre) :
    (i = 0 → (∀ b root c, Step.ibcast b root c ∉ pre ++ fixupSteps i n) ∧
      (∀ a b, Step.reduce a b ∉ pre ++ fixupSteps i n)) ∧
    (i ≠ 0 →
      (pre ++ fixupSteps i n).getLast? = some (Step.reduce Buf.tempbuf Buf.recvbuf) ∧
      (∀ a b, Step.reduce a b ∈ pre ++ fixupSteps i n → a = Buf.tempbuf ∧ b = Buf.recvbuf) ∧
      (pre ++ fixupSteps i n).count (Step.reduce Buf.tempbuf Buf.recvbuf) = 1 ∧
      (1 < n → ∃ body, pre ++ fixupSteps i n = body ++
          [Step.ibcast Buf.tempbuf 0 CommId.node_comm, Step.barrier,
           Step.reduce Buf.tempbuf Buf.recvbuf] ∧
        ∀ b root c, Step.ibcast b root c ∉ body) ∧
      (¬ 1 < n → ∀ b root c, Step.ibcast b root c ∉ pre ++ fixupSteps i n)) := by
  have hc : pre.count (Step.reduce Buf.tempbuf Buf.recvbuf) = 0 :=
    List.count_eq_zero.mpr (h2 _ _)
  unfold fixupSteps
  constructor
  · intro hi0
    rw [if_neg (not_not.mpr hi0), List.append_nil]
    exact ⟨h1, h2⟩
  · intro hi0
    rw [if_pos hi0]
    by_cases hn : 1 < n
    · rw [if_pos hn]
      refine ⟨by simp, ?_, ?_, fun _ => ⟨pre, by simp, h1⟩, fun h => absurd hn h⟩
      · intro a b hmem
        rcases List.mem_append.mp hmem with h | h
        · exact absurd h (h2 a b)
        · simpa using h
      · rw [List.count_append, hc]
        decide
    · rw [if_neg hn, List.nil_append]
      refine ⟨by simp, ?_, ?_, fun h => absurd h hn, ?_⟩
      · intro a b hmem
        rcases List.mem_append.mp hmem with h | h
        · exact absurd h (h2 a b)
        · simpa using h
      · rw [List.count_append, hc]
        decide
      · intro _ b root c hmem
        rcases List.mem_append.mp hmem with h | h
        · exact absurd h (h1 b root c)
        · simp at h

/-- C16: on a node-consecutive group with a well-formed layout, the schedule
of a rank of node 0 holds no broadcast and no reduce.  The schedule of a rank
of any other node ends with the reduce of `tempbuf` into `recvbuf` (with
`tempbuf` the earlier operand), which is its only reduce; when the node has
more than one rank that reduce is directly preceded by the broadcast of
`tempbuf` from local root 0 on the node and a barrier, the only broadcast of
the schedule, and when the node has one rank the schedule holds no
broadcast. -/
theorem C16_fixup_outside_node_zero (op : MPI_Op) (t : Topo) (hwf : t.WF) (count : Nat)
    (sendbuf : Option Buf) (fuel r : Nat) (hr : r < t.size) :
    (t.nodeOf r = 0 →
      (∀ b root c, Step.ibcast b root c ∉
        stepsOf (MPIR_Iscan_SMP fuel noFaults sendbuf Buf.recvbuf count op (smpComm t r)
          Sched.empty)) ∧
      (∀ a b, Step.reduce a b ∉
        stepsOf (MPIR_Iscan_SMP fuel noFaults sendbuf Buf.recvbuf count op (smpComm t r)
          Sched.empty))) ∧
    (t.nodeOf r ≠ 0 →
      (stepsOf (MPIR_Iscan_SMP fuel noFaults sendbuf Buf.recvbuf count op (smpComm t r)
          Sched.empty)).getLast? = some (Step.reduce Buf.tempbuf Buf.recvbuf) ∧
      (∀ a b, Step.reduce a b ∈
        stepsOf (MPIR_Iscan_SMP fuel noFaults sendbuf Buf.recvbuf count op (smpComm t r)
          Sched.empty) → a = Buf.tempbuf ∧ b = Buf.recvbuf) ∧
      (stepsOf (MPIR_Iscan_SMP fuel noFaults sendbuf Buf.recvbuf count op (smpComm t r)
          Sched.empty)).count (Step.reduce Buf.tempbuf Buf.recvbuf) = 1 ∧
      (1 < t.sz (t.nodeOf r) → ∃ body,
        stepsOf (MPIR_Iscan_SMP fuel noFaults sendbuf Buf.recvbuf count op (smpComm t r)
          Sched.empty) = body ++
          [Step.ibcast Buf.tempbuf 0 CommId.node_comm, Step.barrier,
           Step.reduce Buf.tempbuf Buf.recvbuf] ∧
        ∀ b root c, Step.ibcast b root c ∉ body) ∧
      (¬ 1 < t.sz (t.nodeOf r) → ∀ b root c, Step.ibcast b root c ∉
        stepsOf (MPIR_Iscan_SMP fuel noFaults sendbuf Buf.recvbuf count op (smpComm t r)
          Sched.empty))) := by
  have hs : stepsOf (MPIR_Iscan_SMP fuel noFaults sendbuf Buf.recvbuf count op (smpComm t r)
      Sched.empty) = smpSteps sendbuf (t.nodeOf r) (t.localRank r) (t.sz (t.nodeOf r)) t.N :=
    (smpWorld_spec fuel op (fun (a _ : Unit) => a) t hwf (fun _ => sendbuf) count
      (fun _ _ => ())).2.2 r hr
  obtain ⟨pre, e, h1, h2⟩ :=
    smpSteps_split sendbuf (t.nodeOf r) (t.localRank r) (t.sz (t.nodeOf r)) t.N
  rw [hs, e]
  exact fixup_shape pre (t.nodeOf r) (t.sz (t.nodeOf r)) h1 h2

/-- Witness of C16: two nodes of two ranks; rank 1, on node 0, records no
broadcast and no reduce, and the schedule of rank 3, on node 1, ends with the
broadcast of `tempbuf`, a barrier and the reduce of `tempbuf` into
`recvbuf`. -/
theorem C16_fixup_outside_node_zero_witness :
    ((∀ b root c, Step.ibcast b root c ∉
        stepsOf (MPIR_Iscan_SMP 0 noFaults (some Buf.sendbuf) Buf.recvbuf 1 ⟨true⟩
          (smpComm twoByTwo 1) Sched.empty)) ∧
      (∀ a b, Step.reduce a b ∉
        stepsOf (MPIR_Iscan_SMP 0 noFaults (some Buf.sendbuf) Buf.recvbuf 1 ⟨true⟩
          (smpComm twoByTwo 1) Sched.empty))) ∧
    (stepsOf (MPIR_Iscan_SMP 0 noFaults (some Buf.sendbuf) Buf.recvbuf 1 ⟨true⟩
        (smpComm twoByTwo 3) Sched.empty)).getLast? =
      some (Step.reduce Buf.tempbuf Buf.recvbuf) ∧
    (∃ body, stepsOf (MPIR_Iscan_SMP 0 noFaults (some Buf.sendbuf) Buf.recvbuf 1 ⟨true⟩
        (smpComm twoByTwo 3) Sched.empty) = body ++
          [Step.ibcast Buf.tempbuf 0 CommId.node_comm, Step.barrier,
           Step.reduce Buf.tempbuf Buf.recvbuf] ∧
      ∀ b root c, Step.ibcast b root c ∉ body) := by
  have h := fun r (hr : r < 4) =>
    C16_fixup_outside_node_zero ⟨true⟩ twoByTwo twoByTwo_wf 1 (some Buf.sendbuf) 0 r hr
  refine ⟨(h 1 (by decide)).1 (by decide), ((h 3 (by decide)).2 (by decide)).1, ?_⟩
  exact ((h 3 (by decide)).2 (by decide)).2.2.2.1 (by decide)

/-! ### C8: scratch atomicity -/

theorem maskTrace_zero (size : Nat) (h : int_lt 0 size = true) :
    ∀ n, maskTrace size n 0 = List.replicate n 0 := by
  intro n
  induction n with
  | zero => rfl
  | succ n ih =>
    have e : int_shl1 0 = 0 := by decide
    simp only [maskTrace, h, if_true, e, ih, List.replicate_succ]

theorem maskTrace_big (size : Nat) (h1 : 2 ^ 30 < size) (h2 : size < 2 ^ 31) :
    ∀ d k, k + d = 31 → ∀ n, maskTrace size (d + 1 + n) (2 ^ k) =
      (List.range d).map (fun i => 2 ^ (k + i)) ++ 2 ^ 31 :: List.replicate n 0 := by
  have hs : toInt32 size = (size : Int) := toInt32_of_lt h2
  intro d
  induction d with
  | zero =>
    intro k hk n
    obtain rfl : k = 31 := by omega
    have hlt : int_lt (2 ^ 31) size = true := by
      have e : toInt32 (2 ^ 31) = -2147483648 := by decide
      unfold int_lt
      rw [hs, e]
      simp
      omega
    have h0 : int_lt 0 size = true := by
      have e0 : toInt32 0 = 0 := by decide
      unfold int_lt
      rw [hs, e0]
      simp
      omega
    have e : int_shl1 (2 ^ 31) = 0 := by decide
    rw [show 0 + 1 + n = n + 1 by omega]
    simp only [maskTrace, hlt, if_true, e, maskTrace_zero size h0, List.range_zero,
      List.map_nil, List.nil_append]
  | succ d ih =>
    intro k hk n
    have hk1 : (2 : Nat) ^ k < 2 ^ 31 := Nat.pow_lt_pow_right (by norm_num) (by omega)
    have hk2 : (2 : Nat) ^ k ≤ 2 ^ 30 := Nat.pow_le_pow_right (by norm_num) (by omega)
    have h4 : 2 ^ k < size := by omega
    rw [show d + 1 + 1 + n = (d + 1 + n) + 1 by omega]
    simp only [maskTrace, int_lt_of_lt hk1 h2, h4, decide_True, if_true,
      int_shl1_two_pow (show k ≤ 30 by omega), ih (k + 1) (by omega) n,
      List.range_succ_eq_map, List.map_cons, List.map_map, Nat.add_zero, List.cons_append]
    congr 2
    apply List.map_congr_left
    intro i _
    simp only [Function.comp]
    congr 1
    omega

theorem roundCalls_zero_length (isc : Bool) (recvbuf : Buf) (id : CommId) (rank size : Nat)
    (hr : rank < size) (hs : size < 2 ^ 31) :
    5 ≤ (roundCalls isc recvbuf id rank size 0).length := by
  have hr1 : rank < 2 ^ 31 := by omega
  have e : int_xor rank 0 = rank := by
    rw [int_xor_of_lt hr1 (by norm_num)]
    simp
  unfold roundCalls
  simp only [e, int_lt_of_lt hr1 hs, int_lt_of_lt hr1 hr1, hr, decide_True, if_true,
    lt_irrefl, decide_False]
  cases isc <;> simp

theorem flatMap_replicate_length {β : Type} (f : Nat → List β) (a : Nat) :
    ∀ n, ((List.replicate n a).flatMap f).length = n * (f a).length := by
  intro n
  induction n with
  | zero => simp
  | succ n ih =>
    rw [List.replicate_succ, List.flatMap_cons, List.length_append, ih]
    ring

theorem flatCalls_reach (fuel : Nat) (sendbuf : Option Buf) (recvbuf : Buf) (op : MPI_Op)
    (comm_ptr : Comm) (h1 : 2 ^ 30 < comm_ptr.local_size) (h2 : comm_ptr.local_size < 2 ^ 31)
    (hr : comm_ptr.rank < comm_ptr.local_size) (k : Nat) (hk : k + 34 ≤ fuel) :
    k < (flatCalls fuel sendbuf recvbuf op comm_ptr).length := by
  obtain ⟨n, rfl⟩ : ∃ n, fuel = 31 + 1 + n := ⟨fuel - 32, by omega⟩
  have ht := maskTrace_big comm_ptr.local_size h1 h2 31 0 (by omega) n
  simp only [pow_zero] at ht
  have hlen := roundCalls_zero_length op.is_commutative recvbuf comm_ptr.id comm_ptr.rank
    comm_ptr.local_size hr h2
  have hmul : 5 * n ≤ n * (roundCalls op.is_commutative recvbuf comm_ptr.id comm_ptr.rank
      comm_ptr.local_size 0).length := by
    rw [Nat.mul_comm 5 n]
    exact Nat.mul_le_mul_left n hlen
  unfold flatCalls
  rw [ht, List.length_append, List.flatMap_append, List.length_append, List.flatMap_cons,
    List.length_append, flatMap_replicate_length]
  omega

theorem roundCalls_records (isc : Bool) (recvbuf : Buf) (id : CommId) (rank size mask : Nat) :
    ∀ c ∈ roundCalls isc recvbuf id rank size mask, ∃ st, c = Call.record st := by
  intro c hc
  unfold roundCalls at hc
  simp only at hc
  split at hc
  · split at hc
    · simp at hc; rcases hc with h | h | h | h | h | h <;> subst h <;> exact ⟨_, rfl⟩
    · split at hc
      · simp at hc; rcases hc with h | h | h | h | h <;> subst h <;> exact ⟨_, rfl⟩
      · simp at hc; rcases hc with h | h | h | h | h | h | h <;> subst h <;> exact ⟨_, rfl⟩
  · simp at hc

theorem callMallocs_records :
    ∀ (l : List Call), (∀ c ∈ l, ∃ st, c = Call.record st) → callMallocs l = [] := by
  intro l
  induction l with
  | nil => intro _; rfl
  | cons c rest ih =>
    intro h
    obtain ⟨st, rfl⟩ := h c (List.mem_cons_self _ _)
    simp only [callMallocs]
    exact ih (fun c hc => h c (List.mem_cons_of_mem _ hc))

theorem flatCalls_split (fuel : Nat) (sendbuf : Option Buf) (recvbuf : Buf) (op : MPI_Op)
    (comm_ptr : Comm) :
    ∃ rest, flatCalls fuel sendbuf recvbuf op comm_ptr =
        Call.malloc Buf.partial_scan :: Call.malloc Buf.tmp_buf :: rest ∧
      ∀ c ∈ rest, ∃ st, c = Call.record st := by
  have hrounds : ∀ c ∈ (maskTrace comm_ptr.local_size fuel 1).flatMap
      (roundCalls op.is_commutative recvbuf comm_ptr.id comm_ptr.rank comm_ptr.local_size),
      ∃ st, c = Call.record st := by
    intro c hc
    obtain ⟨m, _, hm⟩ := List.mem_flatMap.mp hc
    exact roundCalls_records _ _ _ _ _ _ c hm
  unfold flatCalls recDblInit
  cases sendbuf with
  | none =>
    refine ⟨Call.record (Step.copy recvbuf Buf.partial_scan) ::
      (maskTrace comm_ptr.local_size fuel 1).flatMap
        (roundCalls op.is_commutative recvbuf comm_ptr.id comm_ptr.rank comm_ptr.local_size),
      rfl, ?_⟩
    intro c hc
    simp only [List.mem_cons] at hc
    rcases hc with h | h
    · exact ⟨_, h⟩
    · exact hrounds c h
  | some sb =>
    refine ⟨Call.record (Step.copy sb recvbuf) :: Call.record (Step.copy sb Buf.partial_scan) ::
      (maskTrace comm_ptr.local_size fuel 1).flatMap
        (roundCalls op.is_commutative recvbuf comm_ptr.id comm_ptr.rank comm_ptr.local_size),
      rfl, ?_⟩
    intro c hc
    simp only [List.mem_cons] at hc
    rcases hc with h | h | h
    · exact ⟨_, h⟩
    · exact ⟨_, h⟩
    · exact hrounds c h

theorem flatCalls_mallocs_take (fuel : Nat) (sendbuf : Option Buf) (recvbuf : Buf)
    (op : MPI_Op) (comm_ptr : Comm) (k : Nat) :
    callMallocs ((flatCalls fuel sendbuf recvbuf op comm_ptr).take k) =
      [Buf.partial_scan, Buf.tmp_buf].take k := by
  obtain ⟨rest, e, hrest⟩ := flatCalls_split fuel sendbuf recvbuf op comm_ptr
  rw [e]
  match k with
  | 0 => rfl
  | 1 => rfl
  | k + 2 =>
    simp only [List.take_succ_cons, callMallocs, List.take_nil]
    rw [callMallocs_records _ (fun c hc => hrest c (List.mem_of_mem_take hc))]

theorem flatCalls_plain (fuel : Nat) (sendbuf : Option Buf) (recvbuf : Buf) (op : MPI_Op)
    (comm_ptr : Comm) : ∀ c ∈ flatCalls fuel sendbuf recvbuf op comm_ptr, c.isPlain = true := by
  obtain ⟨rest, e, hrest⟩ := flatCalls_split fuel sendbuf recvbuf op comm_ptr
  rw [e]
  intro c hc
  simp only [List.mem_cons] at hc
  rcases hc with h | h | h
  · subst h; rfl
  · subst h; rfl
  · obtain ⟨st, rfl⟩ := hrest c h
    rfl

theorem code_plain (env : Faults) (s : Sched) (c : Call) (h : c.isPlain = true) :
    c.code env s = env s.ncalls := by
  cases c with
  | malloc b => rfl
  | record st => rfl
  | delegate f => simp [Call.isPlain] at h
  | assert b => simp [Call.isPlain] at h

theorem flatCalls_mallocs (fuel : Nat) (sendbuf : Option Buf) (recvbuf : Buf) (op : MPI_Op)
    (comm_ptr : Comm) :
    callMallocs (flatCalls fuel sendbuf recvbuf op comm_ptr) =
      [Buf.partial_scan, Buf.tmp_buf] := by
  obtain ⟨rest, e, hrest⟩ := flatCalls_split fuel sendbuf recvbuf op comm_ptr
  rw [e]
  simp only [callMallocs]
  rw [callMallocs_records _ hrest]

theorem split_at_index (l : List Call) (j : Nat) (c : Call) (h : l[j]? = some c) :
    l = l.take j ++ c :: l.drop (j + 1) := by
  obtain ⟨hj, e⟩ := List.getElem?_eq_some.mp h
  have h1 := List.drop_eq_getElem_cons hj
  rw [e] at h1
  rw [← h1, List.take_append_drop]

theorem runSome_cases (env : Faults) :
    ∀ (calls : List Call) (s : Sched) (stack : List Buf) (codes : List Nat),
      (∃ st, runSome env calls s stack codes = Except.ok st) ∨
      ∃ j c st, calls[j]? = some c ∧
        runSome env (calls.take j) s stack codes = Except.ok st ∧
        (c.code env st.1 ≠ 0 ∨
          (c = Call.assert false ∧
            runSome env calls s stack codes = Except.error Result.aborted)) := by
  intro calls
  induction calls with
  | nil => intro s stack codes; exact Or.inl ⟨_, rfl⟩
  | cons c rest ih =>
    intro s stack codes
    cases c with
    | malloc b =>
      by_cases h0 : env s.ncalls = 0
      · rcases ih ⟨s.steps, s.ncalls + 1⟩ (stack ++ [b]) (codes ++ [0]) with
          ⟨st, h⟩ | ⟨j, c1, st, hget, htake, hcase⟩
        · exact Or.inl ⟨st, by simp only [runSome, if_pos h0]; exact h⟩
        · refine Or.inr ⟨j + 1, c1, st, by simpa using hget,
            by simp only [List.take_succ_cons, runSome, if_pos h0]; exact htake, ?_⟩
          rcases hcase with h | ⟨e, h⟩
          · exact Or.inl h
          · exact Or.inr ⟨e, by simp only [runSome, if_pos h0]; exact h⟩
      · exact Or.inr ⟨0, Call.malloc b, (s, stack, codes), by simp, rfl, Or.inl h0⟩
    | record x =>
      by_cases h0 : env s.ncalls = 0
      · rcases ih ⟨s.steps ++ [x], s.ncalls + 1⟩ stack (codes ++ [0]) with
          ⟨st, h⟩ | ⟨j, c1, st, hget, htake, hcase⟩
        · exact Or.inl ⟨st, by simp only [runSome, if_pos h0]; exact h⟩
        · refine Or.inr ⟨j + 1, c1, st, by simpa using hget,
            by simp only [List.take_succ_cons, runSome, if_pos h0]; exact htake, ?_⟩
          rcases hcase with h | ⟨e, h⟩
          · exact Or.inl h
          · exact Or.inr ⟨e, by simp only [runSome, if_pos h0]; exact h⟩
      · exact Or.inr ⟨0, Call.record x, (s, stack, codes), by simp, rfl, Or.inl h0⟩
    | delegate g =>
      by_cases h0 : (g s).1 = 0
      · rcases ih (g s).2 stack (codes ++ [0]) with
          ⟨st, h⟩ | ⟨j, c1, st, hget, htake, hcase⟩
        · exact Or.inl ⟨st, by simp only [runSome, if_pos h0]; exact h⟩
        · refine Or.inr ⟨j + 1, c1, st, by simpa using hget,
            by simp only [List.take_succ_cons, runSome, if_pos h0]; exact htake, ?_⟩
          rcases hcase with h | ⟨e, h⟩
          · exact Or.inl h
          · exact Or.inr ⟨e, by simp only [runSome, if_pos h0]; exact h⟩
      · exact Or.inr ⟨0, Call.delegate g, (s, stack, codes), by simp, rfl, Or.inl h0⟩
    | assert cond =>
      cases cond with
      | false =>
        exact Or.inr ⟨0, Call.assert false, (s, stack, codes), by simp, rfl, Or.inr ⟨rfl, rfl⟩⟩
      | true =>
        rcases ih s stack codes with ⟨st, h⟩ | ⟨j, c1, st, hget, htake, hcase⟩
        · exact Or.inl ⟨st, by simp only [runSome, if_true]; exact h⟩
        · refine Or.inr ⟨j + 1, c1, st, by simpa using hget,
            by simp only [List.take_succ_cons, runSome, if_true]; exact htake, ?_⟩
          rcases hcase with h | ⟨e, h⟩
          · exact Or.inl h
          · exact Or.inr ⟨e, by simp only [runSome, if_true]; exact h⟩

theorem rec_dbl_fails_at (fuel : Nat) (env : Faults) (sendbuf : Option Buf) (recvbuf : Buf)
    (count : Nat) (op : MPI_Op) (comm_ptr : Comm) (s : Sched) (hcount : count ≠ 0) (k : Nat)
    (hk : k < (flatCalls fuel sendbuf recvbuf op comm_ptr).length)
    (hzero : ∀ i, i < k → env (s.ncalls + i) = 0) (hfail : env (s.ncalls + k) ≠ 0) :
    ∃ o, MPIR_Iscan_rec_dbl fuel env sendbuf recvbuf count op comm_ptr s =
        some (Result.returned o) ∧
      o.mpi_errno = env (s.ncalls + k) ∧
      o.allocated = [Buf.partial_scan, Buf.tmp_buf].take k ∧
      o.reaped = [Buf.partial_scan, Buf.tmp_buf].take k ∧ o.committed = [] := by
  have hget : (flatCalls fuel sendbuf recvbuf op comm_ptr)[k]? =
      some ((flatCalls fuel sendbuf recvbuf op comm_ptr)[k]) := List.getElem?_eq_getElem hk
  have hsplit := split_at_index _ k _ hget
  have hplain := flatCalls_plain fuel sendbuf recvbuf op comm_ptr
  have hlen : ((flatCalls fuel sendbuf recvbuf op comm_ptr).take k).length = k := by
    rw [List.length_take]
    omega
  have hpre := runSome_zero env ((flatCalls fuel sendbuf recvbuf op comm_ptr).take k) s [] []
    (fun c hc => hplain c (List.mem_of_mem_take hc))
    (fun i hi => hzero i (by omega))
  rw [hlen] at hpre
  have hcode : ((flatCalls fuel sendbuf recvbuf op comm_ptr)[k]).code env
      ⟨s.steps ++ callSteps ((flatCalls fuel sendbuf recvbuf op comm_ptr).take k),
        s.ncalls + k⟩ = env (s.ncalls + k) :=
    code_plain env _ _ (hplain _ (List.getElem_mem _))
  obtain ⟨o, ho, h1, h2, h3, h4⟩ := runSome_fail env _ _
    ((flatCalls fuel sendbuf recvbuf op comm_ptr).drop (k + 1)) s [] [] _ _ _ hpre
    (by rw [hcode]; exact hfail)
  rw [← hsplit] at ho
  refine ⟨o, ?_, h1.trans hcode, ?_, ?_, h4⟩
  · rw [rec_dbl_trace fuel env sendbuf recvbuf count op comm_ptr s hcount, ho]
  · rw [h2, List.nil_append, flatCalls_mallocs_take]
  · rw [h3, List.nil_append, flatCalls_mallocs_take]

theorem rec_dbl_succeeds (fuel : Nat) (env : Faults) (sendbuf : Option Buf) (recvbuf : Buf)
    (count : Nat) (op : MPI_Op) (comm_ptr : Comm) (s : Sched) (hcount : count ≠ 0)
    (hend : (maskTrace comm_ptr.local_size fuel 1).length < fuel)
    (hzero : ∀ i, i < (flatCalls fuel sendbuf recvbuf op comm_ptr).length →
      env (s.ncalls + i) = 0) :
    ∃ o, MPIR_Iscan_rec_dbl fuel env sendbuf recvbuf count op comm_ptr s =
        some (Result.returned o) ∧
      o.mpi_errno = MPI_SUCCESS ∧ o.allocated = [Buf.partial_scan, Buf.tmp_buf] ∧
      o.committed = [Buf.partial_scan, Buf.tmp_buf] ∧ o.reaped = [] := by
  have hrun := runSome_zero env (flatCalls fuel sendbuf recvbuf op comm_ptr) s [] []
    (flatCalls_plain fuel sendbuf recvbuf op comm_ptr) hzero
  rw [rec_dbl_trace fuel env sendbuf recvbuf count op comm_ptr s hcount, hrun]
  simp only [if_pos hend, List.nil_append, flatCalls_mallocs]
  exact ⟨_, rfl, rfl, rfl, rfl, rfl⟩

theorem smp_eq_runSome (fuel : Nat) (env : Faults) (sendbuf : Option Buf) (recvbuf : Buf)
    (count : Nat) (op : MPI_Op) (comm_ptr : Comm) (s : Sched)
    (hc : comm_ptr.is_node_consecutive = true) :
    MPIR_Iscan_SMP fuel env sendbuf recvbuf count op comm_ptr s =
      some (match runSome env (smpCalls sendbuf recvbuf count op comm_ptr) s [] [] with
        | Except.error r => r
        | Except.ok (s1, stack1, codes1) =>
          Result.returned ⟨MPI_SUCCESS, s1, stack1, stack1, [], codes1⟩) := by
  unfold MPIR_Iscan_SMP
  simp only [hc, Bool.not_true, Bool.false_eq_true, if_false]
  rw [runCalls_of_runSome]

/-- C8: scratch atomicity of both builders, for every invocation and every
fault plan `env`.

Flat builder, `count` other than zero (its calls are the two allocations,
then step recorders only, and the `k`-th call gets the code
`env (s.ncalls + k)`): if the calls before the `k`-th succeed and the `k`-th
fails, the builder returns that non-success code, has reaped exactly the
buffers allocated so far (the first `k` of `partial_scan`, `tmp_buf`) and has
committed none; if the loop ends and every call succeeds, it returns success,
has committed `partial_scan` and `tmp_buf` once each and has reaped none.
The fuel suffices: with 32 iterations the loop ends in a group of at most
`2 ^ 30` ranks, and in a larger group the `k`-th call is reached within
`k + 34` iterations.  With a count of zero the builder returns success with
nothing allocated.

Hierarchical builder on a node-consecutive group: if the calls before the
`j`-th succeed and the `j`-th (an allocation, a step recorder or a delegated
sub-group builder) returns a non-zero code, the builder returns that code,
has reaped exactly the buffers allocated by the calls before and has
committed none; if every call succeeds it returns success, has committed
each buffer it allocated, all distinct, and has reaped none; and every run
is one of these two, or stops on a false assertion. -/
theorem C8_scratch_atomicity (fuel : Nat) (env : Faults) (sendbuf : Option Buf)
    (recvbuf : Buf) (count : Nat) (op : MPI_Op) (comm_ptr : Comm) (s : Sched) :
    (count ≠ 0 → ∀ k, k < (flatCalls fuel sendbuf recvbuf op comm_ptr).length →
      (∀ i, i < k → env (s.ncalls + i) = 0) → env (s.ncalls + k) ≠ 0 →
      ∃ o, MPIR_Iscan_rec_dbl fuel env sendbuf recvbuf count op comm_ptr s =
          some (Result.returned o) ∧
        o.mpi_errno = env (s.ncalls + k) ∧
        o.allocated = [Buf.partial_scan, Buf.tmp_buf].take k ∧
        o.reaped = [Buf.partial_scan, Buf.tmp_buf].take k ∧ o.committed = []) ∧
    (count ≠ 0 → (maskTrace comm_ptr.local_size fuel 1).length < fuel →
      (∀ i, i < (flatCalls fuel sendbuf recvbuf op comm_ptr).length →
        env (s.ncalls + i) = 0) →
      ∃ o, MPIR_Iscan_rec_dbl fuel env sendbuf recvbuf count op comm_ptr s =
          some (Result.returned o) ∧
        o.mpi_errno = MPI_SUCCESS ∧ o.allocated = [Buf.partial_scan, Buf.tmp_buf] ∧
        o.committed = [Buf.partial_scan, Buf.tmp_buf] ∧ o.reaped = []) ∧
    (comm_ptr.local_size ≤ 2 ^ 30 → 32 ≤ fuel →
      (maskTrace comm_ptr.local_size fuel 1).length < fuel) ∧
    (2 ^ 30 < comm_ptr.local_size → comm_ptr.local_size < 2 ^ 31 →
      comm_ptr.rank < comm_ptr.local_size → ∀ k, k + 34 ≤ fuel →
      k < (flatCalls fuel sendbuf recvbuf op comm_ptr).length) ∧
    (count = 0 → MPIR_Iscan_rec_dbl fuel env sendbuf recvbuf count op comm_ptr s =
      some (Result.returned ⟨MPI_SUCCESS, s, [], [], [], []⟩)) ∧
    (comm_ptr.is_node_consecutive = true →
      (∀ j c st, (smpCalls sendbuf recvbuf count op comm_ptr)[j]? = some c →
        runSome env ((smpCalls sendbuf recvbuf count op comm_ptr).take j) s [] [] =
          Except.ok st →
        c.code env st.1 ≠ 0 →
        ∃ o, MPIR_Iscan_SMP fuel env sendbuf recvbuf count op comm_ptr s =
            some (Result.returned o) ∧
          o.mpi_errno = c.code env st.1 ∧
          o.allocated = callMallocs ((smpCalls sendbuf recvbuf count op comm_ptr).take j) ∧
          o.reaped = callMallocs ((smpCalls sendbuf recvbuf count op comm_ptr).take j) ∧
          o.committed = []) ∧
      (∀ st, runSome env (smpCalls sendbuf recvbuf count op comm_ptr) s [] [] =
          Except.ok st →
        ∃ o, MPIR_Iscan_SMP fuel env sendbuf recvbuf count op comm_ptr s =
            some (Result.returned o) ∧
          o.mpi_errno = MPI_SUCCESS ∧
          o.allocated = callMallocs (smpCalls sendbuf recvbuf count op comm_ptr) ∧
          o.committed = callMallocs (smpCalls sendbuf recvbuf count op comm_ptr) ∧
          o.reaped = [] ∧
          (callMallocs (smpCalls sendbuf recvbuf count op comm_ptr)).Nodup) ∧
      ((∃ st, runSome env (smpCalls sendbuf recvbuf count op comm_ptr) s [] [] =
          Except.ok st) ∨
        ∃ j c st, (smpCalls sendbuf recvbuf count op comm_ptr)[j]? = some c ∧
          runSome env ((smpCalls sendbuf recvbuf count op comm_ptr).take j) s [] [] =
            Except.ok st ∧
          (c.code env st.1 ≠ 0 ∨
            (c = Call.assert false ∧
              MPIR_Iscan_SMP fuel env sendbuf recvbuf count op comm_ptr s =
                some Result.aborted)))) := by
  refine ⟨fun hcount k hk hzero hfail =>
      rec_dbl_fails_at fuel env sendbuf recvbuf count op comm_ptr s hcount k hk hzero hfail,
    fun hcount hend hzero =>
      rec_dbl_succeeds fuel env sendbuf recvbuf count op comm_ptr s hcount hend hzero,
    ?_, fun h1 h2 hr k hk => flatCalls_reach fuel sendbuf recvbuf op comm_ptr h1 h2 hr k hk,
    ?_, ?_⟩
  · intro hs hfuel
    rw [flat_trace comm_ptr.local_size fuel hs hfuel]
    have := (clog_facts comm_ptr.local_size hs).1
    simp only [List.length_map, List.length_range]
    omega
  · intro hcount
    simp [MPIR_Iscan_rec_dbl, hcount]
  · intro hc
    have hsmp := smp_eq_runSome fuel env sendbuf recvbuf count op comm_ptr s hc
    refine ⟨?_, ?_, ?_⟩
    · intro j c st hget hpre hcode
      obtain ⟨s1, stack1, codes1⟩ := st
      have hsplit := split_at_index _ j c hget
      obtain ⟨o, ho, h1, h2, h3, h4⟩ := runSome_fail env _ c
        ((smpCalls sendbuf recvbuf count op comm_ptr).drop (j + 1)) s [] [] s1 stack1 codes1
        hpre hcode
      rw [← hsplit] at ho
      have hst := runSome_ok_stack env _ _ _ _ _ _ _ hpre
      rw [List.nil_append] at hst
      refine ⟨o, ?_, h1, by rw [h2, hst], by rw [h3, hst], h4⟩
      rw [hsmp, ho]
    · intro st hrun
      obtain ⟨s1, stack1, codes1⟩ := st
      have hst := runSome_ok_stack env _ _ _ _ _ _ _ hrun
      rw [List.nil_append] at hst
      refine ⟨_, by rw [hsmp, hrun], rfl, hst, hst, rfl,
        smpCalls_mallocs_nodup sendbuf recvbuf count op comm_ptr⟩
    · rcases runSome_cases env (smpCalls sendbuf recvbuf count op comm_ptr) s [] [] with
        h | ⟨j, c, st, hget, hpre, hcase⟩
      · exact Or.inl h
      · refine Or.inr ⟨j, c, st, hget, hpre, ?_⟩
        rcases hcase with h | ⟨e, h⟩
        · exact Or.inl h
        · exact Or.inr ⟨e, by rw [hsmp, h]⟩

/-- Witness of C8.  Flat builder at rank 0 of four ranks: when the second
allocation (`tmp_buf`) fails with code 16 the builder returns 16, has reaped
`partial_scan`, the one buffer it had allocated, and has committed nothing;
when nothing fails it returns success with both buffers committed and none
reaped.  Hierarchical builder at rank 3 of two nodes of two ranks: when the
delegated scan builder of the node fails with code 16 the builder returns
16, has reaped `tempbuf` and has committed nothing. -/
theorem C8_scratch_atomicity_witness :
    (∃ o, MPIR_Iscan_rec_dbl 32 (failAt 1) (some Buf.sendbuf) Buf.recvbuf 1 ⟨false⟩
        (flatComm 4 0) Sched.empty = some (Result.returned o) ∧
      o.mpi_errno = 16 ∧ o.allocated = [Buf.partial_scan] ∧ o.reaped = [Buf.partial_scan] ∧
      o.committed = []) ∧
    (∃ o, MPIR_Iscan_rec_dbl 32 noFaults (some Buf.sendbuf) Buf.recvbuf 1 ⟨false⟩
        (flatComm 4 0) Sched.empty = some (Result.returned o) ∧
      o.mpi_errno = MPI_SUCCESS ∧ o.allocated = [Buf.partial_scan, Buf.tmp_buf] ∧
      o.committed = [Buf.partial_scan, Buf.tmp_buf] ∧ o.reaped = []) ∧
    (∃ o, MPIR_Iscan_SMP 32 noFaults (some Buf.sendbuf) Buf.recvbuf 1 ⟨true⟩ failingNodeComm
        Sched.empty = some (Result.returned o) ∧
      o.mpi_errno = 16 ∧ o.allocated = [Buf.tempbuf] ∧ o.reaped = [Buf.tempbuf] ∧
      o.committed = []) :=
  ⟨(C8_scratch_atomicity 32 (failAt 1) (some Buf.sendbuf) Buf.recvbuf 1 ⟨false⟩
      (flatComm 4 0) Sched.empty).1 (by decide) 1 (by decide) (by decide) (by decide),
    (C8_scratch_atomicity 32 noFaults (some Buf.sendbuf) Buf.recvbuf 1 ⟨false⟩
      (flatComm 4 0) Sched.empty).2.1 (by decide) (by decide) (fun _ _ => rfl),
    (C8_scratch_atomicity 32 noFaults (some Buf.sendbuf) Buf.recvbuf 1 ⟨true⟩
      failingNodeComm Sched.empty).2.2.2.2.2 rfl |>.1 2
      (Call.delegate (failingIscan (some Buf.sendbuf) Buf.recvbuf 1 ⟨true⟩ CommId.node_comm))
      (⟨[], 1⟩, [Buf.tempbuf], [0]) rfl rfl (by decide)⟩

/-! ### C14: the window invariant -/

theorem clog_facts_int (size : Nat) (hs : size < 2 ^ 31) :
    Nat.clog 2 size ≤ 31 ∧ size ≤ 2 ^ Nat.clog 2 size ∧
      ∀ i, i < Nat.clog 2 size → 2 ^ i < size := by
  refine ⟨(Nat.le_pow_iff_clog_le (by norm_num)).mp (by omega),
    Nat.le_pow_clog (by norm_num) _, ?_⟩
  intro i hi
  by_contra hne
  have := (Nat.le_pow_iff_clog_le (b := 2) (by norm_num)).mp (Nat.not_lt.mp hne)
  omega

theorem maskTrace_first (size : Nat) (hs : size < 2 ^ 31) :
    ∀ (n k : Nat), k + n ≤ 31 → (∀ i, i < n → 2 ^ (k + i) < size) →
      maskTrace size n (2 ^ k) = (List.range n).map (fun i => 2 ^ (k + i)) := by
  intro n
  induction n with
  | zero => intro k _ _; rfl
  | succ n ih =>
    intro k hk hlt
    have h1 : (2 : Nat) ^ k < 2 ^ 31 := Nat.pow_lt_pow_right (by norm_num) (by omega)
    have h4 : 2 ^ k < size := by simpa using hlt 0 (by omega)
    have ihk := ih (k + 1) (by omega)
      (fun i hi => by rw [show k + 1 + i = k + (i + 1) by omega]; exact hlt (i + 1) (by omega))
    simp only [maskTrace, int_lt_of_lt h1 hs, h4, decide_True, if_true,
      int_shl1_two_pow (show k ≤ 30 by omega), ihk, List.range_succ_eq_map, List.map_cons,
      List.map_map, Nat.add_zero]
    congr 1
    apply List.map_congr_left
    intro i _
    simp only [Function.comp]
    congr 1
    omega

theorem roundsFrom_flatMap (isc : Bool) (recvbuf : Buf) (id : CommId) (rank size : Nat) :
    ∀ (n k : Nat), roundsFrom isc recvbuf id rank size n k =
      ((List.range n).map (fun i => 2 ^ (k + i))).flatMap
        (roundCalls isc recvbuf id rank size) := by
  intro n
  induction n with
  | zero => intro k; rfl
  | succ n ih =>
    intro k
    simp only [roundsFrom, ih, List.range_succ_eq_map, List.map_cons, List.map_map,
      List.flatMap_cons, Nat.add_zero]
    congr 2
    apply List.map_congr_left
    intro i _
    simp only [Function.comp]
    congr 1
    omega

theorem flatCalls_first (sendbuf : Option Buf) (op : MPI_Op) (size rank : Nat)
    (hs : size < 2 ^ 31) :
    callSteps (flatCalls (Nat.clog 2 size) sendbuf Buf.recvbuf op (flatComm size rank)) =
      flatPre op.is_commutative sendbuf rank size (Nat.clog 2 size) := by
  obtain ⟨hK, _, hlt⟩ := clog_facts_int size hs
  have ht := maskTrace_first size hs (Nat.clog 2 size) 0 (by omega)
    (fun i hi => by simpa using hlt i hi)
  simp only [pow_zero] at ht
  unfold flatCalls flatPre
  simp only [flatComm, ht, callSteps_append, roundsFrom_flatMap]

/-- C14: in a flat group of any size (an `int`), for every rank `r < size`,
every associative operator (the commutative flag set only if the operator
commutes) and every `k`: the first `ceil(log2(size))` iterations of the mask
loop are those of the masks `1, 2, 4, ...` below `size`; when every rank
holds the steps recorded by the calls the builder makes before the loop and
in these iterations (in a group of at most `2 ^ 30` ranks, the schedule the
builder returns), and rank `r` has executed in order the initial copies and
the rounds of all the masks below `2 ^ k`, then `recvbuf` of `r` is the
left-to-right combination of the contributions of ranks `r - r mod 2 ^ k`
through `r`, and, if the aligned block of `2 ^ k` ranks that contains `r`
lies entirely below `size`, `partial_scan` of `r` is the left-to-right
combination of that whole block. -/
theorem C14_window_invariant {α : Type} (f : α → α → α)
    (hassoc : ∀ a b c, f (f a b) c = f a (f b c)) (op : MPI_Op)
    (hcomm : op.is_commutative = true → ∀ a b, f a b = f b a)
    (size : Nat) (hs : size < 2 ^ 31)
    (sendbuf : Nat → Option Buf) (init : Nat → Mem α) (fuel : Nat) (hfuel : 32 ≤ fuel)
    (r : Nat) (hr : r < size) (k : Nat) :
    maskTrace size (Nat.clog 2 size) 1 = (List.range (Nat.clog 2 size)).map (fun i => 2 ^ i) ∧
    callSteps (flatCalls (Nat.clog 2 size) (sendbuf r) Buf.recvbuf op (flatComm size r)) =
      (roundsWorld op f size sendbuf init).sched r ∧
    (size ≤ 2 ^ 30 → ∀ count, count ≠ 0 →
      (flatWorld fuel op f size sendbuf count init).sched r =
        (roundsWorld op f size sendbuf init).sched r) ∧
    ∃ rest m,
      (roundsWorld op f size sendbuf init).sched r =
        flatPre op.is_commutative (sendbuf r) r size (min k (Nat.clog 2 size)) ++ rest ∧
      runSteps (roundsWorld op f size sendbuf init)
        (feedN (roundsWorld op f size sendbuf init) fuel) r []
        (flatPre op.is_commutative (sendbuf r) r size (min k (Nat.clog 2 size))) (init r)
        = some m ∧
      m Buf.recvbuf = scanRange f (fun q => contribution (sendbuf q) (init q))
        (r - r % 2 ^ k) (r % 2 ^ k) ∧
      (r - r % 2 ^ k + 2 ^ k ≤ size →
        m Buf.partial_scan = scanRange f (fun q => contribution (sendbuf q) (init q))
          (r - r % 2 ^ k) (2 ^ k - 1)) := by
  obtain ⟨hK, hle, hlt⟩ := clog_facts_int size hs
  refine ⟨?_, flatCalls_first (sendbuf r) op size r hs, ?_, ?_⟩
  · have := maskTrace_first size hs (Nat.clog 2 size) 0 (by omega)
      (fun i hi => by simpa using hlt i hi)
    simpa using this
  · intro hs30 count hcount
    exact flat_sched fuel op f size sendbuf count init hs30 hfuel hcount r
  have hmin : min k (Nat.clog 2 size) ≤ Nat.clog 2 size := Nat.min_le_right _ _
  obtain ⟨m, hm, hrecv, hpart⟩ := flat_inv_int f hassoc op.is_commutative hcomm size
    (Nat.clog 2 size) hs hK sendbuf (roundsWorld op f size sendbuf init) rfl
    (fun _ _ => rfl) (fun _ _ => rfl) (min k (Nat.clog 2 size)) hmin fuel (by omega) r hr
  have hsplit : (roundsWorld op f size sendbuf init).sched r =
      flatPre op.is_commutative (sendbuf r) r size (min k (Nat.clog 2 size)) ++
        callSteps (roundsFrom op.is_commutative Buf.recvbuf CommId.comm_ptr r size
          (Nat.clog 2 size - min k (Nat.clog 2 size)) (min k (Nat.clog 2 size))) := by
    rw [← flatPre_add]
    simp only [roundsWorld]
    congr 1
    omega
  refine ⟨_, m, hsplit, hm, ?_, ?_⟩
  · by_cases hk : k ≤ Nat.clog 2 size
    · rw [Nat.min_eq_left hk] at hrecv
      exact hrecv
    · have hkK : Nat.clog 2 size ≤ k := by omega
      rw [Nat.min_eq_right hkK] at hrecv
      have hpow : 2 ^ Nat.clog 2 size ≤ 2 ^ k := Nat.pow_le_pow_right (by norm_num) hkK
      rw [hrecv, Nat.mod_eq_of_lt (show r < 2 ^ Nat.clog 2 size by omega),
        Nat.mod_eq_of_lt (show r < 2 ^ k by omega)]
      rfl
  · intro hfull
    by_cases hk : k ≤ Nat.clog 2 size
    · rw [Nat.min_eq_left hk] at hpart
      exact hpart hfull
    · have hkK : Nat.clog 2 size + 1 ≤ k := by omega
      have hpow : 2 ^ (Nat.clog 2 size + 1) ≤ 2 ^ k := Nat.pow_le_pow_right (by norm_num) hkK
      have hpos : 0 < 2 ^ Nat.clog 2 size := Nat.two_pow_pos _
      have hmod : r % 2 ^ k ≤ r := Nat.mod_le _ _
      rw [pow_succ] at hpow
      omega

/-- Witness of C14, under concatenation with contributions `A`, `B`, `C`,
`D`: after the round with mask 1, rank 3 of four ranks holds `CD` in
`recvbuf` and in `partial_scan`, and rank 1 of `2 ^ 30 + 1` ranks holds `AB`
in both. -/
theorem C14_window_invariant_witness :
    (∃ rest m,
      (roundsWorld ⟨false⟩ (fun a b => a ++ b) 4 (fun _ => some Buf.sendbuf) abcdInit).sched 3 =
        flatPre false (some Buf.sendbuf) 3 4 (min 1 (Nat.clog 2 4)) ++ rest ∧
      runSteps (roundsWorld ⟨false⟩ (fun a b => a ++ b) 4 (fun _ => some Buf.sendbuf) abcdInit)
        (feedN (roundsWorld ⟨false⟩ (fun a b => a ++ b) 4 (fun _ => some Buf.sendbuf)
          abcdInit) 32) 3 []
        (flatPre false (some Buf.sendbuf) 3 4 (min 1 (Nat.clog 2 4))) (abcdInit 3) = some m ∧
      m Buf.recvbuf = ['C', 'D'] ∧ m Buf.partial_scan = ['C', 'D']) ∧
    (∃ rest m,
      (roundsWorld ⟨false⟩ (fun a b => a ++ b) (2 ^ 30 + 1) (fun _ => some Buf.sendbuf)
          abcdInit).sched 1 =
        flatPre false (some Buf.sendbuf) 1 (2 ^ 30 + 1) (min 1 (Nat.clog 2 (2 ^ 30 + 1))) ++
          rest ∧
      runSteps (roundsWorld ⟨false⟩ (fun a b => a ++ b) (2 ^ 30 + 1)
          (fun _ => some Buf.sendbuf) abcdInit)
        (feedN (roundsWorld ⟨false⟩ (fun a b => a ++ b) (2 ^ 30 + 1)
          (fun _ => some Buf.sendbuf) abcdInit) 32) 1 []
        (flatPre false (some Buf.sendbuf) 1 (2 ^ 30 + 1) (min 1 (Nat.clog 2 (2 ^ 30 + 1))))
        (abcdInit 1) = some m ∧
      m Buf.recvbuf = ['A', 'B'] ∧ m Buf.partial_scan = ['A', 'B']) := by
  constructor
  · obtain ⟨rest, m, h1, h2, h3, h4⟩ :=
      (C14_window_invariant (fun a b : List Char => a ++ b)
        (fun a b c => List.append_assoc a b c) ⟨false⟩ (fun h => by cases h) 4 (by decide)
        (fun _ => some Buf.sendbuf) abcdInit 32 (le_refl _) 3 (by decide) 1).2.2.2
    exact ⟨rest, m, h1, h2, by rw [h3]; decide, by rw [h4 (by decide)]; decide⟩
  · obtain ⟨rest, m, h1, h2, h3, h4⟩ :=
      (C14_window_invariant (fun a b : List Char => a ++ b)
        (fun a b c => List.append_assoc a b c) ⟨false⟩ (fun h => by cases h) (2 ^ 30 + 1)
        (by decide) (fun _ => some Buf.sendbuf) abcdInit 32 (le_refl _) 1 (by decide) 1).2.2.2
    exact ⟨rest, m, h1, h2, by rw [h3]; decide, by rw [h4 (by decide)]; decide⟩

end Iscan
